import Mathlib

/-!
# Verification of the WorldVision automated-analysis aggregation engine

Shallow embedding of `src/automated_analysis.py` (the aggregation passes:
engagement counts, repeat participation, demographic distributions, theme
cross-tabulations, message sampling), together with the data model it
consumes (`Code`, `CodeScheme`, `CodingConfiguration`, `CodingPlan`,
records with string-keyed fields).

Modelling conventions:
* Python dictionaries keyed by strings become functions `κ → Option β`
  (`none` = missing key, so a `KeyError` shows up as an explicit error);
  composite interpolated keys such as `f"{key}:{value}"` are modelled as
  pairs, and the `themes` dictionary, which mixes the synthetic
  `"Total Relevant Participants"` key with `f"{analysis_file_key}{value}"`
  keys, becomes an inductive key type.
* Fallible code (`assert`, `KeyError`, `ZeroDivisionError`) returns
  `Except`.
* `consent_withdrawn` holds `Codes.TRUE`/`Codes.FALSE`, modelled as `Bool`.
* Percentages are exact rationals; Python's `round(x, 1)` (round half to
  even) is `round1`.
-/

namespace WorldVision

/-- `core_data_modules.cleaners.Codes.STOP` (the stop/opt-out control code marker). -/
def Codes.STOP : String := "stop"

/-- `core_data_modules.data_models.code_scheme.CodeTypes`. -/
inductive CodeType
  | NORMAL
  | CONTROL
  | META
deriving DecidableEq, Repr

/-- `src.lib.configuration_objects.CodingModes`. -/
inductive CodingModes
  | SINGLE
  | MULTIPLE
deriving DecidableEq, Repr

/-- A code of a code scheme. -/
structure Code where
  code_id : String
  string_value : String
  code_type : CodeType
  control_code : Option String
deriving DecidableEq, Repr

/-- A code scheme: a named, ordered list of codes. -/
structure CodeScheme where
  name : String
  codes : List Code
deriving DecidableEq, Repr

/-- `get_code_with_code_id`: lookup of a code by its id in a scheme
(raises in Python when the id is unknown; here `none`). -/
def getCodeWithCodeId (scheme : CodeScheme) (cid : String) : Option Code :=
  scheme.codes.find? (fun c => c.code_id == cid)

/-- A coding configuration of a coding plan. -/
structure CodingConfiguration where
  coded_field : String
  code_scheme : CodeScheme
  coding_mode : CodingModes
  analysis_file_key : Option String
deriving Repr

/-- A coding plan (one survey question / RQA episode). -/
structure CodingPlan where
  dataset_name : String
  raw_field : String
  coding_configurations : List CodingConfiguration
deriving Repr

/-- All coding configurations of a catalog of plans, in the order the
nested `for plan in plans: for cc in plan.coding_configurations:` loops
visit them. -/
def allCCs (plans : List CodingPlan) : List CodingConfiguration :=
  plans.flatMap (fun p => p.coding_configurations)

/-- A single label assigned to a coded field (`{"CodeID": ...}`). -/
structure Label where
  CodeID : String
deriving DecidableEq, Repr

/-- The value stored under one key of a traced-data record: a single
label (single-select coded field), a list of labels (multi-select coded
field), or raw text (raw response field). -/
inductive FieldValue
  | label (l : Label)
  | labels (ls : List Label)
  | text (s : String)
deriving DecidableEq, Repr

/-- One traced-data record (a message or an individual).  The
`consent_withdrawn` and `uid` keys are pulled out as fields; everything
else is the string-keyed mapping. -/
structure Record where
  uid : String
  consent_withdrawn : Bool
  fields : String → Option FieldValue

/-- Pointwise update of a function-as-dictionary (a Python dict assignment). -/
def fset {α β : Type} [DecidableEq α] (m : α → Option β) (k : α) (v : β) :
    α → Option β :=
  fun k' => if k' = k then some v else m k'

theorem fset_same {α β : Type} [DecidableEq α] (m : α → Option β) (k : α) (v : β) :
    fset m k v k = some v := by
  simp [fset]

theorem fset_other {α β : Type} [DecidableEq α] (m : α → Option β) (k k' : α) (v : β)
    (h : k' ≠ k) : fset m k v k' = m k' := by
  simp [fset, h]

/-- Round a rational to the nearest integer, ties to even (Python's
`round` tie-breaking rule; Python computes over binary floats, modelled
here over exact rationals). -/
def roundHalfEven (x : ℚ) : ℤ :=
  let f : ℤ := ⌊x⌋
  if x - f < 1/2 then f
  else if x - f > 1/2 then f + 1
  else if f % 2 = 0 then f else f + 1

/-- Python's `round(x, 1)` over exact rationals. -/
def round1 (x : ℚ) : ℚ :=
  (roundHalfEven (x * 10) : ℚ) / 10

/-- `round(num / den * 100, 1)` — the percentage expression used by every
pass (only ever evaluated with `den ≠ 0`; a zero `den` raises
`ZeroDivisionError` in Python and is modelled as an explicit error at
each call site). -/
def pct1 (num den : ℕ) : ℚ :=
  round1 ((num : ℚ) / (den : ℚ) * 100)

/-- A percentage cell: not yet computed (Python `None`), the `"-"`
not-applicable sentinel, or a computed value. -/
inductive PctCell
  | notComputed
  | notApplicable
  | pct (q : ℚ)
deriving DecidableEq, Repr

/-! ## Record filters (`src.AnalysisUtils`)

`automated_analysis.py` imports `AnalysisUtils` from `src`, whose module
file is not present in the sources; the filters below are modelled from
the spec (§4.1). -/

/-- A record "participates" in a plan when the plan's raw field is
present in the record. -/
def participatesIn (r : Record) (plan : CodingPlan) : Bool :=
  (r.fields plan.raw_field).isSome

/-- Modelled from the spec: `AnalysisUtils.opt_in` — consent not
withdrawn and the record participates in the given plan. -/
def optInSingle (r : Record) (plan : CodingPlan) : Bool :=
  r.consent_withdrawn = false && participatesIn r plan

/-- Modelled from the spec: `AnalysisUtils.filter_opt_ins` — records with
consent not withdrawn that participate in at least one of the plans. -/
def filterOptIns (records : List Record) (plans : List CodingPlan) : List Record :=
  records.filter (fun r =>
    r.consent_withdrawn = false && plans.any (participatesIn r))

/-- A coded field of a record carries a fully resolvable assignment for a
configuration. -/
def ccLabelled (r : Record) (cc : CodingConfiguration) : Bool :=
  match r.fields cc.coded_field with
  | some (.label l) => (getCodeWithCodeId cc.code_scheme l.CodeID).isSome
  | some (.labels ls) => ls.all (fun l => (getCodeWithCodeId cc.code_scheme l.CodeID).isSome)
  | _ => false

/-- Modelled from the spec: `AnalysisUtils.filter_fully_labelled` — opt-in
records all of whose coded fields for the plans carry resolvable
assignments. -/
def filterFullyLabelled (records : List Record) (plans : List CodingPlan) : List Record :=
  records.filter (fun r =>
    r.consent_withdrawn = false &&
      plans.all (fun p => p.coding_configurations.all (ccLabelled r)))

/-- Modelled from the spec: `AnalysisUtils.filter_partially_labelled` —
opt-in records at least one of whose coded fields for the plans carries a
resolvable assignment. -/
def filterPartiallyLabelled (records : List Record) (plans : List CodingPlan) : List Record :=
  records.filter (fun r =>
    r.consent_withdrawn = false &&
      plans.any (fun p => p.coding_configurations.any (ccLabelled r)))

/-- A coded field of a record carries at least one NORMAL-typed code. -/
def ccHasNormal (r : Record) (cc : CodingConfiguration) : Bool :=
  match r.fields cc.coded_field with
  | some (.label l) =>
      match getCodeWithCodeId cc.code_scheme l.CodeID with
      | some c => c.code_type = CodeType.NORMAL
      | none => false
  | some (.labels ls) =>
      ls.any (fun l =>
        match getCodeWithCodeId cc.code_scheme l.CodeID with
        | some c => c.code_type = CodeType.NORMAL
        | none => false)
  | _ => false

/-- Modelled from the spec: `AnalysisUtils.filter_relevant` — opt-in
records carrying at least one NORMAL code across the plans. -/
def filterRelevant (records : List Record) (plans : List CodingPlan) : List Record :=
  records.filter (fun r =>
    r.consent_withdrawn = false &&
      plans.any (fun p => p.coding_configurations.any (ccHasNormal r)))

/-! ## Engagement counts (`automated_analysis.py` lines 84–123) -/

/-- One cell of the engagement-counts table: either the `"-"`
"not available" sentinel or an actual count. -/
inductive CountCell
  | na
  | num (n : ℕ)
deriving DecidableEq, Repr

instance : Inhabited CountCell := ⟨CountCell.na⟩

/-- One row of `engagement_counts.csv`. -/
structure EngagementRow where
  episode : String
  totalMessages : CountCell
  totalMessagesOptIns : CountCell
  totalLabelledMessages : CountCell
  totalRelevantMessages : CountCell
  totalParticipants : CountCell
  totalParticipantsOptIns : CountCell
  totalRelevantParticipants : CountCell
deriving Repr

instance : Inhabited EngagementRow :=
  ⟨⟨"", .na, .na, .na, .na, .na, .na, .na⟩⟩

/-- The per-episode engagement row (lines 88–99): the raw message and
participant totals are the `"-"` sentinel because per-episode raw data
has been overwritten with "STOP" upstream. -/
def engagementRow (plan : CodingPlan) (messages individuals : List Record) :
    EngagementRow where
  episode := plan.dataset_name
  totalMessages := .na
  totalMessagesOptIns := .num (filterOptIns messages [plan]).length
  totalLabelledMessages := .num (filterFullyLabelled messages [plan]).length
  totalRelevantMessages := .num (filterRelevant messages [plan]).length
  totalParticipants := .na
  totalParticipantsOptIns := .num (filterOptIns individuals [plan]).length
  totalRelevantParticipants := .num (filterRelevant individuals [plan]).length

/-- The final `"Total"` engagement row (lines 100–111): the raw totals
are the sizes of the full messages and individuals collections. -/
def engagementTotalRow (plans : List CodingPlan) (messages individuals : List Record) :
    EngagementRow where
  episode := "Total"
  totalMessages := .num messages.length
  totalMessagesOptIns := .num (filterOptIns messages plans).length
  totalLabelledMessages := .num (filterPartiallyLabelled messages plans).length
  totalRelevantMessages := .num (filterRelevant messages plans).length
  totalParticipants := .num individuals.length
  totalParticipantsOptIns := .num (filterOptIns individuals plans).length
  totalRelevantParticipants := .num (filterRelevant individuals plans).length

/-- The full `engagement_counts` table: one row per RQA plan, then the
`Total` row. -/
def engagementCounts (plans : List CodingPlan) (messages individuals : List Record) :
    List EngagementRow :=
  plans.map (fun plan => engagementRow plan messages individuals) ++
    [engagementTotalRow plans messages individuals]

/-! ## Repeat participation (`automated_analysis.py` lines 125–159) -/

/-- One row of `repeat_participations.csv`. -/
structure RepeatRow where
  episodesParticipatedIn : ℕ
  numberOfIndividuals : ℕ
  pctOfIndividuals : PctCell
deriving DecidableEq, Repr

inductive RepeatError
  | noParticipation (uid : String)
  | missingBucket (n : ℕ)
  | divByZero
deriving DecidableEq, Repr

/-- Lines 127–132: one zeroed bucket per possible participation count
`1 .. plans.length`. -/
def repeatInit (n : ℕ) : ℕ → Option RepeatRow :=
  (List.range n).foldl
    (fun m i => fset m (i + 1) ⟨i + 1, 0, .notComputed⟩)
    (fun _ => none)

/-- Lines 139–142: the number of RQA plans whose raw field is present in
the individual's record. -/
def weeksParticipated (plans : List CodingPlan) (ind : Record) : ℕ :=
  plans.countP (fun plan => (ind.fields plan.raw_field).isSome)

/-- Lines 137–144: one individual's contribution to the histogram.  A
non-withdrawn individual participating in no week is the fatal
`assert weeks_participated != 0`. -/
def repeatStep (plans : List CodingPlan) (m : ℕ → Option RepeatRow) (ind : Record) :
    Except RepeatError (ℕ → Option RepeatRow) :=
  if ind.consent_withdrawn = false then
    let w := weeksParticipated plans ind
    if w = 0 then .error (.noParticipation ind.uid)
    else
      match m w with
      | none => .error (.missingBucket w)
      | some row =>
          .ok (fset m w { row with numberOfIndividuals := row.numberOfIndividuals + 1 })
  else .ok m

/-- Lines 149–150: fill in every bucket's percentage.  The division
`round(n / total_individuals * 100, 1)` is unconditional, so a zero
denominator raises `ZeroDivisionError`. -/
def repeatPct (total : ℕ) (n : ℕ) (m : ℕ → Option RepeatRow) :
    Except RepeatError (ℕ → Option RepeatRow) :=
  (List.range n).foldlM
    (fun m i =>
      match m (i + 1) with
      | none => .error (.missingBucket (i + 1))
      | some row =>
          if total = 0 then .error .divByZero
          else
            .ok (fset m (i + 1)
              { row with pctOfIndividuals := .pct (pct1 row.numberOfIndividuals total) }))
    m

/-- The whole repeat-participation pass (lines 125–150). -/
def repeatPass (plans : List CodingPlan) (individuals : List Record) :
    Except RepeatError (ℕ → Option RepeatRow) := do
  let m ← individuals.foldlM (repeatStep plans) (repeatInit plans.length)
  let total := (individuals.filter (fun td => td.consent_withdrawn = false)).length
  repeatPct total plans.length m

/-! ## Demographic distributions (`automated_analysis.py` lines 161–223) -/

/-- `demographic_distributions[analysis_file_key]`: code id → count. -/
abbrev Tally : Type := String → Option ℕ

/-- The two accumulators of the demographic pass:
`demographic_distributions` (analysis file key → code id → count) and
`total_relevant` (analysis file key → count of NORMAL-coded
individuals). -/
structure DemogState where
  distributions : String → Option Tally
  total_relevant : String → Option ℕ

inductive DemogError
  | modeAssert
  | badField (f : String)
  | codeNotFound (cid : String)
  | missingDistKey (key : String)
  | missingTallyKey (cid : String)
  | missingTotalRelevantKey (key : String)
  | divByZero
deriving DecidableEq, Repr

/-- Lines 172–176: the pre-populated tally of one configuration — a zero
count for every code of its scheme whose control code is not STOP. -/
def prepopTally (cc : CodingConfiguration) : Tally :=
  cc.code_scheme.codes.foldl
    (fun t code =>
      if code.control_code = some Codes.STOP then t
      else fset t code.code_id 0)
    (fun _ => none)

/-- Lines 167–177, body of the initialisation loop for one
configuration. -/
def initDemogStep (st : DemogState) (cc : CodingConfiguration) : DemogState :=
  match cc.analysis_file_key with
  | none => st
  | some key =>
      { distributions := fset st.distributions key (prepopTally cc),
        total_relevant := fset st.total_relevant key 0 }

/-- Lines 165–177: initial state of the demographic pass — for every
configuration with a non-null analysis file key, a pre-populated tally
and a zero `total_relevant` entry. -/
def initDemogState (plans : List CodingPlan) : DemogState :=
  (allCCs plans).foldl initDemogStep ⟨fun _ => none, fun _ => none⟩

/-- Lines 183–192, body of the per-configuration loop for one
non-withdrawn individual: assert single-select, resolve the assigned
code, increment its bucket, and increment `total_relevant` when the code
is NORMAL.  A STOP-coded assignment increments a key that was never
pre-populated — a `KeyError`. -/
def demogStepCC (ind : Record) (st : DemogState) (cc : CodingConfiguration) :
    Except DemogError DemogState :=
  match cc.analysis_file_key with
  | none => .ok st
  | some key =>
    if cc.coding_mode = CodingModes.SINGLE then
      match ind.fields cc.coded_field with
      | some (.label l) =>
          match getCodeWithCodeId cc.code_scheme l.CodeID with
          | none => .error (.codeNotFound l.CodeID)
          | some code =>
              match st.distributions key with
              | none => .error (.missingDistKey key)
              | some t =>
                  match t code.code_id with
                  | none => .error (.missingTallyKey code.code_id)
                  | some n =>
                      let st1 : DemogState :=
                        { st with
                          distributions := fset st.distributions key (fset t code.code_id (n + 1)) }
                      if code.code_type = CodeType.NORMAL then
                        match st1.total_relevant key with
                        | none => .error (.missingTotalRelevantKey key)
                        | some m =>
                            .ok { st1 with total_relevant := fset st1.total_relevant key (m + 1) }
                      else .ok st1
      | _ => .error (.badField cc.coded_field)
    else .error .modeAssert

/-- Lines 179–192, one individual: withdrawn individuals are skipped,
otherwise every configuration with a non-null analysis file key is
processed. -/
def demogStepInd (plans : List CodingPlan) (st : DemogState) (ind : Record) :
    Except DemogError DemogState :=
  if ind.consent_withdrawn then .ok st
  else (allCCs plans).foldlM (demogStepCC ind) st

/-- The whole demographic-distributions pass (lines 161–192). -/
def demogPass (plans : List CodingPlan) (individuals : List Record) :
    Except DemogError DemogState :=
  individuals.foldlM (demogStepInd plans) (initDemogState plans)

/-- The `Percent` column of `demographic_distributions.csv`: blank for
non-NORMAL codes, a value otherwise. -/
inductive DemogPercent
  | blank
  | pct (q : ℚ)
deriving DecidableEq, Repr

/-- One row of `demographic_distributions.csv`. -/
structure DemogRow where
  demographic : String
  codeStr : String
  participantsWithOptIns : ℕ
  percent : DemogPercent
deriving DecidableEq, Repr

/-- Lines 204–223, export of one code's row: STOP codes produce no row;
the `Percent` cell is `round(count / total_relevant * 100, 1)` for
NORMAL codes (an unconditional division — `ZeroDivisionError` when
`total_relevant` is 0) and blank otherwise. -/
def demogExportRow (dist : String → Option Tally) (tr : String → Option ℕ)
    (key : String) (rows : List DemogRow) (p : ℕ × Code) :
    Except DemogError (List DemogRow) :=
  if p.2.control_code = some Codes.STOP then .ok rows
  else
    match dist key with
    | none => .error (.missingDistKey key)
    | some t =>
        match t p.2.code_id with
        | none => .error (.missingTallyKey p.2.code_id)
        | some n =>
            if p.2.code_type = CodeType.NORMAL then
              match tr key with
              | none => .error (.missingTotalRelevantKey key)
              | some d =>
                  if d = 0 then .error .divByZero
                  else
                    .ok (rows ++
                      [⟨if p.1 = 0 then key else "", p.2.string_value, n,
                        .pct (pct1 n d)⟩])
            else
              .ok (rows ++
                [⟨if p.1 = 0 then key else "", p.2.string_value, n, .blank⟩])

/-- Lines 199–223, export of one configuration's block of
`demographic_distributions.csv`. -/
def demogExportCC (dist : String → Option Tally) (tr : String → Option ℕ)
    (cc : CodingConfiguration) : Except DemogError (List DemogRow) :=
  match cc.analysis_file_key with
  | none => .ok []
  | some key => cc.code_scheme.codes.enum.foldlM (demogExportRow dist tr key) []

/-! ## Theme distributions (`automated_analysis.py` lines 225–348)

The Python `survey_counts` dictionary mixes `"Total Participants"`,
`"Total Participants %"`, `f"{analysis_file_key}:{string_value}"` count
keys and `f"... %"` percentage keys; it is modelled as a structure whose
count and percentage slots are keyed by the
`(analysis_file_key, string_value)` pair. -/

/-- One survey-counts row of the theme distributions. -/
structure SurveyCounts where
  totalParticipants : ℕ
  totalParticipantsPct : PctCell
  counts : String × String → Option ℕ
  pcts : String × String → Option PctCell

inductive ThemeError
  | modeAssert
  | badField (f : String)
  | codeNotFound (cid : String)
  | missingCountKey (k : String × String)
  | missingThemeRow
deriving DecidableEq, Repr

/-- Lines 228–243, `make_survey_counts_dict`: zero counts and
uncomputed percentages for every non-STOP code of every survey
configuration with a non-null analysis file key. -/
def makeSurveyCounts (surveyPlans : List CodingPlan) : SurveyCounts where
  totalParticipants := 0
  totalParticipantsPct := .notComputed
  counts :=
    (allCCs surveyPlans).foldl
      (fun m cc =>
        match cc.analysis_file_key with
        | none => m
        | some k =>
            cc.code_scheme.codes.foldl
              (fun m code =>
                if code.control_code = some Codes.STOP then m
                else fset m (k, code.string_value) 0)
              m)
      (fun _ => none)
  pcts :=
    (allCCs surveyPlans).foldl
      (fun m cc =>
        match cc.analysis_file_key with
        | none => m
        | some k =>
            cc.code_scheme.codes.foldl
              (fun m code =>
                if code.control_code = some Codes.STOP then m
                else fset m (k, code.string_value) PctCell.notComputed)
              m)
      (fun _ => none)

/-- Lines 251–255: resolve the codes assigned to a record for a
configuration — one for a single-select field, one per label for a
multi-select field. -/
def resolveCodes (cc : CodingConfiguration) (r : Record) :
    Except ThemeError (List Code) :=
  match cc.coding_mode with
  | .SINGLE =>
      match r.fields cc.coded_field with
      | some (.label l) =>
          match getCodeWithCodeId cc.code_scheme l.CodeID with
          | some c => .ok [c]
          | none => .error (.codeNotFound l.CodeID)
      | _ => .error (.badField cc.coded_field)
  | .MULTIPLE =>
      match r.fields cc.coded_field with
      | some (.labels ls) =>
          ls.mapM (fun l =>
            match getCodeWithCodeId cc.code_scheme l.CodeID with
            | some c => Except.ok c
            | none => Except.error (ThemeError.codeNotFound l.CodeID))
      | _ => .error (.badField cc.coded_field)

/-- Lines 257–260: update of one resolved, non-STOP survey code's count
slot. -/
def updateSurveyCountsCode (k : String) (sc : SurveyCounts) (code : Code) :
    Except ThemeError SurveyCounts :=
  if code.control_code = some Codes.STOP then .ok sc
  else
    match sc.counts (k, code.string_value) with
    | none => .error (.missingCountKey (k, code.string_value))
    | some n =>
        .ok { sc with counts := fset sc.counts (k, code.string_value) (n + 1) }

/-- Lines 246–260, body of the per-configuration loop of
`update_survey_counts`. -/
def updateSurveyCountsCC (td : Record) (sc : SurveyCounts)
    (cc : CodingConfiguration) : Except ThemeError SurveyCounts :=
  match cc.analysis_file_key with
  | none => .ok sc
  | some k => do
      let codes ← resolveCodes cc td
      codes.foldlM (updateSurveyCountsCode k) sc

/-- Lines 245–260, `update_survey_counts`: fold one record's survey
answers into a survey-counts row, skipping STOP codes. -/
def updateSurveyCounts (surveyPlans : List CodingPlan) (sc : SurveyCounts)
    (td : Record) : Except ThemeError SurveyCounts :=
  (allCCs surveyPlans).foldlM (updateSurveyCountsCC td) sc

/-- Lines 278–285: percentage of one non-STOP survey code's cell — the
`"-"` marker when the denominator count is 0, the rounded percentage
otherwise. -/
def setSurveyPercentagesCode (tsc : SurveyCounts) (k : String)
    (sc : SurveyCounts) (code : Code) : Except ThemeError SurveyCounts :=
  if code.control_code = some Codes.STOP then .ok sc
  else
    match sc.counts (k, code.string_value) with
    | none => .error (.missingCountKey (k, code.string_value))
    | some cnt =>
        match tsc.counts (k, code.string_value) with
        | none => .error (.missingCountKey (k, code.string_value))
        | some tot =>
            .ok { sc with
                  pcts := fset sc.pcts (k, code.string_value)
                    (if tot = 0 then .notApplicable
                     else .pct (pct1 cnt tot)) }

/-- Lines 269–285, body of the per-configuration loop of
`set_survey_percentages`. -/
def setSurveyPercentagesCC (tsc : SurveyCounts) (sc : SurveyCounts)
    (cc : CodingConfiguration) : Except ThemeError SurveyCounts :=
  match cc.analysis_file_key with
  | none => .ok sc
  | some k => cc.code_scheme.codes.foldlM (setSurveyPercentagesCode tsc k) sc

/-- Lines 262–285, `set_survey_percentages`: the only percentage
computation with a zero-denominator guard — a zero denominator yields
the `"-"` marker, otherwise `round(count / total * 100, 1)`. -/
def setSurveyPercentages (surveyPlans : List CodingPlan)
    (sc tsc : SurveyCounts) : Except ThemeError SurveyCounts :=
  let sc1 : SurveyCounts :=
    { sc with
      totalParticipantsPct :=
        if tsc.totalParticipants = 0 then .notApplicable
        else .pct (pct1 sc.totalParticipants tsc.totalParticipants) }
  (allCCs surveyPlans).foldlM (setSurveyPercentagesCC tsc) sc1

/-- Keys of the per-episode `themes` dictionary: the synthetic
`"Total Relevant Participants"` row or a
`f"{cc.analysis_file_key}{code.string_value}"` theme (the analysis file
key of an RQA configuration is interpolated without a null check, hence
`Option String`). -/
inductive ThemeKey
  | totalRelevant
  | themeOf (afk : Option String) (sv : String)
deriving DecidableEq, Repr

abbrev ThemeState : Type := ThemeKey → Option SurveyCounts

/-- Lines 288–299, per-episode setup: assert every configuration is
multi-select, then create an empty survey-counts row for the synthetic
total and for every non-STOP code. -/
def themeSetupCC (surveyPlans : List CodingPlan) (themes : ThemeState)
    (cc : CodingConfiguration) : Except ThemeError ThemeState :=
  if cc.coding_mode = CodingModes.MULTIPLE then
    let themes1 := fset themes ThemeKey.totalRelevant (makeSurveyCounts surveyPlans)
    .ok (cc.code_scheme.codes.foldl
      (fun themes code =>
        if code.control_code = some Codes.STOP then themes
        else
          fset themes (ThemeKey.themeOf cc.analysis_file_key code.string_value)
            (makeSurveyCounts surveyPlans))
      themes1)
  else .error .modeAssert

/-- Lines 288–299, per-episode setup loop. -/
def themeSetup (surveyPlans : List CodingPlan) (episode : CodingPlan) :
    Except ThemeError ThemeState :=
  episode.coding_configurations.foldlM (themeSetupCC surveyPlans) (fun _ => none)

/-- Lines 309–316, processing of one label of one configuration for a
non-withdrawn individual: resolve the code, skip it entirely when it is
a STOP code, otherwise increment its theme row's `"Total Participants"`,
fold the individual's survey answers into that row, and mark the
individual relevant when the code is NORMAL. -/
def themeLabelStep (surveyPlans : List CodingPlan) (cc : CodingConfiguration)
    (td : Record) (acc : ThemeState × Bool) (l : Label) :
    Except ThemeError (ThemeState × Bool) :=
  match getCodeWithCodeId cc.code_scheme l.CodeID with
  | none => .error (.codeNotFound l.CodeID)
  | some code =>
      if code.control_code = some Codes.STOP then .ok acc
      else
        match acc.1 (ThemeKey.themeOf cc.analysis_file_key code.string_value) with
        | none => .error .missingThemeRow
        | some row => do
            let row1 : SurveyCounts :=
              { row with totalParticipants := row.totalParticipants + 1 }
            let row2 ← updateSurveyCounts surveyPlans row1 td
            .ok (fset acc.1 (ThemeKey.themeOf cc.analysis_file_key code.string_value) row2,
              acc.2 || (code.code_type = CodeType.NORMAL))

/-- Lines 307–316, body of the per-configuration loop for one
non-withdrawn individual: assert multi-select, then process every label
of the coded field. -/
def themeCCStep (surveyPlans : List CodingPlan) (td : Record)
    (acc : ThemeState × Bool) (cc : CodingConfiguration) :
    Except ThemeError (ThemeState × Bool) :=
  if cc.coding_mode = CodingModes.MULTIPLE then
    match td.fields cc.coded_field with
    | some (.labels ls) => ls.foldlM (themeLabelStep surveyPlans cc td) acc
    | _ => .error (.badField cc.coded_field)
  else .error .modeAssert

/-- Lines 302–320, one individual of the per-episode loop: process every
label of every configuration, then, if the individual was marked
relevant, increment the synthetic `"Total Relevant Participants"` row
once and fold the survey answers in. -/
def themeStepInd (surveyPlans : List CodingPlan) (episode : CodingPlan)
    (themes : ThemeState) (td : Record) : Except ThemeError ThemeState :=
  if td.consent_withdrawn then .ok themes
  else do
    let acc ← episode.coding_configurations.foldlM
      (themeCCStep surveyPlans td) (themes, false)
    if acc.2 then
      match acc.1 ThemeKey.totalRelevant with
      | none => .error .missingThemeRow
      | some row => do
          let row1 : SurveyCounts :=
            { row with totalParticipants := row.totalParticipants + 1 }
          let row2 ← updateSurveyCounts surveyPlans row1 td
          .ok (fset acc.1 ThemeKey.totalRelevant row2)
    else .ok acc.1

/-- Lines 327–332, percentage finalization of one NORMAL code's theme
row against the synthetic total row (which is not modified by this loop,
so it is looked up once and passed down). -/
def themePctCode (surveyPlans : List CodingPlan) (trRow1 : SurveyCounts)
    (afk : Option String) (themes : ThemeState) (code : Code) :
    Except ThemeError ThemeState :=
  if code.code_type = CodeType.NORMAL then
    match themes (ThemeKey.themeOf afk code.string_value) with
    | none => .error .missingThemeRow
    | some row => do
        let row1 ← setSurveyPercentages surveyPlans row trRow1
        .ok (fset themes (ThemeKey.themeOf afk code.string_value) row1)
  else .ok themes

/-- Lines 324–332, body of the per-configuration percentage loop. -/
def themePctCC (surveyPlans : List CodingPlan) (trRow1 : SurveyCounts)
    (themes : ThemeState) (cc : CodingConfiguration) :
    Except ThemeError ThemeState :=
  if cc.coding_mode = CodingModes.MULTIPLE then
    cc.code_scheme.codes.foldlM
      (themePctCode surveyPlans trRow1 cc.analysis_file_key) themes
  else .error .modeAssert

/-- Lines 322–332, percentage finalization of one episode. -/
def themePercentages (surveyPlans : List CodingPlan) (episode : CodingPlan)
    (themes : ThemeState) : Except ThemeError ThemeState := do
  match themes ThemeKey.totalRelevant with
  | none => .error .missingThemeRow
  | some trRow => do
      let trRow1 ← setSurveyPercentages surveyPlans trRow trRow
      let themes1 := fset themes ThemeKey.totalRelevant trRow1
      episode.coding_configurations.foldlM (themePctCC surveyPlans trRow1) themes1

/-- The whole theme-distributions pass for one RQA episode
(lines 287–332; the episodes are processed independently). -/
def themePass (surveyPlans : List CodingPlan) (episode : CodingPlan)
    (individuals : List Record) : Except ThemeError ThemeState := do
  let themes ← themeSetup surveyPlans episode
  let themes1 ← individuals.foldlM (themeStepInd surveyPlans episode) themes
  themePercentages surveyPlans episode themes1

/-! ## Message sampling (`automated_analysis.py` lines 350–378) -/

/-- One row of `sample_messages.csv`. -/
structure SampleRow where
  episode : String
  codeSchemeName : String
  codeStr : String
  sampleMessage : String
deriving DecidableEq, Repr

inductive SamplingError
  | badField (f : String)
  | codeNotFound (cid : String)
  | missingPoolKey (sv : String)
  | missingRawField (f : String)
deriving DecidableEq, Repr

/-- Lines 355–357: `code_to_messages`, one empty list per code string
value of the scheme. -/
def poolInit (cc : CodingConfiguration) : String → Option (List String) :=
  cc.code_scheme.codes.foldl
    (fun m code => fset m code.string_value [])
    (fun _ => none)

/-- Lines 363–365: resolve one label of an opt-in message and append the
message's raw response to that code's pool. -/
def poolAddLabel (plan : CodingPlan) (cc : CodingConfiguration) (msg : Record)
    (m : String → Option (List String)) (l : Label) :
    Except SamplingError (String → Option (List String)) :=
  match getCodeWithCodeId cc.code_scheme l.CodeID with
  | none => .error (.codeNotFound l.CodeID)
  | some code =>
      match m code.string_value with
      | none => .error (.missingPoolKey code.string_value)
      | some msgs =>
          match msg.fields plan.raw_field with
          | some (.text s) => .ok (fset m code.string_value (msgs ++ [s]))
          | _ => .error (.missingRawField plan.raw_field)

/-- Lines 359–365: append an opt-in message's raw response to the pool
of every code its labels carry. -/
def poolAddMsg (plan : CodingPlan) (cc : CodingConfiguration)
    (m : String → Option (List String)) (msg : Record) :
    Except SamplingError (String → Option (List String)) :=
  if optInSingle msg plan = false then .ok m
  else
    match msg.fields cc.coded_field with
    | some (.labels ls) => ls.foldlM (poolAddLabel plan cc msg) m
    | _ => .error (.badField cc.coded_field)

/-- Iteration order of a Python dict's keys: first-insertion order, each
key once. -/
def dedupFirst : List String → List String
  | [] => []
  | x :: xs => x :: dedupFirst (xs.filter (fun y => y ≠ x))
termination_by l => l.length
decreasing_by
  simp only [List.length_cons]
  exact Nat.lt_succ_of_le (List.length_filter_le _ _)

/-- Lines 353–378 for one (plan, configuration) pair: build the per-code
pools from the opt-in messages, then, per code string value, export a
sample of `min(100, pool size)` rows drawn by `sampler` (the
`random.sample` collaborator, abstracted as a parameter: it returns the
requested number of elements whenever the pool is large enough). -/
def samplesForCC (sampler : List String → ℕ → List String)
    (plan : CodingPlan) (cc : CodingConfiguration) (messages : List Record) :
    Except SamplingError (List SampleRow) := do
  let pools ← messages.foldlM (poolAddMsg plan cc) (poolInit cc)
  let svs := dedupFirst (cc.code_scheme.codes.map (fun c => c.string_value))
  .ok (svs.flatMap (fun sv =>
    match pools sv with
    | none => []
    | some msgs =>
        (sampler msgs (min 100 msgs.length)).map
          (fun s => ⟨plan.dataset_name, cc.code_scheme.name, sv, s⟩)))

/-- Reference count: the opt-in raw responses assigned a given code
string value, one occurrence per matching label (lines 359–365 collect
exactly these into the pool). -/
def assignedRaws (plan : CodingPlan) (cc : CodingConfiguration)
    (messages : List Record) (sv : String) : List String :=
  messages.flatMap (fun msg =>
    if optInSingle msg plan then
      match msg.fields cc.coded_field, msg.fields plan.raw_field with
      | some (.labels ls), some (.text s) =>
          (ls.filter (fun l =>
            match getCodeWithCodeId cc.code_scheme l.CodeID with
            | some c => c.string_value == sv
            | none => false)).map (fun _ => s)
      | _, _ => []
    else [])

/-! ## Derived notions used by the statements -/

/-- The non-null analysis file keys of a catalog, in loop order. -/
def analysisKeys (plans : List CodingPlan) : List String :=
  (allCCs plans).filterMap (fun cc => cc.analysis_file_key)

/-- The codes of a configuration's scheme whose control code is not STOP
(the codes that get a bucket / an exported row). -/
def nonStopCodes (cc : CodingConfiguration) : List Code :=
  cc.code_scheme.codes.filter (fun c => ¬ c.control_code = some Codes.STOP)

/-- The sum of the per-code counts of a configuration's tally. -/
def tallySum (cc : CodingConfiguration) (t : Tally) : ℕ :=
  ((nonStopCodes cc).map (fun c => (t c.code_id).getD 0)).sum

/-- The sum of the per-code counts of the distribution stored under a
key of the demographic state (0 when the key is absent). -/
def distSum (cc : CodingConfiguration) (K : String) (st : DemogState) : ℕ :=
  match st.distributions K with
  | some t => tallySum cc t
  | none => 0

/-- The single-select code a record's coded field resolves to for a
configuration (`cc.code_scheme.get_code_with_code_id(ind[cc.coded_field]["CodeID"])`). -/
def singleCode (ind : Record) (cc : CodingConfiguration) : Option Code :=
  match ind.fields cc.coded_field with
  | some (.label l) => getCodeWithCodeId cc.code_scheme l.CodeID
  | _ => none

/-- A record's coded field for a configuration is single-select and
resolves to a code of the scheme. -/
def demogResolves (ind : Record) (cc : CodingConfiguration) : Prop :=
  cc.coding_mode = CodingModes.SINGLE ∧ ∃ c, singleCode ind cc = some c

/-- As `demogResolves`, and the resolved code is not a STOP code. -/
def demogResolvesNonStop (ind : Record) (cc : CodingConfiguration) : Prop :=
  cc.coding_mode = CodingModes.SINGLE ∧
    ∃ c, singleCode ind cc = some c ∧ c.control_code ≠ some Codes.STOP

/-- Well-formedness of a demographic catalog: analysis file keys are
pairwise distinct and code ids are unique within each scheme. -/
structure DemogWF (plans : List CodingPlan) : Prop where
  nodupKeys : (analysisKeys plans).Nodup
  nodupIds : ∀ cc ∈ allCCs plans, (cc.code_scheme.codes.map (fun c => c.code_id)).Nodup

/-- Run-time invariant of the demographic pass: every configuration's
key is present, its tally has exactly the pre-populated key set, and its
`total_relevant` entry is present. -/
structure DemogInv (plans : List CodingPlan) (st : DemogState) : Prop where
  distKeys : ∀ cc ∈ allCCs plans, ∀ K, cc.analysis_file_key = some K →
    ∃ t, st.distributions K = some t ∧
      ∀ cid, (t cid).isSome ↔ (prepopTally cc cid).isSome
  trKeys : ∀ cc ∈ allCCs plans, ∀ K, cc.analysis_file_key = some K →
    (st.total_relevant K).isSome

/-- The count keys a survey-counts row is pre-populated with:
`(analysis file key, string value)` for every non-STOP code of every
survey configuration with a non-null key. -/
def surveyKeys (surveyPlans : List CodingPlan) : List (String × String) :=
  (allCCs surveyPlans).flatMap (fun cc =>
    match cc.analysis_file_key with
    | none => []
    | some k => (nonStopCodes cc).map (fun c => (k, c.string_value)))

/-- A survey-counts row has a count slot for every survey key. -/
def rowOK (surveyPlans : List CodingPlan) (sc : SurveyCounts) : Prop :=
  ∀ p ∈ surveyKeys surveyPlans, (sc.counts p).isSome

/-- Run-time invariant of the theme pass: the synthetic total row and
one row per non-STOP code of the episode's configurations are present,
each with all survey count slots. -/
structure ThemeInv (surveyPlans : List CodingPlan) (episode : CodingPlan)
    (st : ThemeState) : Prop where
  rows : ∀ cc ∈ episode.coding_configurations, ∀ code ∈ cc.code_scheme.codes,
    ¬ code.control_code = some Codes.STOP →
    ∃ row, st (ThemeKey.themeOf cc.analysis_file_key code.string_value) = some row ∧
      rowOK surveyPlans row
  trRow : ∃ row, st ThemeKey.totalRelevant = some row ∧ rowOK surveyPlans row

/-- The `"Total Participants"` count of a theme row (0 when the row is
absent). -/
def themeCount (st : ThemeState) (key : ThemeKey) : ℕ :=
  match st key with
  | some row => row.totalParticipants
  | none => 0

/-- A label of a configuration's coded field hits the theme row
`(afk, sv)`: it resolves to a non-STOP code with string value `sv` and
the configuration's analysis file key is `afk`. -/
def labelHit (cc : CodingConfiguration) (afk : Option String) (sv : String)
    (l : Label) : Bool :=
  decide (cc.analysis_file_key = afk) &&
    match getCodeWithCodeId cc.code_scheme l.CodeID with
    | some c => !(c.control_code = some Codes.STOP : Bool) && c.string_value == sv
    | none => false

/-- A label resolves to a non-STOP code of NORMAL type (the condition
under which the individuals loop marks a participant relevant). -/
def labelNormalNonStop (cc : CodingConfiguration) (l : Label) : Bool :=
  match getCodeWithCodeId cc.code_scheme l.CodeID with
  | some c => !(c.control_code = some Codes.STOP : Bool) && c.code_type == CodeType.NORMAL
  | none => false

/-- The individual carries at least one NORMAL-typed code across the
episode's configurations. -/
def relevantIndB (episode : CodingPlan) (ind : Record) : Bool :=
  episode.coding_configurations.any (fun cc =>
    match ind.fields cc.coded_field with
    | some (.labels ls) =>
        ls.any (fun l =>
          match getCodeWithCodeId cc.code_scheme l.CodeID with
          | some c => c.code_type == CodeType.NORMAL
          | none => false)
    | _ => false)

/-- Whether one configuration's coded field carries a label resolving to
a non-STOP NORMAL code (the per-configuration relevance test of the
individuals loop). -/
def ccNormalNonStopB (cc : CodingConfiguration) (td : Record) : Bool :=
  match td.fields cc.coded_field with
  | some (.labels ls) => ls.any (labelNormalNonStop cc)
  | _ => false

/-- The number of labels of one configuration's coded field that hit the
theme row `(afk, sv)`. -/
def ccLabelHits (cc : CodingConfiguration) (td : Record) (afk : Option String)
    (sv : String) : ℕ :=
  match td.fields cc.coded_field with
  | some (.labels ls) => ls.countP (labelHit cc afk sv)
  | _ => 0

/-- The number of label assignments of one individual that hit the theme
row `(afk, sv)` across the episode's configurations. -/
def labelHits (episode : CodingPlan) (ind : Record) (afk : Option String)
    (sv : String) : ℕ :=
  (episode.coding_configurations.map (fun cc => ccLabelHits cc ind afk sv)).sum

/-- The individual's coded fields for the episode's configurations are
multi-select lists all of whose labels resolve. -/
def episodeResolves (episode : CodingPlan) (ind : Record) : Prop :=
  ∀ cc ∈ episode.coding_configurations, ∃ ls,
    ind.fields cc.coded_field = some (.labels ls) ∧
      ∀ l ∈ ls, (getCodeWithCodeId cc.code_scheme l.CodeID).isSome

/-- The individual's coded fields for the survey configurations with a
non-null analysis file key all resolve. -/
def surveyResolves (surveyPlans : List CodingPlan) (ind : Record) : Prop :=
  ∀ cc ∈ allCCs surveyPlans, cc.analysis_file_key ≠ none →
    ∃ cs, resolveCodes cc ind = Except.ok cs

/-- Every NORMAL code of the episode's schemes is a non-STOP code (the
data-model invariant `control_code` is only set on control codes). -/
def episodeWF (episode : CodingPlan) : Prop :=
  ∀ cc ∈ episode.coding_configurations, ∀ code ∈ cc.code_scheme.codes,
    code.code_type = CodeType.NORMAL → ¬ code.control_code = some Codes.STOP

/-- A message's fields are well-formed for the sampling pass of one
(plan, configuration) pair whenever the message is an opt-in. -/
def msgOk (plan : CodingPlan) (cc : CodingConfiguration) (msg : Record) : Prop :=
  optInSingle msg plan = true →
    (∃ ls, msg.fields cc.coded_field = some (.labels ls) ∧
        ∀ l ∈ ls, (getCodeWithCodeId cc.code_scheme l.CodeID).isSome) ∧
      ∃ s, msg.fields plan.raw_field = some (.text s)

/-- What `update_survey_counts` leaves untouched: everything but the
count slots (which stay present). -/
def UpdInv (surveyPlans : List CodingPlan) (sc0 sc : SurveyCounts) : Prop :=
  sc.totalParticipants = sc0.totalParticipants ∧ sc.pcts = sc0.pcts ∧
    sc.totalParticipantsPct = sc0.totalParticipantsPct ∧ rowOK surveyPlans sc

/-- What `set_survey_percentages` leaves untouched: the counts and the
total-participants slot. -/
def PctInv (sc0 sc : SurveyCounts) : Prop :=
  sc.totalParticipants = sc0.totalParticipants ∧ sc.counts = sc0.counts ∧
    sc.totalParticipantsPct = sc0.totalParticipantsPct

/-- The value `set_survey_percentages` writes into one percentage cell:
the `"-"` marker when the denominator count is 0, the rounded percentage
otherwise (`none` when a count slot is missing). -/
def pctTarget (sc tsc : SurveyCounts) (p : String × String) : Option PctCell :=
  match sc.counts p, tsc.counts p with
  | some c, some t => some (if t = 0 then .notApplicable else .pct (pct1 c t))
  | _, _ => none

/-- Shape invariant of the repeat-participation histogram: one bucket
per participation count `1 .. n`, labelled with its count. -/
def RepeatPres (n : ℕ) (m : ℕ → Option RepeatRow) : Prop :=
  ∀ k, 1 ≤ k → k ≤ n → ∃ row, m k = some row ∧ row.episodesParticipatedIn = k

/-- The count held in one bucket of the repeat-participation histogram
(0 when the bucket is absent). -/
def bucketNum (m : ℕ → Option RepeatRow) (k : ℕ) : ℕ :=
  match m k with
  | some row => row.numberOfIndividuals
  | none => 0

/-! ## Generic lemmas about `Except` folds and function-map folds -/

theorem exceptFold_error_of_mem {σ α ε : Type} (f : σ → α → Except ε σ) (l : List α)
    (x : α) (hx : x ∈ l) (hf : ∀ s, ∃ e, f s x = .error e) (s : σ) :
    ∃ e, l.foldlM f s = .error e := by
  induction l generalizing s with
  | nil => cases hx
  | cons a l ih =>
    rw [List.foldlM_cons]
    rcases List.mem_cons.1 hx with rfl | hx'
    · obtain ⟨e, he⟩ := hf s
      exact ⟨e, by rw [he]; rfl⟩
    · cases hfa : f s a with
      | error e => exact ⟨e, rfl⟩
      | ok s' =>
        obtain ⟨e, he⟩ := ih hx' s'
        exact ⟨e, he⟩

theorem exceptFold_inv {σ α ε : Type} (f : σ → α → Except ε σ) (l : List α)
    (P : σ → Prop)
    (hP : ∀ s x, x ∈ l → P s → ∃ s', f s x = .ok s' ∧ P s') :
    ∀ s, P s → ∃ s', l.foldlM f s = .ok s' ∧ P s' := by
  induction l with
  | nil => exact fun s hs => ⟨s, rfl, hs⟩
  | cons a l ih =>
    intro s hs
    obtain ⟨s1, hf1, hs1⟩ := hP s a (List.mem_cons_self a l) hs
    obtain ⟨s2, hf2, hs2⟩ :=
      ih (fun s x hx => hP s x (List.mem_cons_of_mem a hx)) s1 hs1
    exact ⟨s2, by rw [List.foldlM_cons, hf1]; exact hf2, hs2⟩

theorem exceptFold_count {σ α ε : Type} (f : σ → α → Except ε σ) (l : List α)
    (P : σ → Prop) (meas : σ → ℕ) (g : α → ℕ)
    (hP : ∀ s x, x ∈ l → P s →
      ∃ s', f s x = .ok s' ∧ P s' ∧ meas s' = meas s + g x) :
    ∀ s, P s → ∃ s', l.foldlM f s = .ok s' ∧ P s' ∧
      meas s' = meas s + (l.map g).sum := by
  induction l with
  | nil => exact fun s hs => ⟨s, rfl, hs, by simp⟩
  | cons a l ih =>
    intro s hs
    obtain ⟨s1, hf1, hs1, hm1⟩ := hP s a (List.mem_cons_self a l) hs
    obtain ⟨s2, hf2, hs2, hm2⟩ :=
      ih (fun s x hx => hP s x (List.mem_cons_of_mem a hx)) s1 hs1
    refine ⟨s2, by rw [List.foldlM_cons, hf1]; exact hf2, hs2, ?_⟩
    rw [hm2, hm1]
    simp [Nat.add_assoc]

theorem exceptFold_reach {σ α ε : Type} (f : σ → α → Except ε σ) (l : List α)
    (P Q : σ → Prop)
    (hP : ∀ s x, x ∈ l → P s → ∃ s', f s x = .ok s' ∧ P s')
    (hQ : ∀ s x, x ∈ l → P s → Q s → ∃ s', f s x = .ok s' ∧ Q s')
    (x : α) (hx : x ∈ l) (hset : ∀ s, P s → ∃ s', f s x = .ok s' ∧ Q s') :
    ∀ s, P s → ∃ s', l.foldlM f s = .ok s' ∧ P s' ∧ Q s' := by
  induction l with
  | nil => cases hx
  | cons a l ih =>
    intro s hs
    rcases List.mem_cons.1 hx with rfl | hx'
    · obtain ⟨s1, hf1, hs1⟩ := hP s x (List.mem_cons_self x l) hs
      obtain ⟨s1', hf1', hq1⟩ := hset s hs
      rw [hf1] at hf1'
      obtain rfl : s1 = s1' := Except.ok.inj hf1'
      obtain ⟨s2, hf2, hs2⟩ :=
        exceptFold_inv f l (fun s => P s ∧ Q s)
          (fun s y hy hpq => by
            obtain ⟨s', h1, h2⟩ := hP s y (List.mem_cons_of_mem x hy) hpq.1
            obtain ⟨s'', h3, h4⟩ := hQ s y (List.mem_cons_of_mem x hy) hpq.1 hpq.2
            rw [h1] at h3
            obtain rfl : s' = s'' := Except.ok.inj h3
            exact ⟨s', h1, h2, h4⟩)
          s1 ⟨hs1, hq1⟩
      exact ⟨s2, by rw [List.foldlM_cons, hf1]; exact hf2, hs2.1, hs2.2⟩
    · obtain ⟨s1, hf1, hs1⟩ := hP s a (List.mem_cons_self a l) hs
      obtain ⟨s2, hf2, hs2, hq2⟩ :=
        ih (fun s y hy => hP s y (List.mem_cons_of_mem a hy))
          (fun s y hy => hQ s y (List.mem_cons_of_mem a hy)) hx' s1 hs1
      exact ⟨s2, by rw [List.foldlM_cons, hf1]; exact hf2, hs2, hq2⟩

theorem exceptFold_ok_or {σ α ε : Type} (f : σ → α → Except ε σ) (l : List α)
    (e₀ : ε)
    (hall : ∀ s x, x ∈ l → (∃ s', f s x = .ok s') ∨ f s x = .error e₀) :
    ∀ s, (∃ s', l.foldlM f s = .ok s') ∨ l.foldlM f s = .error e₀ := by
  induction l with
  | nil => exact fun s => .inl ⟨s, rfl⟩
  | cons a l ih =>
    intro s
    rcases hall s a (List.mem_cons_self a l) with ⟨s1, hf1⟩ | hf1
    · rcases ih (fun s x hx => hall s x (List.mem_cons_of_mem a hx)) s1 with ⟨s2, hf2⟩ | hf2
      · exact .inl ⟨s2, by rw [List.foldlM_cons, hf1]; exact hf2⟩
      · exact .inr (by rw [List.foldlM_cons, hf1]; exact hf2)
    · exact .inr (by rw [List.foldlM_cons, hf1]; rfl)

theorem exceptFold_error_eq {σ α ε : Type} (f : σ → α → Except ε σ) (l : List α)
    (e₀ : ε) (x : α) (hx : x ∈ l)
    (hall : ∀ s x, x ∈ l → (∃ s', f s x = .ok s') ∨ f s x = .error e₀)
    (hf : ∀ s, f s x = .error e₀) (s : σ) :
    l.foldlM f s = .error e₀ := by
  rcases exceptFold_ok_or f l e₀ hall s with ⟨s', hok⟩ | herr
  · obtain ⟨e, he⟩ := exceptFold_error_of_mem f l x hx (fun s => ⟨e₀, hf s⟩) s
    rw [hok] at he
    cases he
  · exact herr

theorem foldl_pick_untouched {α κ β : Type} [DecidableEq κ]
    (f : (κ → Option β) → α → (κ → Option β)) (pick : α → Option κ) (v : α → β)
    (hfn : ∀ m a, pick a = none → f m a = m)
    (hfs : ∀ m a k, pick a = some k → f m a = fset m k (v a))
    (l : List α) (m : κ → Option β) (k : κ) (h : ∀ a ∈ l, pick a ≠ some k) :
    (l.foldl f m) k = m k := by
  induction l generalizing m with
  | nil => rfl
  | cons a l ih =>
    rw [List.foldl_cons, ih _ (fun b hb => h b (List.mem_cons_of_mem a hb))]
    cases hp : pick a with
    | none => rw [hfn m a hp]
    | some k' =>
        have hk : k ≠ k' := by
          intro he
          exact h a (List.mem_cons_self a l) (by rw [hp, he])
        rw [hfs m a k' hp]
        exact fset_other m k' k (v a) hk

theorem foldl_pick_write {α κ β : Type} [DecidableEq κ]
    (f : (κ → Option β) → α → (κ → Option β)) (pick : α → Option κ) (v : α → β)
    (hfn : ∀ m a, pick a = none → f m a = m)
    (hfs : ∀ m a k, pick a = some k → f m a = fset m k (v a))
    (l : List α) (m : κ → Option β) (k : κ)
    (ha : ∃ a ∈ l, pick a = some k) (v₀ : β)
    (hv : ∀ b ∈ l, pick b = some k → v b = v₀) :
    (l.foldl f m) k = some v₀ := by
  induction l generalizing m with
  | nil => simp at ha
  | cons b l ih =>
    rw [List.foldl_cons]
    by_cases hw : ∃ c ∈ l, pick c = some k
    · exact ih _ hw (fun d hd hdk => hv d (List.mem_cons_of_mem b hd) hdk)
    · obtain ⟨a, hal, hak⟩ := ha
      have hbk : pick b = some k := by
        rcases List.mem_cons.1 hal with rfl | h'
        · exact hak
        · exact absurd ⟨a, h', hak⟩ hw
      have huntouched : ∀ c ∈ l, pick c ≠ some k := by
        intro c hc hck
        exact hw ⟨c, hc, hck⟩
      rw [foldl_pick_untouched f pick v hfn hfs l _ k huntouched,
        hfs m b k hbk, fset_same, hv b (List.mem_cons_self b l) hbk]

theorem sum_map_ite_one {α : Type} (l : List α) (p : α → Bool) :
    (l.map (fun a => if p a = true then 1 else 0)).sum = (l.filter p).length := by
  induction l with
  | nil => rfl
  | cons a l ih =>
    by_cases h : p a = true <;> simp [List.filter_cons, h, ih, Nat.add_comm]

theorem sum_map_ite_zero {α : Type} (l : List α) (p : α → Bool) (f : α → ℕ) :
    (l.map (fun a => if p a = true then f a else 0)).sum = ((l.filter p).map f).sum := by
  induction l with
  | nil => rfl
  | cons a l ih =>
    by_cases h : p a = true <;> simp [List.filter_cons, h, ih]

theorem count_filterMap_eq_countP {α κ : Type} [DecidableEq κ]
    (g : α → Option κ) (l : List α) (k : κ) :
    (l.filterMap g).count k = l.countP (fun a => decide (g a = some k)) := by
  induction l with
  | nil => rfl
  | cons a l ih =>
    rw [List.filterMap_cons]
    cases hg : g a with
    | none => simp [List.countP_cons, hg, ih]
    | some k' =>
        by_cases hk : k' = k
        · subst hk
          simp [List.count_cons, List.countP_cons, hg, ih]
        · simp [List.count_cons, List.countP_cons, hg, ih, hk, Ne.symm hk]

theorem sum_map_single_key {κ : Type} [DecidableEq κ] (l : List κ) (k : κ) (n : ℕ)
    (g : κ → ℕ) (hg : ∀ k' ∈ l, g k' = if k' = k then n else 0)
    (hcount : l.count k = 1) :
    (l.map g).sum = n := by
  induction l with
  | nil => simp at hcount
  | cons a l ih =>
    rw [List.map_cons, List.sum_cons, hg a (List.mem_cons_self a l)]
    by_cases ha : a = k
    · subst ha
      rw [List.count_cons_self] at hcount
      have hnotmem : l.count a = 0 := by omega
      have : (l.map g).sum = 0 := by
        apply List.sum_eq_zero
        intro x hx
        obtain ⟨k', hk', rfl⟩ := List.mem_map.1 hx
        rw [hg k' (List.mem_cons_of_mem a hk')]
        have : k' ≠ a := by
          intro he
          subst he
          rw [List.count_eq_zero] at hnotmem
          exact hnotmem hk'
        simp [this]
      simp [this]
    · rw [List.count_cons_of_ne (Ne.symm ha)] at hcount
      rw [if_neg ha]
      have := ih (fun k' hk' => hg k' (List.mem_cons_of_mem a hk')) hcount
      simpa using this

/-! ## Lemmas about the repeat-participation pass -/

theorem repeatInit_eq (n k : ℕ) :
    repeatInit n k =
      if 1 ≤ k ∧ k ≤ n then some ⟨k, 0, .notComputed⟩ else none := by
  have hfn : ∀ (m : ℕ → Option RepeatRow) (i : ℕ), (some (i + 1) : Option ℕ) = none →
      fset m (i + 1) ⟨i + 1, 0, .notComputed⟩ = m := fun m i h => by cases h
  have hfs : ∀ (m : ℕ → Option RepeatRow) (i j : ℕ), (some (i + 1) : Option ℕ) = some j →
      fset m (i + 1) ⟨i + 1, 0, .notComputed⟩ =
        fset m j ((fun i => (⟨i + 1, 0, .notComputed⟩ : RepeatRow)) i) := by
    intro m i j h
    rw [Option.some_inj] at h
    subst h
    rfl
  by_cases h : 1 ≤ k ∧ k ≤ n
  · rw [if_pos h]
    refine foldl_pick_write _ (fun i => some (i + 1))
      (fun i => (⟨i + 1, 0, .notComputed⟩ : RepeatRow)) hfn hfs _ _ _
      ⟨k - 1, List.mem_range.2 (by omega), by
        rw [Option.some_inj]; omega⟩ _ ?_
    intro b _ hb
    rw [Option.some_inj] at hb
    subst hb
    rfl
  · rw [if_neg h]
    refine foldl_pick_untouched _ (fun i => some (i + 1))
      (fun i => (⟨i + 1, 0, .notComputed⟩ : RepeatRow)) hfn hfs _ _ _ ?_
    intro a ha hak
    rw [Option.some_inj] at hak
    exact h ⟨by omega, by have := List.mem_range.1 ha; omega⟩

theorem repeatInit_pres (n : ℕ) : RepeatPres n (repeatInit n) := by
  intro k hk1 hkn
  rw [repeatInit_eq, if_pos ⟨hk1, hkn⟩]
  exact ⟨_, rfl, rfl⟩

theorem weeksParticipated_le (plans : List CodingPlan) (ind : Record) :
    weeksParticipated plans ind ≤ plans.length :=
  List.countP_le_length _

theorem repeatStep_ok (plans : List CodingPlan) (ind : Record)
    (m : ℕ → Option RepeatRow)
    (hpart : ind.consent_withdrawn = false → 1 ≤ weeksParticipated plans ind)
    (hpres : RepeatPres plans.length m) :
    ∃ m', repeatStep plans m ind = .ok m' ∧ RepeatPres plans.length m' ∧
      ∀ k, bucketNum m' k = bucketNum m k +
        (if (!ind.consent_withdrawn && weeksParticipated plans ind == k) = true
          then 1 else 0) := by
  cases hw : ind.consent_withdrawn with
  | true =>
      refine ⟨m, by simp [repeatStep, hw], hpres, fun k => by simp⟩
  | false =>
      have h1 : 1 ≤ weeksParticipated plans ind := hpart hw
      obtain ⟨row, hrow, hep⟩ :=
        hpres (weeksParticipated plans ind) h1 (weeksParticipated_le plans ind)
      refine ⟨fset m (weeksParticipated plans ind)
          { row with numberOfIndividuals := row.numberOfIndividuals + 1 },
        ?_, ?_, ?_⟩
      · have h0 : ¬ weeksParticipated plans ind = 0 := by omega
        simp [repeatStep, hw, h0, hrow]
      · intro k hk1 hkn
        by_cases hk : k = weeksParticipated plans ind
        · subst hk
          exact ⟨_, fset_same .., hep⟩
        · rw [fset_other _ _ _ _ hk]
          exact hpres k hk1 hkn
      · intro k
        by_cases hk : k = weeksParticipated plans ind
        · subst hk
          rw [bucketNum, fset_same, bucketNum, hrow]
          simp
        · rw [bucketNum, fset_other _ _ _ _ hk]
          have : (weeksParticipated plans ind == k) = false := by
            simp [Ne.symm hk]
          simp [bucketNum, this]

theorem repeatFold_ok (plans : List CodingPlan) (inds : List Record)
    (hpart : ∀ ind ∈ inds, ind.consent_withdrawn = false →
      1 ≤ weeksParticipated plans ind)
    (m : ℕ → Option RepeatRow) (hpres : RepeatPres plans.length m) :
    ∃ m', inds.foldlM (repeatStep plans) m = .ok m' ∧
      RepeatPres plans.length m' ∧
      ∀ k, bucketNum m' k = bucketNum m k +
        (inds.filter (fun i =>
          !i.consent_withdrawn && weeksParticipated plans i == k)).length := by
  obtain ⟨m', hfold, hpres'⟩ :=
    exceptFold_inv (repeatStep plans) inds (RepeatPres plans.length)
      (fun m ind hind hp => by
        obtain ⟨m', h1, h2, _⟩ := repeatStep_ok plans ind m (hpart ind hind) hp
        exact ⟨m', h1, h2⟩)
      m hpres
  refine ⟨m', hfold, hpres', fun k => ?_⟩
  obtain ⟨m'', hfold'', _, hcount⟩ :=
    exceptFold_count (repeatStep plans) inds (RepeatPres plans.length)
      (fun m => bucketNum m k)
      (fun i => if (!i.consent_withdrawn && weeksParticipated plans i == k) = true
        then 1 else 0)
      (fun m ind hind hp => by
        obtain ⟨m', h1, h2, h3⟩ := repeatStep_ok plans ind m (hpart ind hind) hp
        exact ⟨m', h1, h2, h3 k⟩)
      m hpres
  rw [hfold] at hfold''
  obtain rfl : m' = m'' := Except.ok.inj hfold''
  rw [hcount, sum_map_ite_one]

theorem repeatFold_error (plans : List CodingPlan) (inds : List Record)
    (m : ℕ → Option RepeatRow) (hpres : RepeatPres plans.length m)
    (hbad : ∃ ind ∈ inds, ind.consent_withdrawn = false ∧
      weeksParticipated plans ind = 0) :
    ∃ uid, inds.foldlM (repeatStep plans) m = .error (.noParticipation uid) := by
  induction inds generalizing m with
  | nil => simp at hbad
  | cons ind rest ih =>
    by_cases hb : ind.consent_withdrawn = false ∧ weeksParticipated plans ind = 0
    · refine ⟨ind.uid, ?_⟩
      have hstep : repeatStep plans m ind = .error (.noParticipation ind.uid) := by
        simp [repeatStep, hb.1, hb.2]
      rw [List.foldlM_cons, hstep]
      rfl
    · have hrest : ∃ i ∈ rest, i.consent_withdrawn = false ∧
          weeksParticipated plans i = 0 := by
        obtain ⟨i, hi, h2⟩ := hbad
        rcases List.mem_cons.1 hi with rfl | hi'
        · exact absurd h2 hb
        · exact ⟨i, hi', h2⟩
      obtain ⟨m', hstep, hpres', _⟩ :=
        repeatStep_ok plans ind m
          (fun hw => by
            rcases Nat.eq_zero_or_pos (weeksParticipated plans ind) with h0 | h1
            · exact absurd ⟨hw, h0⟩ hb
            · exact h1)
          hpres
      obtain ⟨uid, hrec⟩ := ih m' hpres' hrest
      exact ⟨uid, by rw [List.foldlM_cons, hstep]; exact hrec⟩

theorem repeatPct_ok (total n : ℕ) (m : ℕ → Option RepeatRow)
    (htotal : total ≠ 0) (hpres : ∀ k, 1 ≤ k → k ≤ n → (m k).isSome) :
    ∃ m', repeatPct total n m = .ok m' ∧
      (∀ k, 1 ≤ k → k ≤ n → ∃ row, m k = some row ∧
        m' k = some { row with
          pctOfIndividuals := .pct (pct1 row.numberOfIndividuals total) }) ∧
      ∀ k, (k = 0 ∨ n < k) → m' k = m k := by
  induction n generalizing m with
  | zero => exact ⟨m, rfl, fun k hk1 hk0 => by omega, fun k _ => rfl⟩
  | succ n ih =>
    obtain ⟨m1, hfold1, hwrites1, huntouched1⟩ :=
      ih m (fun k hk1 hkn => hpres k hk1 (by omega))
    have hm1top : m1 (n + 1) = m (n + 1) := huntouched1 (n + 1) (.inr (by omega))
    obtain ⟨row, hrow⟩ := Option.isSome_iff_exists.1 (hpres (n + 1) (by omega) le_rfl)
    refine ⟨fset m1 (n + 1)
        { row with pctOfIndividuals := .pct (pct1 row.numberOfIndividuals total) },
      ?_, ?_, ?_⟩
    · have hfold1' : (List.range n).foldlM
          (fun m i =>
            match m (i + 1) with
            | none => Except.error (RepeatError.missingBucket (i + 1))
            | some row =>
                if total = 0 then Except.error RepeatError.divByZero
                else
                  Except.ok (fset m (i + 1)
                    { row with
                      pctOfIndividuals := .pct (pct1 row.numberOfIndividuals total) }))
          m = .ok m1 := hfold1
      show (List.range (n + 1)).foldlM _ m = _
      rw [show List.range (n + 1) = List.range n ++ [n] from by simp [List.range_succ]]
      rw [List.foldlM_append, hfold1']
      have hlast : List.foldlM
          (fun (m : ℕ → Option RepeatRow) i =>
            match m (i + 1) with
            | none => Except.error (RepeatError.missingBucket (i + 1))
            | some row =>
                if total = 0 then Except.error RepeatError.divByZero
                else
                  Except.ok (fset m (i + 1)
                    { row with
                      pctOfIndividuals := .pct (pct1 row.numberOfIndividuals total) }))
          m1 [n] =
          Except.ok (fset m1 (n + 1)
            { row with
              pctOfIndividuals := .pct (pct1 row.numberOfIndividuals total) }) := by
        simp only [List.foldlM_cons, List.foldlM_nil, bind_pure]
        simp only [hm1top, hrow]
        rw [if_neg htotal]
      exact hlast
    · intro k hk1 hkn
      by_cases hk : k = n + 1
      · subst hk
        exact ⟨row, hrow, fset_same ..⟩
      · obtain ⟨row', hrow', hupd'⟩ := hwrites1 k hk1 (by omega)
        exact ⟨row', hrow', by rw [fset_other _ _ _ _ hk]; exact hupd'⟩
    · intro k hk
      rw [fset_other _ _ _ _ (by omega)]
      exact huntouched1 k (by omega)

theorem repeatPct_zero (total n : ℕ) (m : ℕ → Option RepeatRow)
    (htotal : total = 0) (hn : 1 ≤ n) (hpres : (m 1).isSome) :
    repeatPct total n m = .error .divByZero := by
  obtain ⟨n', rfl⟩ : ∃ n', n = n' + 1 := ⟨n - 1, by omega⟩
  obtain ⟨row, hrow⟩ := Option.isSome_iff_exists.1 hpres
  show (List.range (n' + 1)).foldlM _ m = _
  rw [List.range_succ_eq_map, List.foldlM_cons]
  simp only [show (0 : ℕ) + 1 = 1 from rfl, hrow]
  rw [if_pos htotal]
  rfl

/-! ## Lemmas about the demographic pass -/

theorem prepopTally_eq (cc : CodingConfiguration) (cid : String) :
    prepopTally cc cid =
      if cid ∈ (nonStopCodes cc).map (fun c => c.code_id) then some 0 else none := by
  have hfn : ∀ (m : String → Option ℕ) (code : Code),
      (if code.control_code = some Codes.STOP then (none : Option String)
          else some code.code_id) = none →
        (if code.control_code = some Codes.STOP then m else fset m code.code_id 0) = m := by
    intro m code h
    by_cases hs : code.control_code = some Codes.STOP
    · rw [if_pos hs]
    · rw [if_neg hs] at h
      cases h
  have hfs : ∀ (m : String → Option ℕ) (code : Code) (k : String),
      (if code.control_code = some Codes.STOP then (none : Option String)
          else some code.code_id) = some k →
        (if code.control_code = some Codes.STOP then m else fset m code.code_id 0) =
          fset m k ((fun (_ : Code) => (0 : ℕ)) code) := by
    intro m code k h
    by_cases hs : code.control_code = some Codes.STOP
    · rw [if_pos hs] at h
      cases h
    · rw [if_neg hs] at h
      rw [Option.some_inj] at h
      rw [if_neg hs, h]
  by_cases hmem : cid ∈ (nonStopCodes cc).map (fun c => c.code_id)
  · rw [if_pos hmem]
    obtain ⟨c, hc, rfl⟩ := List.mem_map.1 hmem
    obtain ⟨hcmem, hcst⟩ := List.mem_filter.1 hc
    refine foldl_pick_write _
      (fun code => if code.control_code = some Codes.STOP then none else some code.code_id)
      (fun _ => 0) hfn hfs _ _ _ ⟨c, hcmem, ?_⟩ 0 (fun b _ _ => rfl)
    have hcst' : ¬ c.control_code = some Codes.STOP := by simpa using hcst
    simp [hcst']
  · rw [if_neg hmem]
    refine foldl_pick_untouched _
      (fun code => if code.control_code = some Codes.STOP then none else some code.code_id)
      (fun _ => 0) hfn hfs _ _ _ ?_
    intro a ha hak
    by_cases hst : a.control_code = some Codes.STOP
    · simp [hst] at hak
    · simp [hst] at hak
      exact hmem (List.mem_map.2 ⟨a, List.mem_filter.2 ⟨ha, by simpa using hst⟩, hak⟩)

theorem prepopTally_isSome_iff (cc : CodingConfiguration) (cid : String) :
    (prepopTally cc cid).isSome ↔
      cid ∈ (nonStopCodes cc).map (fun c => c.code_id) := by
  rw [prepopTally_eq]
  by_cases h : cid ∈ (nonStopCodes cc).map (fun c => c.code_id) <;> simp [h]

theorem tallySum_prepop (cc : CodingConfiguration) :
    tallySum cc (prepopTally cc) = 0 := by
  refine List.sum_eq_zero ?_
  intro x hx
  obtain ⟨c, hc, rfl⟩ := List.mem_map.1 hx
  rw [prepopTally_eq]
  by_cases h : c.code_id ∈ (nonStopCodes cc).map (fun c => c.code_id) <;> simp [h]

theorem initFold_untouched (l : List CodingConfiguration) (K : String)
    (h : ∀ cc ∈ l, cc.analysis_file_key ≠ some K) (st : DemogState) :
    (l.foldl initDemogStep st).distributions K = st.distributions K ∧
    (l.foldl initDemogStep st).total_relevant K = st.total_relevant K := by
  induction l generalizing st with
  | nil => exact ⟨rfl, rfl⟩
  | cons cc l ih =>
    have hstep : (initDemogStep st cc).distributions K = st.distributions K ∧
        (initDemogStep st cc).total_relevant K = st.total_relevant K := by
      unfold initDemogStep
      cases hcc : cc.analysis_file_key with
      | none => exact ⟨rfl, rfl⟩
      | some K' =>
          have hne : K ≠ K' := fun he =>
            h cc (List.mem_cons_self cc l) (by rw [hcc, he])
          exact ⟨fset_other _ _ _ _ hne, fset_other _ _ _ _ hne⟩
    have h2 := ih (fun c hc => h c (List.mem_cons_of_mem cc hc)) (initDemogStep st cc)
    rw [List.foldl_cons]
    exact ⟨h2.1.trans hstep.1, h2.2.trans hstep.2⟩

theorem initFold_mem (cc : CodingConfiguration) (K : String)
    (hk : cc.analysis_file_key = some K) :
    ∀ (l : List CodingConfiguration), cc ∈ l →
      (l.filterMap (fun c => c.analysis_file_key)).Nodup →
      ∀ st : DemogState,
        (l.foldl initDemogStep st).distributions K = some (prepopTally cc) ∧
        (l.foldl initDemogStep st).total_relevant K = some 0 := by
  intro l
  induction l with
  | nil => intro hmem; cases hmem
  | cons c l ih =>
    intro hmem hnodup st
    rw [List.foldl_cons]
    by_cases hcK : c.analysis_file_key = some K
    · have hnotin : ∀ c' ∈ l, c'.analysis_file_key ≠ some K := by
        intro c' hc' he
        rw [List.filterMap_cons, hcK] at hnodup
        exact (List.nodup_cons.1 hnodup).1 (List.mem_filterMap.2 ⟨c', hc', he⟩)
      obtain rfl : cc = c := by
        rcases List.mem_cons.1 hmem with rfl | h'
        · rfl
        · exact absurd hk (hnotin cc h')
      have hu := initFold_untouched l K hnotin (initDemogStep st cc)
      have hd : (initDemogStep st cc).distributions K = some (prepopTally cc) := by
        unfold initDemogStep
        rw [hk]
        exact fset_same ..
      have ht : (initDemogStep st cc).total_relevant K = some 0 := by
        unfold initDemogStep
        rw [hk]
        exact fset_same ..
      exact ⟨hu.1.trans hd, hu.2.trans ht⟩
    · have hccl : cc ∈ l := by
        rcases List.mem_cons.1 hmem with rfl | h'
        · exact absurd hk hcK
        · exact h'
      have hnodup' : (l.filterMap (fun c => c.analysis_file_key)).Nodup := by
        rw [List.filterMap_cons] at hnodup
        cases hca : c.analysis_file_key with
        | none => rw [hca] at hnodup; exact hnodup
        | some K' => rw [hca] at hnodup; exact (List.nodup_cons.1 hnodup).2
      exact ih hccl hnodup' (initDemogStep st c)

theorem initDemogState_spec (plans : List CodingPlan) (cc : CodingConfiguration)
    (K : String) (hcc : cc ∈ allCCs plans) (hk : cc.analysis_file_key = some K)
    (hnodup : (analysisKeys plans).Nodup) :
    (initDemogState plans).distributions K = some (prepopTally cc) ∧
    (initDemogState plans).total_relevant K = some 0 :=
  initFold_mem cc K hk (allCCs plans) hcc hnodup _

theorem initDemogInv (plans : List CodingPlan)
    (hnodup : (analysisKeys plans).Nodup) :
    DemogInv plans (initDemogState plans) := by
  constructor
  · intro cc hcc K hk
    exact ⟨prepopTally cc, (initDemogState_spec plans cc K hcc hk hnodup).1,
      fun cid => Iff.rfl⟩
  · intro cc hcc K hk
    rw [(initDemogState_spec plans cc K hcc hk hnodup).2]
    rfl

theorem singleCode_inv (ind : Record) (cc : CodingConfiguration) (c : Code)
    (h : singleCode ind cc = some c) :
    ∃ l, ind.fields cc.coded_field = some (.label l) ∧
      getCodeWithCodeId cc.code_scheme l.CodeID = some c := by
  unfold singleCode at h
  cases hf : ind.fields cc.coded_field with
  | none => rw [hf] at h; cases h
  | some fv =>
      cases fv with
      | label l => rw [hf] at h; exact ⟨l, rfl, h⟩
      | labels ls => rw [hf] at h; cases h
      | text s => rw [hf] at h; cases h

theorem getCode_mem (scheme : CodeScheme) (cid : String) (c : Code)
    (h : getCodeWithCodeId scheme cid = some c) :
    c ∈ scheme.codes ∧ c.code_id = cid := by
  refine ⟨List.mem_of_find?_eq_some h, ?_⟩
  have := List.find?_some h
  simpa using this

theorem cc_eq_of_same_key (plans : List CodingPlan)
    (hnodup : (analysisKeys plans).Nodup) (cc₁ cc₂ : CodingConfiguration)
    (K : String) (h1 : cc₁ ∈ allCCs plans) (h2 : cc₂ ∈ allCCs plans)
    (hk1 : cc₁.analysis_file_key = some K) (hk2 : cc₂.analysis_file_key = some K) :
    cc₁ = cc₂ := by
  by_contra hne
  have hcount : (analysisKeys plans).count K ≤ 1 :=
    List.nodup_iff_count_le_one.1 hnodup K
  rw [show analysisKeys plans =
      (allCCs plans).filterMap (fun c => c.analysis_file_key) from rfl] at hcount
  rw [count_filterMap_eq_countP] at hcount
  obtain ⟨s, t, hst⟩ := List.append_of_mem h1
  have h2' : cc₂ ∈ s ∨ cc₂ ∈ t := by
    rw [hst] at h2
    rcases List.mem_append.1 h2 with hs | hct
    · exact .inl hs
    · rcases List.mem_cons.1 hct with rfl | ht
      · exact absurd rfl hne
      · exact .inr ht
  have hp2 : 0 < (s.countP (fun a => decide (a.analysis_file_key = some K))) +
      (t.countP (fun a => decide (a.analysis_file_key = some K))) := by
    rcases h2' with hs | ht
    · have hpos : 0 < s.countP (fun a => decide (a.analysis_file_key = some K)) :=
        List.countP_pos_iff.2 ⟨cc₂, hs, by simp [hk2]⟩
      omega
    · have hpos : 0 < t.countP (fun a => decide (a.analysis_file_key = some K)) :=
        List.countP_pos_iff.2 ⟨cc₂, ht, by simp [hk2]⟩
      omega
  rw [hst, List.countP_append, List.countP_cons] at hcount
  simp only [hk1] at hcount
  simp at hcount
  omega

theorem sum_getD_fset (l : List Code) (t : Tally) (c : Code) (n : ℕ)
    (hmem : c ∈ l) (hnodup : (l.map (fun c => c.code_id)).Nodup)
    (ht : t c.code_id = some n) :
    (l.map (fun d => ((fset t c.code_id (n + 1)) d.code_id).getD 0)).sum =
      (l.map (fun d => (t d.code_id).getD 0)).sum + 1 := by
  induction l with
  | nil => cases hmem
  | cons a l ih =>
    rw [List.map_cons, List.map_cons, List.sum_cons, List.sum_cons]
    rw [List.map_cons, List.nodup_cons] at hnodup
    rcases List.mem_cons.1 hmem with rfl | hcl
    · have htail : ∀ d ∈ l, d.code_id ≠ c.code_id := by
        intro d hd he
        exact hnodup.1 (he ▸ List.mem_map.2 ⟨d, hd, rfl⟩)
      have hmaps : l.map (fun d => ((fset t c.code_id (n + 1)) d.code_id).getD 0) =
          l.map (fun d => (t d.code_id).getD 0) := by
        refine List.map_congr_left ?_
        intro d hd
        rw [fset_other _ _ _ _ (htail d hd)]
      rw [hmaps, fset_same, ht]
      simp only [Option.getD_some]
      omega
    · have hne : a.code_id ≠ c.code_id := by
        intro he
        exact hnodup.1 (he ▸ List.mem_map.2 ⟨c, hcl, rfl⟩)
      rw [fset_other _ _ _ _ hne, ih hcl hnodup.2]
      omega

theorem tallySum_fset (cc : CodingConfiguration) (t : Tally) (c : Code) (n : ℕ)
    (hmem : c ∈ nonStopCodes cc)
    (hids : (cc.code_scheme.codes.map (fun c => c.code_id)).Nodup)
    (ht : t c.code_id = some n) :
    tallySum cc (fset t c.code_id (n + 1)) = tallySum cc t + 1 := by
  have hsub : ((nonStopCodes cc).map (fun c => c.code_id)).Nodup := by
    refine List.Nodup.sublist ?_ hids
    exact List.Sublist.map _ (List.filter_sublist _)
  exact sum_getD_fset (nonStopCodes cc) t c n hmem hsub ht

theorem distSum_eq (cc : CodingConfiguration) (K : String) (st : DemogState)
    (t : Tally) (h : st.distributions K = some t) :
    distSum cc K st = tallySum cc t := by
  unfold distSum
  rw [h]

theorem distSum_congr (cc : CodingConfiguration) (K : String)
    (st st' : DemogState) (h : st'.distributions K = st.distributions K) :
    distSum cc K st' = distSum cc K st := by
  unfold distSum
  rw [h]

theorem demogStepCC_ok (plans : List CodingPlan) (ind : Record)
    (cc : CodingConfiguration) (hcc : cc ∈ allCCs plans) (hwf : DemogWF plans)
    (st : DemogState) (hinv : DemogInv plans st)
    (hres : cc.analysis_file_key ≠ none → demogResolvesNonStop ind cc) :
    ∃ st', demogStepCC ind st cc = .ok st' ∧ DemogInv plans st' ∧
      ∀ cc₀ K₀, cc₀ ∈ allCCs plans → cc₀.analysis_file_key = some K₀ →
        distSum cc₀ K₀ st' = distSum cc₀ K₀ st +
          (if cc.analysis_file_key = some K₀ then 1 else 0) := by
  cases hk : cc.analysis_file_key with
  | none =>
      refine ⟨st, by simp [demogStepCC, hk], hinv, ?_⟩
      intro cc₀ K₀ _ _
      simp [hk]
  | some K =>
      obtain ⟨hmode, c, hc, hcstop⟩ := hres (by simp [hk])
      obtain ⟨lbl, hfield, hget⟩ := singleCode_inv ind cc c hc
      obtain ⟨hcmem, hcid⟩ := getCode_mem _ _ _ hget
      have hcns : c ∈ nonStopCodes cc :=
        List.mem_filter.2 ⟨hcmem, by simpa using hcstop⟩
      obtain ⟨t, hdist, htkeys⟩ := hinv.distKeys cc hcc K hk
      have hprep : (prepopTally cc c.code_id).isSome :=
        (prepopTally_isSome_iff cc c.code_id).2 (List.mem_map.2 ⟨c, hcns, rfl⟩)
      have htsome : (t c.code_id).isSome := (htkeys c.code_id).2 hprep
      obtain ⟨n, hn⟩ := Option.isSome_iff_exists.1 htsome
      have htrsome := hinv.trKeys cc hcc K hk
      obtain ⟨mtr, hmtr⟩ := Option.isSome_iff_exists.1 htrsome
      refine ⟨⟨fset st.distributions K (fset t c.code_id (n + 1)),
        if c.code_type = CodeType.NORMAL then fset st.total_relevant K (mtr + 1)
        else st.total_relevant⟩, ?_, ?_, ?_⟩
      · by_cases hN : c.code_type = CodeType.NORMAL <;>
          simp [demogStepCC, hk, hmode, hfield, hget, hdist, hn, hN, hmtr]
      · constructor
        · intro cc' hcc' K' hk'
          by_cases hKK : K' = K
          · subst hKK
            obtain rfl : cc' = cc :=
              cc_eq_of_same_key plans hwf.nodupKeys cc' cc K' hcc' hcc hk' hk
            refine ⟨fset t c.code_id (n + 1), fset_same .., ?_⟩
            intro cid
            by_cases hcid2 : cid = c.code_id
            · subst hcid2
              rw [fset_same]
              simp [hprep]
            · rw [fset_other _ _ _ _ hcid2]
              exact htkeys cid
          · obtain ⟨t', ht', htk'⟩ := hinv.distKeys cc' hcc' K' hk'
            refine ⟨t', ?_, htk'⟩
            show fset st.distributions K (fset t c.code_id (n + 1)) K' = some t'
            rw [fset_other _ _ _ _ hKK]
            exact ht'
        · intro cc' hcc' K' hk'
          show ((if c.code_type = CodeType.NORMAL
              then fset st.total_relevant K (mtr + 1)
              else st.total_relevant) K').isSome
          by_cases hN : c.code_type = CodeType.NORMAL
          · rw [if_pos hN]
            by_cases hKK : K' = K
            · subst hKK
              rw [fset_same]
              rfl
            · rw [fset_other _ _ _ _ hKK]
              exact hinv.trKeys cc' hcc' K' hk'
          · rw [if_neg hN]
            exact hinv.trKeys cc' hcc' K' hk'
      · intro cc₀ K₀ hcc₀ hk₀
        by_cases hKK : K₀ = K
        · subst hKK
          obtain rfl : cc₀ = cc :=
            cc_eq_of_same_key plans hwf.nodupKeys cc₀ cc K₀ hcc₀ hcc hk₀ hk
          rw [if_pos rfl]
          rw [distSum_eq cc₀ K₀ _ (fset t c.code_id (n + 1)) (fset_same ..),
            distSum_eq cc₀ K₀ st t hdist]
          exact tallySum_fset cc₀ t c n hcns (hwf.nodupIds cc₀ hcc) hn
        · rw [if_neg (show ¬ ((some K : Option String) = some K₀) from
            fun he => hKK (Option.some_inj.1 he).symm), Nat.add_zero]
          exact distSum_congr cc₀ K₀ st _ (fset_other _ _ _ _ hKK)

theorem sum_key_indicator_eq_one (plans : List CodingPlan)
    (hnodup : (analysisKeys plans).Nodup) (cc₀ : CodingConfiguration) (K₀ : String)
    (hcc₀ : cc₀ ∈ allCCs plans) (hk₀ : cc₀.analysis_file_key = some K₀) :
    ((allCCs plans).map
      (fun cc => if cc.analysis_file_key = some K₀ then 1 else 0)).sum = 1 := by
  rw [show (fun cc : CodingConfiguration =>
      if cc.analysis_file_key = some K₀ then 1 else 0) =
      (fun cc : CodingConfiguration =>
        if (decide (cc.analysis_file_key = some K₀)) = true then 1 else 0) from
    funext (fun cc => by by_cases h : cc.analysis_file_key = some K₀ <;> simp [h])]
  rw [sum_map_ite_one, ← List.countP_eq_length_filter, ← count_filterMap_eq_countP]
  exact List.count_eq_one_of_mem hnodup
    (List.mem_filterMap.2 ⟨cc₀, hcc₀, hk₀⟩)

theorem demogStepInd_ok (plans : List CodingPlan) (ind : Record) (st : DemogState)
    (hwf : DemogWF plans) (hinv : DemogInv plans st)
    (hres : ind.consent_withdrawn = false → ∀ cc ∈ allCCs plans,
      cc.analysis_file_key ≠ none → demogResolvesNonStop ind cc) :
    ∃ st', demogStepInd plans st ind = .ok st' ∧ DemogInv plans st' ∧
      ∀ cc₀ K₀, cc₀ ∈ allCCs plans → cc₀.analysis_file_key = some K₀ →
        distSum cc₀ K₀ st' = distSum cc₀ K₀ st +
          (if ind.consent_withdrawn = false then 1 else 0) := by
  cases hw : ind.consent_withdrawn with
  | true =>
      refine ⟨st, by simp [demogStepInd, hw], hinv, ?_⟩
      intro cc₀ K₀ _ _
      simp [hw]
  | false =>
      obtain ⟨st', hfold, hinv'⟩ :=
        exceptFold_inv (demogStepCC ind) (allCCs plans) (DemogInv plans)
          (fun s cc hccl hinvs => by
            obtain ⟨s', h1, h2, _⟩ := demogStepCC_ok plans ind cc hccl hwf s hinvs
              (fun hne => hres hw cc hccl hne)
            exact ⟨s', h1, h2⟩)
          st hinv
      refine ⟨st', by simpa [demogStepInd, hw] using hfold, hinv', ?_⟩
      intro cc₀ K₀ hcc₀ hk₀
      obtain ⟨st'', hfold'', _, hsum⟩ :=
        exceptFold_count (demogStepCC ind) (allCCs plans) (DemogInv plans)
          (distSum cc₀ K₀)
          (fun cc => if cc.analysis_file_key = some K₀ then 1 else 0)
          (fun s cc hccl hinvs => by
            obtain ⟨s', h1, h2, h3⟩ := demogStepCC_ok plans ind cc hccl hwf s hinvs
              (fun hne => hres hw cc hccl hne)
            exact ⟨s', h1, h2, h3 cc₀ K₀ hcc₀ hk₀⟩)
          st hinv
      rw [hfold] at hfold''
      obtain rfl : st' = st'' := Except.ok.inj hfold''
      rw [hsum, if_pos rfl,
        sum_key_indicator_eq_one plans hwf.nodupKeys cc₀ K₀ hcc₀ hk₀]

theorem demogPass_ok (plans : List CodingPlan) (inds : List Record)
    (hwf : DemogWF plans)
    (hres : ∀ ind ∈ inds, ind.consent_withdrawn = false → ∀ cc ∈ allCCs plans,
      cc.analysis_file_key ≠ none → demogResolvesNonStop ind cc) :
    ∃ st, demogPass plans inds = .ok st ∧ DemogInv plans st ∧
      ∀ cc K, cc ∈ allCCs plans → cc.analysis_file_key = some K →
        distSum cc K st =
          (inds.filter (fun i => i.consent_withdrawn = false)).length := by
  obtain ⟨st, hfold, hinv⟩ :=
    exceptFold_inv (demogStepInd plans) inds (DemogInv plans)
      (fun s ind hind hinvs => by
        obtain ⟨s', h1, h2, _⟩ := demogStepInd_ok plans ind s hwf hinvs (hres ind hind)
        exact ⟨s', h1, h2⟩)
      (initDemogState plans) (initDemogInv plans hwf.nodupKeys)
  refine ⟨st, hfold, hinv, ?_⟩
  intro cc K hcc hk
  obtain ⟨st'', hfold'', _, hsum⟩ :=
    exceptFold_count (demogStepInd plans) inds (DemogInv plans)
      (distSum cc K) (fun i => if i.consent_withdrawn = false then 1 else 0)
      (fun s ind hind hinvs => by
        obtain ⟨s', h1, h2, h3⟩ := demogStepInd_ok plans ind s hwf hinvs (hres ind hind)
        exact ⟨s', h1, h2, h3 cc K hcc hk⟩)
      (initDemogState plans) (initDemogInv plans hwf.nodupKeys)
  rw [hfold] at hfold''
  obtain rfl : st = st'' := Except.ok.inj hfold''
  rw [hsum]
  have hinit : distSum cc K (initDemogState plans) = 0 := by
    rw [distSum_eq cc K _ (prepopTally cc)
      (initDemogState_spec plans cc K hcc hk hwf.nodupKeys).1]
    exact tallySum_prepop cc
  rw [hinit, Nat.zero_add]
  rw [show (fun i : Record => if i.consent_withdrawn = false then 1 else 0) =
      (fun i : Record =>
        if (decide (i.consent_withdrawn = false)) = true then 1 else 0) from
    funext (fun i => by by_cases h : i.consent_withdrawn = false <;> simp [h])]
  rw [sum_map_ite_one]

theorem demogStepCC_stop (plans : List CodingPlan) (ind : Record)
    (cc : CodingConfiguration) (hcc : cc ∈ allCCs plans) (hwf : DemogWF plans)
    (st : DemogState) (hinv : DemogInv plans st) (K : String)
    (hk : cc.analysis_file_key = some K)
    (hmode : cc.coding_mode = CodingModes.SINGLE)
    (c : Code) (hc : singleCode ind cc = some c)
    (hstop : c.control_code = some Codes.STOP) :
    demogStepCC ind st cc = .error (.missingTallyKey c.code_id) := by
  obtain ⟨lbl, hfield, hget⟩ := singleCode_inv ind cc c hc
  obtain ⟨hcmem, hcid⟩ := getCode_mem _ _ _ hget
  obtain ⟨t, hdist, htkeys⟩ := hinv.distKeys cc hcc K hk
  have htnone : t c.code_id = none := by
    by_contra hne
    have hsome : (t c.code_id).isSome := Option.ne_none_iff_isSome.1 hne
    have hpre : (prepopTally cc c.code_id).isSome := (htkeys c.code_id).1 hsome
    obtain ⟨d, hd, hdid⟩ :=
      List.mem_map.1 ((prepopTally_isSome_iff cc c.code_id).1 hpre)
    obtain ⟨hdmem, hdns⟩ := List.mem_filter.1 hd
    have hdc : d = c :=
      List.inj_on_of_nodup_map (hwf.nodupIds cc hcc) hdmem hcmem hdid
    rw [hdc] at hdns
    simp [hstop] at hdns
  simp [demogStepCC, hk, hmode, hfield, hget, hdist, htnone]

theorem demogCCFold_stop (plans : List CodingPlan) (ind : Record)
    (hwf : DemogWF plans) :
    ∀ (l : List CodingConfiguration), (∀ cc ∈ l, cc ∈ allCCs plans) →
      (∀ cc ∈ l, cc.analysis_file_key ≠ none → demogResolves ind cc) →
      (∃ cc ∈ l, cc.analysis_file_key ≠ none ∧
        ∃ c, singleCode ind cc = some c ∧ c.control_code = some Codes.STOP) →
      ∀ st, DemogInv plans st →
        ∃ cid, l.foldlM (demogStepCC ind) st = .error (.missingTallyKey cid) := by
  intro l
  induction l with
  | nil =>
      intro _ _ hbad
      simp at hbad
  | cons cc l ih =>
    intro hsub hres hbad st hinv
    by_cases hstop : cc.analysis_file_key ≠ none ∧
        ∃ c, singleCode ind cc = some c ∧ c.control_code = some Codes.STOP
    · obtain ⟨hkne, c, hc, hcs⟩ := hstop
      obtain ⟨K, hk⟩ := Option.ne_none_iff_exists'.1 hkne
      obtain ⟨hmode, -⟩ := hres cc (List.mem_cons_self cc l) hkne
      refine ⟨c.code_id, ?_⟩
      rw [List.foldlM_cons, demogStepCC_stop plans ind cc
        (hsub cc (List.mem_cons_self cc l)) hwf st hinv K hk hmode c hc hcs]
      rfl
    · have hresns : cc.analysis_file_key ≠ none → demogResolvesNonStop ind cc := by
        intro hkne
        obtain ⟨hmode, c, hc⟩ := hres cc (List.mem_cons_self cc l) hkne
        refine ⟨hmode, c, hc, ?_⟩
        intro hcs
        exact hstop ⟨hkne, c, hc, hcs⟩
      obtain ⟨st', h1, h2, -⟩ := demogStepCC_ok plans ind cc
        (hsub cc (List.mem_cons_self cc l)) hwf st hinv hresns
      have hbad' : ∃ cc' ∈ l, cc'.analysis_file_key ≠ none ∧
          ∃ c, singleCode ind cc' = some c ∧ c.control_code = some Codes.STOP := by
        obtain ⟨cc', hcc', hprop⟩ := hbad
        rcases List.mem_cons.1 hcc' with rfl | h'
        · exact absurd hprop hstop
        · exact ⟨cc', h', hprop⟩
      obtain ⟨cid, hrec⟩ := ih
        (fun c hcl => hsub c (List.mem_cons_of_mem cc hcl))
        (fun c hcl => hres c (List.mem_cons_of_mem cc hcl)) hbad' st' h2
      exact ⟨cid, by rw [List.foldlM_cons, h1]; exact hrec⟩

theorem demogFold_stop (plans : List CodingPlan) (hwf : DemogWF plans) :
    ∀ (inds : List Record),
      (∀ ind ∈ inds, ind.consent_withdrawn = false → ∀ cc ∈ allCCs plans,
        cc.analysis_file_key ≠ none → demogResolves ind cc) →
      (∃ ind ∈ inds, ind.consent_withdrawn = false ∧
        ∃ cc ∈ allCCs plans, cc.analysis_file_key ≠ none ∧
          ∃ c, singleCode ind cc = some c ∧ c.control_code = some Codes.STOP) →
      ∀ st, DemogInv plans st →
        ∃ cid, inds.foldlM (demogStepInd plans) st =
          .error (.missingTallyKey cid) := by
  intro inds
  induction inds with
  | nil =>
      intro _ hbad
      simp at hbad
  | cons ind rest ih =>
    intro hres hbad st hinv
    cases hw : ind.consent_withdrawn with
    | true =>
        have hstep : demogStepInd plans st ind = .ok st := by
          simp [demogStepInd, hw]
        have hbad' : ∃ i ∈ rest, i.consent_withdrawn = false ∧
            ∃ cc ∈ allCCs plans, cc.analysis_file_key ≠ none ∧
              ∃ c, singleCode i cc = some c ∧
                c.control_code = some Codes.STOP := by
          obtain ⟨i, hi, hwi, hprop⟩ := hbad
          rcases List.mem_cons.1 hi with rfl | h'
          · rw [hw] at hwi
            cases hwi
          · exact ⟨i, h', hwi, hprop⟩
        obtain ⟨cid, hrec⟩ := ih
          (fun i hi => hres i (List.mem_cons_of_mem ind hi)) hbad' st hinv
        exact ⟨cid, by rw [List.foldlM_cons, hstep]; exact hrec⟩
    | false =>
        by_cases hstop : ∃ cc ∈ allCCs plans, cc.analysis_file_key ≠ none ∧
            ∃ c, singleCode ind cc = some c ∧ c.control_code = some Codes.STOP
        · obtain ⟨cid, herr⟩ := demogCCFold_stop plans ind hwf (allCCs plans)
            (fun cc h => h)
            (fun cc h => hres ind (List.mem_cons_self ind rest) hw cc h)
            hstop st hinv
          have hstep : demogStepInd plans st ind =
              .error (.missingTallyKey cid) := by
            simpa [demogStepInd, hw] using herr
          exact ⟨cid, by rw [List.foldlM_cons, hstep]; rfl⟩
        · have hresns : ind.consent_withdrawn = false → ∀ cc ∈ allCCs plans,
              cc.analysis_file_key ≠ none → demogResolvesNonStop ind cc := by
            intro _ cc hcc hkne
            obtain ⟨hmode, c, hc⟩ :=
              hres ind (List.mem_cons_self ind rest) hw cc hcc hkne
            refine ⟨hmode, c, hc, ?_⟩
            intro hcs
            exact hstop ⟨cc, hcc, hkne, c, hc, hcs⟩
          obtain ⟨st', h1, h2, -⟩ := demogStepInd_ok plans ind st hwf hinv hresns
          have hbad' : ∃ i ∈ rest, i.consent_withdrawn = false ∧
              ∃ cc ∈ allCCs plans, cc.analysis_file_key ≠ none ∧
                ∃ c, singleCode i cc = some c ∧
                  c.control_code = some Codes.STOP := by
            obtain ⟨i, hi, hwi, hprop⟩ := hbad
            rcases List.mem_cons.1 hi with rfl | h'
            · exact absurd hprop hstop
            · exact ⟨i, h', hwi, hprop⟩
          obtain ⟨cid, hrec⟩ := ih
            (fun i hi => hres i (List.mem_cons_of_mem ind hi)) hbad' st' h2
          exact ⟨cid, by rw [List.foldlM_cons, h1]; exact hrec⟩

theorem demogPass_stop (plans : List CodingPlan) (inds : List Record)
    (hwf : DemogWF plans)
    (hres : ∀ ind ∈ inds, ind.consent_withdrawn = false → ∀ cc ∈ allCCs plans,
      cc.analysis_file_key ≠ none → demogResolves ind cc)
    (hbad : ∃ ind ∈ inds, ind.consent_withdrawn = false ∧
      ∃ cc ∈ allCCs plans, cc.analysis_file_key ≠ none ∧
        ∃ c, singleCode ind cc = some c ∧ c.control_code = some Codes.STOP) :
    ∃ cid, demogPass plans inds = .error (.missingTallyKey cid) :=
  demogFold_stop plans hwf inds hres hbad (initDemogState plans)
    (initDemogInv plans hwf.nodupKeys)

theorem demogExportRows_ok (dist : String → Option Tally) (tr : String → Option ℕ)
    (key : String) (t : Tally) (d : ℕ)
    (hd : dist key = some t) (htr : tr key = some d) (hdpos : d ≠ 0) :
    ∀ (l : List (ℕ × Code)),
      (∀ p ∈ l, ¬ p.2.control_code = some Codes.STOP → (t p.2.code_id).isSome) →
      ∀ rows₀ : List DemogRow,
        ∃ newRows, l.foldlM (demogExportRow dist tr key) rows₀ =
            .ok (rows₀ ++ newRows) ∧
          List.Forall₂ (fun (row : DemogRow) (code : Code) =>
            row.codeStr = code.string_value ∧
            row.participantsWithOptIns = (t code.code_id).getD 0 ∧
            row.percent = (if code.code_type = CodeType.NORMAL
              then .pct (pct1 ((t code.code_id).getD 0) d) else .blank))
            newRows ((l.map Prod.snd).filter
              (fun c => ¬ c.control_code = some Codes.STOP)) := by
  intro l
  induction l with
  | nil =>
      intro _ rows₀
      exact ⟨[], by rw [List.append_nil]; rfl, List.Forall₂.nil⟩
  | cons p l ih =>
    intro hpres rows₀
    by_cases hstop : p.2.control_code = some Codes.STOP
    · have hstep : demogExportRow dist tr key rows₀ p = .ok rows₀ := by
        simp [demogExportRow, hstop]
      obtain ⟨newRows, hfold, hf2⟩ :=
        ih (fun q hq => hpres q (List.mem_cons_of_mem p hq)) rows₀
      refine ⟨newRows, by rw [List.foldlM_cons, hstep]; exact hfold, ?_⟩
      rw [List.map_cons, List.filter_cons]
      simp only [hstop]
      simpa using hf2
    · obtain ⟨n, hn⟩ := Option.isSome_iff_exists.1
        (hpres p (List.mem_cons_self p l) hstop)
      by_cases hN : p.2.code_type = CodeType.NORMAL
      · have hstep : demogExportRow dist tr key rows₀ p =
            .ok (rows₀ ++ [⟨if p.1 = 0 then key else "", p.2.string_value, n,
              .pct (pct1 n d)⟩]) := by
          simp [demogExportRow, hstop, hd, hn, hN, htr, hdpos]
        obtain ⟨newRows, hfold, hf2⟩ :=
          ih (fun q hq => hpres q (List.mem_cons_of_mem p hq)) (rows₀ ++ [_])
        refine ⟨⟨if p.1 = 0 then key else "", p.2.string_value, n,
            .pct (pct1 n d)⟩ :: newRows, ?_, ?_⟩
        · rw [List.foldlM_cons, hstep]
          simpa [List.append_assoc] using hfold
        · rw [List.map_cons, List.filter_cons]
          simp only [hstop]
          simp only [decide_not, decide_eq_true_eq, if_pos, Bool.not_eq_true']
          refine List.Forall₂.cons ?_ (by simpa using hf2)
          exact ⟨rfl, by simp [hn], by simp [hn, hN]⟩
      · have hstep : demogExportRow dist tr key rows₀ p =
            .ok (rows₀ ++ [⟨if p.1 = 0 then key else "", p.2.string_value, n,
              .blank⟩]) := by
          simp [demogExportRow, hstop, hd, hn, hN]
        obtain ⟨newRows, hfold, hf2⟩ :=
          ih (fun q hq => hpres q (List.mem_cons_of_mem p hq)) (rows₀ ++ [_])
        refine ⟨⟨if p.1 = 0 then key else "", p.2.string_value, n,
            .blank⟩ :: newRows, ?_, ?_⟩
        · rw [List.foldlM_cons, hstep]
          simpa [List.append_assoc] using hfold
        · rw [List.map_cons, List.filter_cons]
          simp only [hstop]
          simp only [decide_not, decide_eq_true_eq, if_pos, Bool.not_eq_true']
          refine List.Forall₂.cons ?_ (by simpa using hf2)
          exact ⟨rfl, by simp [hn], by simp [hn, hN]⟩

theorem demogExportCC_ok (cc : CodingConfiguration) (K : String)
    (hk : cc.analysis_file_key = some K) (dist : String → Option Tally)
    (tr : String → Option ℕ) (t : Tally) (d : ℕ)
    (hd : dist K = some t) (htr : tr K = some d) (hdpos : d ≠ 0)
    (hpres : ∀ code ∈ cc.code_scheme.codes,
      ¬ code.control_code = some Codes.STOP → (t code.code_id).isSome) :
    ∃ rows, demogExportCC dist tr cc = .ok rows ∧
      List.Forall₂ (fun (row : DemogRow) (code : Code) =>
        row.codeStr = code.string_value ∧
        row.participantsWithOptIns = (t code.code_id).getD 0 ∧
        row.percent = (if code.code_type = CodeType.NORMAL
          then .pct (pct1 ((t code.code_id).getD 0) d) else .blank))
        rows (cc.code_scheme.codes.filter
          (fun c => ¬ c.control_code = some Codes.STOP)) := by
  have henum : ∀ p ∈ cc.code_scheme.codes.enum, p.2 ∈ cc.code_scheme.codes := by
    intro p hp
    have : p.2 ∈ cc.code_scheme.codes.enum.map Prod.snd :=
      List.mem_map.2 ⟨p, hp, rfl⟩
    rwa [List.enum_map_snd] at this
  obtain ⟨newRows, hfold, hf2⟩ :=
    demogExportRows_ok dist tr K t d hd htr hdpos cc.code_scheme.codes.enum
      (fun p hp hns => hpres p.2 (henum p hp) hns) []
  refine ⟨newRows, ?_, ?_⟩
  · have hunfold : demogExportCC dist tr cc =
        cc.code_scheme.codes.enum.foldlM (demogExportRow dist tr K) [] := by
      simp [demogExportCC, hk]
    rw [hunfold, hfold]
    simp
  · rwa [List.enum_map_snd] at hf2

theorem demogExportRows_zero (dist : String → Option Tally)
    (tr : String → Option ℕ) (key : String) (t : Tally)
    (hd : dist key = some t) (htr : tr key = some 0)
    (l : List (ℕ × Code))
    (hpres : ∀ p ∈ l, ¬ p.2.control_code = some Codes.STOP →
      (t p.2.code_id).isSome)
    (hbad : ∃ p ∈ l, ¬ p.2.control_code = some Codes.STOP ∧
      p.2.code_type = CodeType.NORMAL)
    (rows₀ : List DemogRow) :
    l.foldlM (demogExportRow dist tr key) rows₀ = .error .divByZero := by
  obtain ⟨p0, hp0, hns0, hN0⟩ := hbad
  refine exceptFold_error_eq _ l DemogError.divByZero p0 hp0 ?_ ?_ rows₀
  · intro rows p hp
    by_cases hstop : p.2.control_code = some Codes.STOP
    · exact .inl ⟨rows, by simp [demogExportRow, hstop]⟩
    · obtain ⟨n, hn⟩ := Option.isSome_iff_exists.1 (hpres p hp hstop)
      by_cases hN : p.2.code_type = CodeType.NORMAL
      · exact .inr (by simp [demogExportRow, hstop, hd, hn, hN, htr])
      · exact .inl ⟨rows ++ [⟨if p.1 = 0 then key else "", p.2.string_value, n,
          .blank⟩], by simp [demogExportRow, hstop, hd, hn, hN]⟩
  · intro rows
    obtain ⟨n, hn⟩ := Option.isSome_iff_exists.1 (hpres p0 hp0 hns0)
    simp [demogExportRow, hns0, hd, hn, hN0, htr]

theorem demogExportCC_zero (cc : CodingConfiguration) (K : String)
    (hk : cc.analysis_file_key = some K) (dist : String → Option Tally)
    (tr : String → Option ℕ) (t : Tally)
    (hd : dist K = some t) (htr : tr K = some 0)
    (hpres : ∀ code ∈ cc.code_scheme.codes,
      ¬ code.control_code = some Codes.STOP → (t code.code_id).isSome)
    (hbad : ∃ code ∈ cc.code_scheme.codes,
      ¬ code.control_code = some Codes.STOP ∧
        code.code_type = CodeType.NORMAL) :
    demogExportCC dist tr cc = .error .divByZero := by
  have henum : ∀ p ∈ cc.code_scheme.codes.enum, p.2 ∈ cc.code_scheme.codes := by
    intro p hp
    have : p.2 ∈ cc.code_scheme.codes.enum.map Prod.snd :=
      List.mem_map.2 ⟨p, hp, rfl⟩
    rwa [List.enum_map_snd] at this
  have hbad' : ∃ p ∈ cc.code_scheme.codes.enum,
      ¬ p.2.control_code = some Codes.STOP ∧
        p.2.code_type = CodeType.NORMAL := by
    obtain ⟨code, hcode, hprop⟩ := hbad
    have : code ∈ cc.code_scheme.codes.enum.map Prod.snd := by
      rw [List.enum_map_snd]
      exact hcode
    obtain ⟨p, hp, hps⟩ := List.mem_map.1 this
    exact ⟨p, hp, by rw [hps]; exact hprop⟩
  have hunfold : demogExportCC dist tr cc =
      cc.code_scheme.codes.enum.foldlM (demogExportRow dist tr K) [] := by
    simp [demogExportCC, hk]
  rw [hunfold]
  exact demogExportRows_zero dist tr K t hd htr _
    (fun p hp hns => hpres p.2 (henum p hp) hns) hbad' []

/-! ## Lemmas about the theme pass -/

theorem foldl_stopskip_eq {κ β : Type} [DecidableEq κ] (key : Code → κ) (v₀ : β)
    (codes : List Code) (m : κ → Option β) (p : κ) :
    (codes.foldl (fun m code =>
        if code.control_code = some Codes.STOP then m
        else fset m (key code) v₀) m) p =
      if p ∈ (codes.filter (fun c => ¬ c.control_code = some Codes.STOP)).map key
      then some v₀ else m p := by
  have hfn : ∀ (m : κ → Option β) (code : Code),
      (if code.control_code = some Codes.STOP then (none : Option κ)
          else some (key code)) = none →
        (if code.control_code = some Codes.STOP then m
          else fset m (key code) v₀) = m := by
    intro m code h
    by_cases hs : code.control_code = some Codes.STOP
    · rw [if_pos hs]
    · rw [if_neg hs] at h
      cases h
  have hfs : ∀ (m : κ → Option β) (code : Code) (k : κ),
      (if code.control_code = some Codes.STOP then (none : Option κ)
          else some (key code)) = some k →
        (if code.control_code = some Codes.STOP then m
          else fset m (key code) v₀) = fset m k ((fun (_ : Code) => v₀) code) := by
    intro m code k h
    by_cases hs : code.control_code = some Codes.STOP
    · rw [if_pos hs] at h
      cases h
    · rw [if_neg hs] at h
      rw [Option.some_inj] at h
      rw [if_neg hs, h]
  by_cases hmem : p ∈ (codes.filter
      (fun c => ¬ c.control_code = some Codes.STOP)).map key
  · rw [if_pos hmem]
    obtain ⟨c, hc, rfl⟩ := List.mem_map.1 hmem
    obtain ⟨hcmem, hcst⟩ := List.mem_filter.1 hc
    refine foldl_pick_write _
      (fun code => if code.control_code = some Codes.STOP then none
        else some (key code))
      (fun _ => v₀) hfn hfs _ _ _ ⟨c, hcmem, ?_⟩ v₀ (fun b _ _ => rfl)
    have hcst' : ¬ c.control_code = some Codes.STOP := by simpa using hcst
    simp [hcst']
  · rw [if_neg hmem]
    refine foldl_pick_untouched _
      (fun code => if code.control_code = some Codes.STOP then none
        else some (key code))
      (fun _ => v₀) hfn hfs _ _ _ ?_
    intro a ha hak
    by_cases hst : a.control_code = some Codes.STOP
    · simp [hst] at hak
    · simp [hst] at hak
      exact hmem (List.mem_map.2
        ⟨a, List.mem_filter.2 ⟨ha, by simpa using hst⟩, hak⟩)

theorem surveyKeysFold_eq {β : Type} (v₀ : β) :
    ∀ (l : List CodingConfiguration) (m : String × String → Option β)
      (p : String × String),
      (l.foldl (fun m cc =>
        match cc.analysis_file_key with
        | none => m
        | some k =>
            cc.code_scheme.codes.foldl
              (fun m code =>
                if code.control_code = some Codes.STOP then m
                else fset m (k, code.string_value) v₀)
              m) m) p =
      (if p ∈ l.flatMap (fun cc =>
          match cc.analysis_file_key with
          | none => []
          | some k => (nonStopCodes cc).map (fun c => (k, c.string_value)))
        then some v₀ else m p) := by
  intro l
  induction l with
  | nil =>
      intro m p
      simp
  | cons cc l ih =>
    intro m p
    rw [List.foldl_cons, List.flatMap_cons]
    cases hk : cc.analysis_file_key with
    | none =>
        rw [ih]
        dsimp only
        simp
    | some k =>
        rw [ih]
        dsimp only
        have hstep := foldl_stopskip_eq (fun c => ((k, c.string_value) : String × String))
          v₀ cc.code_scheme.codes m p
        by_cases h1 : p ∈ l.flatMap (fun cc =>
            match cc.analysis_file_key with
            | none => []
            | some k => (nonStopCodes cc).map (fun c => (k, c.string_value)))
        · rw [if_pos h1, if_pos (List.mem_append.2 (.inr h1))]
        · rw [if_neg h1, hstep]
          by_cases h2 : p ∈ (cc.code_scheme.codes.filter
              (fun c => ¬ c.control_code = some Codes.STOP)).map
                (fun c => ((k, c.string_value) : String × String))
          · rw [if_pos h2, if_pos]
            exact List.mem_append.2 (.inl h2)
          · rw [if_neg h2, if_neg]
            intro hmem
            rcases List.mem_append.1 hmem with ha | hb
            · exact h2 ha
            · exact h1 hb

theorem makeSurveyCounts_counts (surveyPlans : List CodingPlan)
    (p : String × String) :
    (makeSurveyCounts surveyPlans).counts p =
      if p ∈ surveyKeys surveyPlans then some 0 else none :=
  surveyKeysFold_eq 0 (allCCs surveyPlans) (fun _ => none) p

theorem makeSurveyCounts_rowOK (surveyPlans : List CodingPlan) :
    rowOK surveyPlans (makeSurveyCounts surveyPlans) := by
  intro p hp
  rw [makeSurveyCounts_counts, if_pos hp]
  rfl

theorem mapM_ok_mem {α β ε : Type} (f : α → Except ε β) :
    ∀ (ls : List α) (cs : List β), ls.mapM f = .ok cs →
      ∀ c ∈ cs, ∃ l ∈ ls, f l = .ok c := by
  intro ls
  induction ls with
  | nil =>
      intro cs h c hc
      have h' : (Except.ok ([] : List β) : Except ε (List β)) = .ok cs := h
      obtain rfl : ([] : List β) = cs := Except.ok.inj h'
      cases hc
  | cons a ls ih =>
    intro cs h c hc
    rw [List.mapM_cons] at h
    cases hfa : f a with
    | error e =>
        rw [hfa] at h
        exact Except.noConfusion
          (show (Except.error e : Except ε (List β)) = Except.ok cs from h)
    | ok b =>
        rw [hfa] at h
        cases hms : ls.mapM f with
        | error e =>
            rw [hms] at h
            exact Except.noConfusion
              (show (Except.error e : Except ε (List β)) = Except.ok cs from h)
        | ok bs =>
            rw [hms] at h
            have h2 : Except.ok (b :: bs) = Except.ok cs := h
            obtain rfl : b :: bs = cs := Except.ok.inj h2
            rcases List.mem_cons.1 hc with rfl | hc'
            · exact ⟨a, List.mem_cons_self a ls, hfa⟩
            · obtain ⟨l, hl, hfl⟩ := ih bs hms c hc'
              exact ⟨l, List.mem_cons_of_mem a hl, hfl⟩

theorem resolveCodes_mem (cc : CodingConfiguration) (r : Record)
    (cs : List Code) (h : resolveCodes cc r = .ok cs) :
    ∀ c ∈ cs, c ∈ cc.code_scheme.codes := by
  intro c hc
  cases hm : cc.coding_mode with
  | SINGLE =>
      cases hf : r.fields cc.coded_field with
      | none => simp [resolveCodes, hm, hf] at h
      | some fv =>
          cases fv with
          | label l =>
              cases hg : getCodeWithCodeId cc.code_scheme l.CodeID with
              | none => simp [resolveCodes, hm, hf, hg] at h
              | some c' =>
                  simp [resolveCodes, hm, hf, hg] at h
                  obtain rfl : [c'] = cs := h
                  rcases List.mem_cons.1 hc with rfl | hc'
                  · exact (getCode_mem _ _ _ hg).1
                  · cases hc'
          | labels ls => simp [resolveCodes, hm, hf] at h
          | text s => simp [resolveCodes, hm, hf] at h
  | MULTIPLE =>
      cases hf : r.fields cc.coded_field with
      | none => simp [resolveCodes, hm, hf] at h
      | some fv =>
          cases fv with
          | label l => simp [resolveCodes, hm, hf] at h
          | labels ls =>
              simp only [resolveCodes, hm, hf] at h
              obtain ⟨l, -, hfl⟩ := mapM_ok_mem _ ls cs h c hc
              cases hg : getCodeWithCodeId cc.code_scheme l.CodeID with
              | none => simp [hg] at hfl
              | some c' =>
                  simp [hg] at hfl
                  obtain rfl : c' = c := hfl
                  exact (getCode_mem _ _ _ hg).1
          | text s => simp [resolveCodes, hm, hf] at h

theorem mem_surveyKeys (surveyPlans : List CodingPlan)
    (cc : CodingConfiguration) (hcc : cc ∈ allCCs surveyPlans) (k : String)
    (hk : cc.analysis_file_key = some k) (code : Code)
    (hcode : code ∈ cc.code_scheme.codes)
    (hns : ¬ code.control_code = some Codes.STOP) :
    (k, code.string_value) ∈ surveyKeys surveyPlans := by
  unfold surveyKeys
  refine List.mem_flatMap.2 ⟨cc, hcc, ?_⟩
  rw [hk]
  exact List.mem_map.2 ⟨code, List.mem_filter.2 ⟨hcode, by simpa using hns⟩, rfl⟩

theorem surveyKeys_mem_inv (surveyPlans : List CodingPlan)
    (p : String × String) (hp : p ∈ surveyKeys surveyPlans) :
    ∃ cc ∈ allCCs surveyPlans, ∃ k, cc.analysis_file_key = some k ∧
      ∃ code ∈ cc.code_scheme.codes, ¬ code.control_code = some Codes.STOP ∧
        p = (k, code.string_value) := by
  obtain ⟨cc, hcc, hpin⟩ := List.mem_flatMap.1 hp
  refine ⟨cc, hcc, ?_⟩
  cases hk : cc.analysis_file_key with
  | none =>
      rw [hk] at hpin
      cases hpin
  | some k =>
      rw [hk] at hpin
      obtain ⟨code, hcode, rfl⟩ := List.mem_map.1 hpin
      obtain ⟨hcmem, hcns⟩ := List.mem_filter.1 hcode
      exact ⟨k, rfl, code, hcmem, by simpa using hcns, rfl⟩

theorem updateSurveyCountsCode_ok (surveyPlans : List CodingPlan)
    (cc : CodingConfiguration) (hcc : cc ∈ allCCs surveyPlans) (k : String)
    (hk : cc.analysis_file_key = some k) (sc0 sc : SurveyCounts) (code : Code)
    (hcode : code ∈ cc.code_scheme.codes) (hP : UpdInv surveyPlans sc0 sc) :
    ∃ sc', updateSurveyCountsCode k sc code = .ok sc' ∧
      UpdInv surveyPlans sc0 sc' := by
  obtain ⟨htp, hpcts, htppct, hrow⟩ := hP
  by_cases hstop : code.control_code = some Codes.STOP
  · exact ⟨sc, by simp [updateSurveyCountsCode, hstop], htp, hpcts, htppct, hrow⟩
  · have hmem := mem_surveyKeys surveyPlans cc hcc k hk code hcode hstop
    obtain ⟨n, hn⟩ := Option.isSome_iff_exists.1 (hrow _ hmem)
    refine ⟨{ sc with counts := fset sc.counts (k, code.string_value) (n + 1) },
      by simp [updateSurveyCountsCode, hstop, hn], htp, hpcts, htppct, ?_⟩
    intro q hq
    by_cases hqe : q = (k, code.string_value)
    · subst hqe
      show (fset sc.counts (k, code.string_value) (n + 1)
        (k, code.string_value)).isSome
      rw [fset_same]
      rfl
    · show (fset sc.counts (k, code.string_value) (n + 1) q).isSome
      rw [fset_other _ _ _ _ hqe]
      exact hrow q hq

theorem updateSurveyCountsCC_ok (surveyPlans : List CodingPlan) (td : Record)
    (hres : surveyResolves surveyPlans td) (sc0 : SurveyCounts)
    (sc : SurveyCounts) (cc : CodingConfiguration)
    (hcc : cc ∈ allCCs surveyPlans) (hP : UpdInv surveyPlans sc0 sc) :
    ∃ sc', updateSurveyCountsCC td sc cc = .ok sc' ∧
      UpdInv surveyPlans sc0 sc' := by
  cases hk : cc.analysis_file_key with
  | none => exact ⟨sc, by simp [updateSurveyCountsCC, hk], hP⟩
  | some k =>
      obtain ⟨cs, hcs⟩ := hres cc hcc (by simp [hk])
      obtain ⟨sc', hfold, hP'⟩ :=
        exceptFold_inv (updateSurveyCountsCode k) cs (UpdInv surveyPlans sc0)
          (fun s code hcodel hPs =>
            updateSurveyCountsCode_ok surveyPlans cc hcc k hk sc0 s code
              (resolveCodes_mem cc td cs hcs code hcodel) hPs)
          sc hP
      refine ⟨sc', ?_, hP'⟩
      rw [show updateSurveyCountsCC td sc cc =
        (do
          let codes ← resolveCodes cc td
          codes.foldlM (updateSurveyCountsCode k) sc) from by
          simp [updateSurveyCountsCC, hk]]
      rw [hcs]
      exact hfold

theorem updateSurveyCounts_ok (surveyPlans : List CodingPlan)
    (sc : SurveyCounts) (td : Record) (hrow : rowOK surveyPlans sc)
    (hres : surveyResolves surveyPlans td) :
    ∃ sc', updateSurveyCounts surveyPlans sc td = .ok sc' ∧
      UpdInv surveyPlans sc sc' :=
  exceptFold_inv (updateSurveyCountsCC td) (allCCs surveyPlans)
    (UpdInv surveyPlans sc)
    (fun s cc hcc hPs => updateSurveyCountsCC_ok surveyPlans td hres sc s cc hcc hPs)
    sc ⟨rfl, rfl, rfl, hrow⟩

theorem setSurveyPercentagesCode_ok (surveyPlans : List CodingPlan)
    (tsc sc0 : SurveyCounts) (cc : CodingConfiguration)
    (hcc : cc ∈ allCCs surveyPlans) (k : String)
    (hk : cc.analysis_file_key = some k)
    (hrow0 : rowOK surveyPlans sc0) (htsc : rowOK surveyPlans tsc)
    (sc : SurveyCounts) (code : Code) (hcode : code ∈ cc.code_scheme.codes)
    (hP : PctInv sc0 sc) :
    ∃ sc', setSurveyPercentagesCode tsc k sc code = .ok sc' ∧ PctInv sc0 sc' ∧
      ∀ p, sc'.pcts p = sc.pcts p ∨ sc'.pcts p = pctTarget sc0 tsc p := by
  obtain ⟨htp, hcounts, htppct⟩ := hP
  by_cases hstop : code.control_code = some Codes.STOP
  · exact ⟨sc, by simp [setSurveyPercentagesCode, hstop], ⟨htp, hcounts, htppct⟩,
      fun p => .inl rfl⟩
  · have hmem := mem_surveyKeys surveyPlans cc hcc k hk code hcode hstop
    obtain ⟨cnt, hcnt0⟩ := Option.isSome_iff_exists.1 (hrow0 _ hmem)
    have hcnt : sc.counts (k, code.string_value) = some cnt := by
      rw [hcounts, hcnt0]
    obtain ⟨tot, htot⟩ := Option.isSome_iff_exists.1 (htsc _ hmem)
    refine ⟨{ sc with pcts := fset sc.pcts (k, code.string_value) (if tot = 0 then PctCell.notApplicable else PctCell.pct (pct1 cnt tot)) },
      by simp [setSurveyPercentagesCode, hstop, hcnt, htot],
      ⟨htp, hcounts, htppct⟩, ?_⟩
    intro p
    by_cases hpe : p = (k, code.string_value)
    · subst hpe
      refine .inr ?_
      show fset sc.pcts (k, code.string_value) (if tot = 0 then PctCell.notApplicable else PctCell.pct (pct1 cnt tot)) (k, code.string_value) = pctTarget sc0 tsc (k, code.string_value)
      rw [fset_same]
      simp only [pctTarget, hcnt0, htot]
    · exact .inl (fset_other _ _ _ _ hpe)

theorem setSurveyPercentagesCC_ok (surveyPlans : List CodingPlan)
    (tsc sc0 : SurveyCounts)
    (hrow0 : rowOK surveyPlans sc0) (htsc : rowOK surveyPlans tsc)
    (sc : SurveyCounts) (cc : CodingConfiguration)
    (hcc : cc ∈ allCCs surveyPlans) (hP : PctInv sc0 sc) :
    ∃ sc', setSurveyPercentagesCC tsc sc cc = .ok sc' ∧ PctInv sc0 sc' ∧
      ∀ p, sc'.pcts p = sc.pcts p ∨ sc'.pcts p = pctTarget sc0 tsc p := by
  cases hk : cc.analysis_file_key with
  | none =>
      exact ⟨sc, by simp [setSurveyPercentagesCC, hk], hP, fun p => .inl rfl⟩
  | some k =>
      obtain ⟨sc', hfold, hP'⟩ :=
        exceptFold_inv (setSurveyPercentagesCode tsc k) cc.code_scheme.codes
          (fun s => PctInv sc0 s ∧
            ∀ p, s.pcts p = sc.pcts p ∨ s.pcts p = pctTarget sc0 tsc p)
          (fun s code hcodel hPs => by
            obtain ⟨s', h1, h2, h3⟩ := setSurveyPercentagesCode_ok surveyPlans
              tsc sc0 cc hcc k hk hrow0 htsc s code hcodel hPs.1
            refine ⟨s', h1, h2, ?_⟩
            intro p
            rcases h3 p with he | ht
            · rw [he]
              exact hPs.2 p
            · exact .inr ht)
          sc ⟨hP, fun p => .inl rfl⟩
      refine ⟨sc', ?_, hP'.1, hP'.2⟩
      rw [show setSurveyPercentagesCC tsc sc cc =
        cc.code_scheme.codes.foldlM (setSurveyPercentagesCode tsc k) sc from by
          simp [setSurveyPercentagesCC, hk]]
      exact hfold

theorem setSurveyPercentagesCC_reach (surveyPlans : List CodingPlan)
    (tsc sc0 : SurveyCounts)
    (hrow0 : rowOK surveyPlans sc0) (htsc : rowOK surveyPlans tsc)
    (p : String × String) (cc : CodingConfiguration)
    (hcc : cc ∈ allCCs surveyPlans) (k : String)
    (hk : cc.analysis_file_key = some k) (code : Code)
    (hcode : code ∈ cc.code_scheme.codes)
    (hns : ¬ code.control_code = some Codes.STOP)
    (hp : p = (k, code.string_value))
    (sc : SurveyCounts) (hP : PctInv sc0 sc) :
    ∃ sc', setSurveyPercentagesCC tsc sc cc = .ok sc' ∧ PctInv sc0 sc' ∧
      sc'.pcts p = pctTarget sc0 tsc p := by
  obtain ⟨sc', hfold, hP', hq'⟩ :=
    exceptFold_reach (setSurveyPercentagesCode tsc k) cc.code_scheme.codes
      (PctInv sc0) (fun s => s.pcts p = pctTarget sc0 tsc p)
      (fun s c hcl hPs => by
        obtain ⟨s', h1, h2, _⟩ := setSurveyPercentagesCode_ok surveyPlans
          tsc sc0 cc hcc k hk hrow0 htsc s c hcl hPs
        exact ⟨s', h1, h2⟩)
      (fun s c hcl hPs hQs => by
        obtain ⟨s', h1, h2, h3⟩ := setSurveyPercentagesCode_ok surveyPlans
          tsc sc0 cc hcc k hk hrow0 htsc s c hcl hPs
        refine ⟨s', h1, ?_⟩
        rcases h3 p with he | ht
        · rw [he]
          exact hQs
        · exact ht)
      code hcode
      (fun s hPs => by
        obtain ⟨htp, hcounts, htppct⟩ := hPs
        have hmem := mem_surveyKeys surveyPlans cc hcc k hk code hcode hns
        obtain ⟨cnt, hcnt0⟩ := Option.isSome_iff_exists.1 (hrow0 _ hmem)
        have hcnt : s.counts (k, code.string_value) = some cnt := by
          rw [hcounts, hcnt0]
        obtain ⟨tot, htot⟩ := Option.isSome_iff_exists.1 (htsc _ hmem)
        refine ⟨{ s with pcts := fset s.pcts (k, code.string_value) (if tot = 0 then PctCell.notApplicable else PctCell.pct (pct1 cnt tot)) },
          by simp [setSurveyPercentagesCode, hns, hcnt, htot], ?_⟩
        subst hp
        show fset s.pcts (k, code.string_value) (if tot = 0 then PctCell.notApplicable else PctCell.pct (pct1 cnt tot)) (k, code.string_value) = pctTarget sc0 tsc (k, code.string_value)
        rw [fset_same]
        simp only [pctTarget, hcnt0, htot])
      sc hP
  refine ⟨sc', ?_, hP', hq'⟩
  rw [show setSurveyPercentagesCC tsc sc cc =
    cc.code_scheme.codes.foldlM (setSurveyPercentagesCode tsc k) sc from by
      simp [setSurveyPercentagesCC, hk]]
  exact hfold

theorem setSurveyPercentages_ok (surveyPlans : List CodingPlan)
    (sc tsc : SurveyCounts)
    (hsc : rowOK surveyPlans sc) (htsc : rowOK surveyPlans tsc) :
    ∃ sc', setSurveyPercentages surveyPlans sc tsc = .ok sc' ∧
      sc'.totalParticipants = sc.totalParticipants ∧
      sc'.counts = sc.counts ∧
      sc'.totalParticipantsPct =
        (if tsc.totalParticipants = 0 then PctCell.notApplicable
         else PctCell.pct (pct1 sc.totalParticipants tsc.totalParticipants)) ∧
      ∀ p ∈ surveyKeys surveyPlans, sc'.pcts p = pctTarget sc tsc p := by
  set sc1 : SurveyCounts := { sc with totalParticipantsPct := if tsc.totalParticipants = 0 then PctCell.notApplicable else PctCell.pct (pct1 sc.totalParticipants tsc.totalParticipants) } with hsc1def
  have hsc1 : rowOK surveyPlans sc1 := hsc
  obtain ⟨sc', hfold, hP'⟩ :=
    exceptFold_inv (setSurveyPercentagesCC tsc) (allCCs surveyPlans)
      (PctInv sc1)
      (fun s cc hcc hPs => by
        obtain ⟨s', h1, h2, _⟩ := setSurveyPercentagesCC_ok surveyPlans tsc sc1
          hsc1 htsc s cc hcc hPs
        exact ⟨s', h1, h2⟩)
      sc1 ⟨rfl, rfl, rfl⟩
  refine ⟨sc', hfold, hP'.1, hP'.2.1, hP'.2.2, ?_⟩
  intro p hp
  obtain ⟨cc, hcc, k, hk, code, hcode, hns, hpe⟩ :=
    surveyKeys_mem_inv surveyPlans p hp
  obtain ⟨sc'', hfold'', _, hq''⟩ :=
    exceptFold_reach (setSurveyPercentagesCC tsc) (allCCs surveyPlans)
      (PctInv sc1)
      (fun s => s.pcts p = pctTarget sc1 tsc p)
      (fun s cc' hcc' hPs => by
        obtain ⟨s', h1, h2, _⟩ := setSurveyPercentagesCC_ok surveyPlans tsc sc1
          hsc1 htsc s cc' hcc' hPs
        exact ⟨s', h1, h2⟩)
      (fun s cc' hcc' hPs hQs => by
        obtain ⟨s', h1, h2, h3⟩ := setSurveyPercentagesCC_ok surveyPlans tsc sc1
          hsc1 htsc s cc' hcc' hPs
        refine ⟨s', h1, ?_⟩
        rcases h3 p with he | ht
        · rw [he]
          exact hQs
        · exact ht)
      cc hcc
      (fun s hPs => by
        obtain ⟨s', h1, h2, h3⟩ := setSurveyPercentagesCC_reach surveyPlans tsc sc1
          hsc1 htsc p cc hcc k hk code hcode hns hpe s hPs
        exact ⟨s', h1, h3⟩)
      sc1 ⟨rfl, rfl, rfl⟩
  rw [hfold] at hfold''
  obtain rfl : sc' = sc'' := Except.ok.inj hfold''
  exact hq''

theorem themeSetupCC_ok (surveyPlans : List CodingPlan) (themes : ThemeState)
    (cc : CodingConfiguration) (hm : cc.coding_mode = CodingModes.MULTIPLE) :
    ∃ themes', themeSetupCC surveyPlans themes cc = .ok themes' ∧
      (∀ key, themes' key = themes key ∨
        themes' key = some (makeSurveyCounts surveyPlans)) ∧
      themes' ThemeKey.totalRelevant = some (makeSurveyCounts surveyPlans) ∧
      ∀ code ∈ cc.code_scheme.codes, ¬ code.control_code = some Codes.STOP →
        themes' (ThemeKey.themeOf cc.analysis_file_key code.string_value) =
          some (makeSurveyCounts surveyPlans) := by
  refine ⟨cc.code_scheme.codes.foldl
      (fun themes code =>
        if code.control_code = some Codes.STOP then themes
        else fset themes (ThemeKey.themeOf cc.analysis_file_key code.string_value)
          (makeSurveyCounts surveyPlans))
      (fset themes ThemeKey.totalRelevant (makeSurveyCounts surveyPlans)),
    by simp [themeSetupCC, hm], ?_, ?_, ?_⟩
  · intro key
    rw [foldl_stopskip_eq
      (fun c => ThemeKey.themeOf cc.analysis_file_key c.string_value)
      (makeSurveyCounts surveyPlans) cc.code_scheme.codes _ key]
    by_cases hmem : key ∈ (cc.code_scheme.codes.filter
        (fun c => ¬ c.control_code = some Codes.STOP)).map
          (fun c => ThemeKey.themeOf cc.analysis_file_key c.string_value)
    · rw [if_pos hmem]
      exact .inr rfl
    · rw [if_neg hmem]
      by_cases hkey : key = ThemeKey.totalRelevant
      · subst hkey
        rw [fset_same]
        exact .inr rfl
      · rw [fset_other _ _ _ _ hkey]
        exact .inl rfl
  · rw [foldl_stopskip_eq
      (fun c => ThemeKey.themeOf cc.analysis_file_key c.string_value)
      (makeSurveyCounts surveyPlans) cc.code_scheme.codes _ ThemeKey.totalRelevant]
    have hnotin : ThemeKey.totalRelevant ∉ (cc.code_scheme.codes.filter
        (fun c => ¬ c.control_code = some Codes.STOP)).map
          (fun c => ThemeKey.themeOf cc.analysis_file_key c.string_value) := by
      intro hmem
      obtain ⟨c, -, hc⟩ := List.mem_map.1 hmem
      cases hc
    rw [if_neg hnotin, fset_same]
  · intro code hcode hns
    rw [foldl_stopskip_eq
      (fun c => ThemeKey.themeOf cc.analysis_file_key c.string_value)
      (makeSurveyCounts surveyPlans) cc.code_scheme.codes _ _]
    rw [if_pos (List.mem_map.2
      ⟨code, List.mem_filter.2 ⟨hcode, by simpa using hns⟩, rfl⟩)]

theorem themeSetup_ok (surveyPlans : List CodingPlan) (episode : CodingPlan)
    (hmode : ∀ cc ∈ episode.coding_configurations,
      cc.coding_mode = CodingModes.MULTIPLE)
    (hne : episode.coding_configurations ≠ []) :
    ∃ themes, themeSetup surveyPlans episode = .ok themes ∧
      ThemeInv surveyPlans episode themes := by
  obtain ⟨themes, hfold, -⟩ :=
    exceptFold_inv (themeSetupCC surveyPlans) episode.coding_configurations
      (fun _ => True)
      (fun s cc hcc _ => by
        obtain ⟨s', h1, -, -, -⟩ := themeSetupCC_ok surveyPlans s cc (hmode cc hcc)
        exact ⟨s', h1, trivial⟩)
      (fun _ => none) trivial
  refine ⟨themes, hfold, ?_, ?_⟩
  · intro cc hcc code hcode hns
    obtain ⟨themes'', hfold'', -, hq⟩ :=
      exceptFold_reach (themeSetupCC surveyPlans) episode.coding_configurations
        (fun _ => True)
        (fun s => ∃ row,
          s (ThemeKey.themeOf cc.analysis_file_key code.string_value) = some row ∧
            rowOK surveyPlans row)
        (fun s cc' hcc' _ => by
          obtain ⟨s', h1, -, -, -⟩ :=
            themeSetupCC_ok surveyPlans s cc' (hmode cc' hcc')
          exact ⟨s', h1, trivial⟩)
        (fun s cc' hcc' _ hQs => by
          obtain ⟨s', h1, h2, -, -⟩ :=
            themeSetupCC_ok surveyPlans s cc' (hmode cc' hcc')
          refine ⟨s', h1, ?_⟩
          rcases h2 (ThemeKey.themeOf cc.analysis_file_key code.string_value)
            with he | hm2
          · rw [he]
            exact hQs
          · exact ⟨makeSurveyCounts surveyPlans, hm2,
              makeSurveyCounts_rowOK surveyPlans⟩)
        cc hcc
        (fun s _ => by
          obtain ⟨s', h1, -, -, h4⟩ :=
            themeSetupCC_ok surveyPlans s cc (hmode cc hcc)
          exact ⟨s', h1, makeSurveyCounts surveyPlans, h4 code hcode hns,
            makeSurveyCounts_rowOK surveyPlans⟩)
        (fun _ => none) trivial
    rw [hfold] at hfold''
    obtain rfl : themes = themes'' := Except.ok.inj hfold''
    exact hq
  · obtain ⟨cc0, hcc0⟩ := List.exists_mem_of_ne_nil _ hne
    obtain ⟨themes'', hfold'', -, hq⟩ :=
      exceptFold_reach (themeSetupCC surveyPlans) episode.coding_configurations
        (fun _ => True)
        (fun s => ∃ row, s ThemeKey.totalRelevant = some row ∧
          rowOK surveyPlans row)
        (fun s cc' hcc' _ => by
          obtain ⟨s', h1, -, -, -⟩ :=
            themeSetupCC_ok surveyPlans s cc' (hmode cc' hcc')
          exact ⟨s', h1, trivial⟩)
        (fun s cc' hcc' _ hQs => by
          obtain ⟨s', h1, -, h3, -⟩ :=
            themeSetupCC_ok surveyPlans s cc' (hmode cc' hcc')
          exact ⟨s', h1, makeSurveyCounts surveyPlans, h3,
            makeSurveyCounts_rowOK surveyPlans⟩)
        cc0 hcc0
        (fun s _ => by
          obtain ⟨s', h1, -, h3, -⟩ :=
            themeSetupCC_ok surveyPlans s cc0 (hmode cc0 hcc0)
          exact ⟨s', h1, makeSurveyCounts surveyPlans, h3,
            makeSurveyCounts_rowOK surveyPlans⟩)
        (fun _ => none) trivial
    rw [hfold] at hfold''
    obtain rfl : themes = themes'' := Except.ok.inj hfold''
    exact hq

theorem themeLabelStep_ok (surveyPlans : List CodingPlan) (episode : CodingPlan)
    (cc : CodingConfiguration) (hcc : cc ∈ episode.coding_configurations)
    (td : Record) (hsres : surveyResolves surveyPlans td)
    (acc : ThemeState × Bool) (hinv : ThemeInv surveyPlans episode acc.1)
    (l : Label) (hres : (getCodeWithCodeId cc.code_scheme l.CodeID).isSome) :
    ∃ acc', themeLabelStep surveyPlans cc td acc l = .ok acc' ∧
      ThemeInv surveyPlans episode acc'.1 ∧
      acc'.2 = (acc.2 || labelNormalNonStop cc l) ∧
      acc'.1 ThemeKey.totalRelevant = acc.1 ThemeKey.totalRelevant ∧
      ∀ afk sv, themeCount acc'.1 (ThemeKey.themeOf afk sv) =
        themeCount acc.1 (ThemeKey.themeOf afk sv) +
          (if labelHit cc afk sv l = true then 1 else 0) := by
  obtain ⟨c, hc⟩ := Option.isSome_iff_exists.1 hres
  by_cases hstop : c.control_code = some Codes.STOP
  · refine ⟨acc, by simp [themeLabelStep, hc, hstop], hinv, ?_, rfl, ?_⟩
    · have hlb : labelNormalNonStop cc l = false := by
        simp [labelNormalNonStop, hc, hstop]
      rw [hlb, Bool.or_false]
    · intro afk sv
      have hlh : labelHit cc afk sv l = false := by
        simp [labelHit, hc, hstop]
      rw [hlh]
      simp
  · obtain ⟨row, hrow, hrowOK⟩ :=
      hinv.rows cc hcc c (getCode_mem _ _ _ hc).1 hstop
    obtain ⟨row2, hupd, hrow2tp, hrow2pcts, hrow2tppct, hrow2OK⟩ :=
      updateSurveyCounts_ok surveyPlans
        { row with totalParticipants := row.totalParticipants + 1 } td hrowOK hsres
    refine ⟨(fset acc.1 (ThemeKey.themeOf cc.analysis_file_key c.string_value) row2,
        acc.2 || decide (c.code_type = CodeType.NORMAL)),
      by simp [themeLabelStep, hc, hstop, hrow, hupd]; rfl, ?_, ?_, ?_, ?_⟩
    · constructor
      · intro cc' hcc' code' hcode' hns'
        dsimp only
        by_cases hkey : ThemeKey.themeOf cc'.analysis_file_key code'.string_value =
            ThemeKey.themeOf cc.analysis_file_key c.string_value
        · rw [hkey]
          exact ⟨row2, fset_same .., hrow2OK⟩
        · rw [fset_other _ _ _ _ hkey]
          exact hinv.rows cc' hcc' code' hcode' hns'
      · obtain ⟨trow, htrow, htrowOK⟩ := hinv.trRow
        refine ⟨trow, ?_, htrowOK⟩
        dsimp only
        rw [fset_other _ _ _ _ (show ThemeKey.totalRelevant ≠
          ThemeKey.themeOf cc.analysis_file_key c.string_value by simp)]
        exact htrow
    · show (acc.2 || decide (c.code_type = CodeType.NORMAL)) =
        (acc.2 || labelNormalNonStop cc l)
      have : labelNormalNonStop cc l = decide (c.code_type = CodeType.NORMAL) := by
        rw [Bool.eq_iff_iff]
        simp [labelNormalNonStop, hc, hstop]
      rw [this]
    · show fset acc.1 (ThemeKey.themeOf cc.analysis_file_key c.string_value) row2
        ThemeKey.totalRelevant = acc.1 ThemeKey.totalRelevant
      exact fset_other _ _ _ _ (by simp)
    · intro afk sv
      by_cases hkey : ThemeKey.themeOf afk sv =
          ThemeKey.themeOf cc.analysis_file_key c.string_value
      · obtain ⟨hafk, hsv⟩ : afk = cc.analysis_file_key ∧ sv = c.string_value := by
          simpa using hkey
        have hlh : labelHit cc afk sv l = true := by
          simp [labelHit, hc, hstop, hafk, hsv]
        rw [hlh, if_pos rfl]
        unfold themeCount
        rw [hkey]
        dsimp only
        rw [fset_same, hrow]
        simp [hrow2tp]
      · have hlh : labelHit cc afk sv l = false := by
          have hne : ¬ (cc.analysis_file_key = afk ∧ c.string_value = sv) := by
            intro he
            exact hkey (by rw [he.1, he.2])
          by_cases h1 : cc.analysis_file_key = afk
          · have h2 : ¬ c.string_value = sv := fun h2 => hne ⟨h1, h2⟩
            simp [labelHit, hc, hstop, h1, h2]
          · simp [labelHit, hc, h1]
        rw [hlh]
        unfold themeCount
        dsimp only
        rw [fset_other _ _ _ _ hkey]
        simp

theorem themeLabelFold_ok (surveyPlans : List CodingPlan) (episode : CodingPlan)
    (cc : CodingConfiguration) (hcc : cc ∈ episode.coding_configurations)
    (td : Record) (hsres : surveyResolves surveyPlans td)
    (ls : List Label)
    (hres : ∀ l ∈ ls, (getCodeWithCodeId cc.code_scheme l.CodeID).isSome)
    (acc : ThemeState × Bool) (hinv : ThemeInv surveyPlans episode acc.1) :
    ∃ acc', ls.foldlM (themeLabelStep surveyPlans cc td) acc = .ok acc' ∧
      ThemeInv surveyPlans episode acc'.1 ∧
      acc'.2 = (acc.2 || ls.any (labelNormalNonStop cc)) ∧
      acc'.1 ThemeKey.totalRelevant = acc.1 ThemeKey.totalRelevant ∧
      ∀ afk sv, themeCount acc'.1 (ThemeKey.themeOf afk sv) =
        themeCount acc.1 (ThemeKey.themeOf afk sv) +
          ls.countP (labelHit cc afk sv) := by
  induction ls generalizing acc with
  | nil =>
      exact ⟨acc, rfl, hinv, by simp, rfl, fun afk sv => by simp⟩
  | cons l ls ih =>
      obtain ⟨acc1, hstep, hinv1, hflag1, htr1, hcnt1⟩ :=
        themeLabelStep_ok surveyPlans episode cc hcc td hsres acc hinv l
          (hres l (List.mem_cons_self l ls))
      obtain ⟨acc2, hfold, hinv2, hflag2, htr2, hcnt2⟩ :=
        ih (fun l' hl' => hres l' (List.mem_cons_of_mem _ hl')) acc1 hinv1
      refine ⟨acc2, ?_, hinv2, ?_, htr2.trans htr1, ?_⟩
      · rw [List.foldlM_cons, hstep]
        exact hfold
      · rw [hflag2, hflag1, List.any_cons, Bool.or_assoc]
      · intro afk sv
        rw [hcnt2 afk sv, hcnt1 afk sv, List.countP_cons]
        by_cases h : labelHit cc afk sv l = true
        · rw [if_pos h]
          omega
        · rw [if_neg h]
          omega

theorem themeCCStep_ok (surveyPlans : List CodingPlan) (episode : CodingPlan)
    (cc : CodingConfiguration) (hcc : cc ∈ episode.coding_configurations)
    (hmode : cc.coding_mode = CodingModes.MULTIPLE)
    (td : Record) (hsres : surveyResolves surveyPlans td)
    (heres : episodeResolves episode td)
    (acc : ThemeState × Bool) (hinv : ThemeInv surveyPlans episode acc.1) :
    ∃ acc', themeCCStep surveyPlans td acc cc = .ok acc' ∧
      ThemeInv surveyPlans episode acc'.1 ∧
      acc'.2 = (acc.2 || ccNormalNonStopB cc td) ∧
      acc'.1 ThemeKey.totalRelevant = acc.1 ThemeKey.totalRelevant ∧
      ∀ afk sv, themeCount acc'.1 (ThemeKey.themeOf afk sv) =
        themeCount acc.1 (ThemeKey.themeOf afk sv) + ccLabelHits cc td afk sv := by
  obtain ⟨ls, hls, hres⟩ := heres cc hcc
  obtain ⟨acc', hfold, hinv', hflag, htr, hcnt⟩ :=
    themeLabelFold_ok surveyPlans episode cc hcc td hsres ls hres acc hinv
  refine ⟨acc', ?_, hinv', ?_, htr, ?_⟩
  · rw [show themeCCStep surveyPlans td acc cc =
      ls.foldlM (themeLabelStep surveyPlans cc td) acc from by
        simp [themeCCStep, hmode, hls]]
    exact hfold
  · rw [hflag]
    unfold ccNormalNonStopB
    rw [hls]
  · intro afk sv
    rw [hcnt afk sv]
    unfold ccLabelHits
    rw [hls]

theorem themeCCFold_ok (surveyPlans : List CodingPlan) (episode : CodingPlan)
    (ccs : List CodingConfiguration)
    (hsub : ∀ cc ∈ ccs, cc ∈ episode.coding_configurations)
    (hmode : ∀ cc ∈ ccs, cc.coding_mode = CodingModes.MULTIPLE)
    (td : Record) (hsres : surveyResolves surveyPlans td)
    (heres : episodeResolves episode td)
    (acc : ThemeState × Bool) (hinv : ThemeInv surveyPlans episode acc.1) :
    ∃ acc', ccs.foldlM (themeCCStep surveyPlans td) acc = .ok acc' ∧
      ThemeInv surveyPlans episode acc'.1 ∧
      acc'.2 = (acc.2 || ccs.any (fun cc => ccNormalNonStopB cc td)) ∧
      acc'.1 ThemeKey.totalRelevant = acc.1 ThemeKey.totalRelevant ∧
      ∀ afk sv, themeCount acc'.1 (ThemeKey.themeOf afk sv) =
        themeCount acc.1 (ThemeKey.themeOf afk sv) +
          (ccs.map (fun cc => ccLabelHits cc td afk sv)).sum := by
  induction ccs generalizing acc with
  | nil =>
      exact ⟨acc, rfl, hinv, by simp, rfl, fun afk sv => by simp⟩
  | cons cc ccs ih =>
      obtain ⟨acc1, hstep, hinv1, hflag1, htr1, hcnt1⟩ :=
        themeCCStep_ok surveyPlans episode cc
          (hsub cc (List.mem_cons_self cc ccs))
          (hmode cc (List.mem_cons_self cc ccs)) td hsres heres acc hinv
      obtain ⟨acc2, hfold, hinv2, hflag2, htr2, hcnt2⟩ :=
        ih (fun c hc => hsub c (List.mem_cons_of_mem _ hc))
          (fun c hc => hmode c (List.mem_cons_of_mem _ hc)) acc1 hinv1
      refine ⟨acc2, ?_, hinv2, ?_, htr2.trans htr1, ?_⟩
      · rw [List.foldlM_cons, hstep]
        exact hfold
      · rw [hflag2, hflag1, List.any_cons, Bool.or_assoc]
      · intro afk sv
        rw [hcnt2 afk sv, hcnt1 afk sv, List.map_cons, List.sum_cons]
        omega

theorem themeStepInd_ok (surveyPlans : List CodingPlan) (episode : CodingPlan)
    (hmode : ∀ cc ∈ episode.coding_configurations,
      cc.coding_mode = CodingModes.MULTIPLE)
    (td : Record)
    (hok : td.consent_withdrawn = false →
      surveyResolves surveyPlans td ∧ episodeResolves episode td)
    (themes : ThemeState) (hinv : ThemeInv surveyPlans episode themes) :
    ∃ themes', themeStepInd surveyPlans episode themes td = .ok themes' ∧
      ThemeInv surveyPlans episode themes' ∧
      themeCount themes' ThemeKey.totalRelevant =
        themeCount themes ThemeKey.totalRelevant +
          (if td.consent_withdrawn = false ∧
              episode.coding_configurations.any
                (fun cc => ccNormalNonStopB cc td) = true
           then 1 else 0) ∧
      ∀ afk sv, themeCount themes' (ThemeKey.themeOf afk sv) =
        themeCount themes (ThemeKey.themeOf afk sv) +
          (if td.consent_withdrawn = false then labelHits episode td afk sv
           else 0) := by
  cases hw : td.consent_withdrawn with
  | true =>
      refine ⟨themes, by simp [themeStepInd, hw], hinv, by simp [hw], ?_⟩
      intro afk sv
      simp [hw]
  | false =>
      obtain ⟨hsres, heres⟩ := hok hw
      obtain ⟨acc, hfold, hinv1, hflag, htr, hcnt⟩ :=
        themeCCFold_ok surveyPlans episode episode.coding_configurations
          (fun _ h => h) hmode td hsres heres (themes, false) hinv
      rw [Bool.false_or] at hflag
      cases hflag2 : acc.2 with
      | false =>
          have hany : episode.coding_configurations.any
              (fun cc => ccNormalNonStopB cc td) = false := by
            rw [← hflag]
            exact hflag2
          refine ⟨acc.1, ?_, hinv1, ?_, ?_⟩
          · rw [show themeStepInd surveyPlans episode themes td =
              (do
                let a ← episode.coding_configurations.foldlM
                  (themeCCStep surveyPlans td) (themes, false)
                if a.2 then
                  match a.1 ThemeKey.totalRelevant with
                  | none => Except.error ThemeError.missingThemeRow
                  | some row => do
                      let row2 ← updateSurveyCounts surveyPlans
                        { row with totalParticipants := row.totalParticipants + 1 } td
                      Except.ok (fset a.1 ThemeKey.totalRelevant row2)
                else Except.ok a.1) from by
                simp [themeStepInd, hw]]
            rw [hfold]
            show (if acc.2 then _ else Except.ok acc.1) = _
            rw [hflag2]
            simp
          · rw [if_neg (by simp [hany])]
            unfold themeCount
            rw [htr]
            simp
          · intro afk sv
            rw [hcnt afk sv]
            simp [labelHits]
      | true =>
          obtain ⟨trow, htrow, htrowOK⟩ := hinv1.trRow
          have htrowOK1 : rowOK surveyPlans
              { trow with totalParticipants := trow.totalParticipants + 1 } :=
            htrowOK
          obtain ⟨row2, hupd, hrow2tp, hrow2pcts, hrow2tppct, hrow2OK⟩ :=
            updateSurveyCounts_ok surveyPlans
              { trow with totalParticipants := trow.totalParticipants + 1 }
              td htrowOK1 hsres
          have hany : episode.coding_configurations.any
              (fun cc => ccNormalNonStopB cc td) = true := by
            rw [← hflag]
            exact hflag2
          refine ⟨fset acc.1 ThemeKey.totalRelevant row2, ?_, ?_, ?_, ?_⟩
          · rw [show themeStepInd surveyPlans episode themes td =
              (do
                let a ← episode.coding_configurations.foldlM
                  (themeCCStep surveyPlans td) (themes, false)
                if a.2 then
                  match a.1 ThemeKey.totalRelevant with
                  | none => Except.error ThemeError.missingThemeRow
                  | some row => do
                      let row2 ← updateSurveyCounts surveyPlans
                        { row with totalParticipants := row.totalParticipants + 1 } td
                      Except.ok (fset a.1 ThemeKey.totalRelevant row2)
                else Except.ok a.1) from by
                simp [themeStepInd, hw]]
            rw [hfold]
            show (if acc.2 then _ else Except.ok acc.1) = _
            rw [hflag2, if_pos rfl, htrow]
            show (do
              let r2 ← updateSurveyCounts surveyPlans
                { trow with totalParticipants := trow.totalParticipants + 1 } td
              Except.ok (fset acc.1 ThemeKey.totalRelevant r2)) = _
            rw [hupd]
            rfl
          · constructor
            · intro cc' hcc' code' hcode' hns'
              rw [fset_other _ _ _ _ (show
                ThemeKey.themeOf cc'.analysis_file_key code'.string_value ≠
                  ThemeKey.totalRelevant by simp)]
              exact hinv1.rows cc' hcc' code' hcode' hns'
            · exact ⟨row2, fset_same .., hrow2OK⟩
          · have hth : themes ThemeKey.totalRelevant = some trow :=
              htr.symm.trans htrow
            rw [if_pos ⟨rfl, hany⟩]
            unfold themeCount
            rw [fset_same, hth]
            simp [hrow2tp]
          · intro afk sv
            unfold themeCount
            rw [fset_other _ _ _ _ (show
              (ThemeKey.themeOf afk sv : ThemeKey) ≠ ThemeKey.totalRelevant
              by simp)]
            have hc2 := hcnt afk sv
            unfold themeCount at hc2
            rw [hc2]
            simp [labelHits]

theorem themeIndFold_ok (surveyPlans : List CodingPlan) (episode : CodingPlan)
    (hmode : ∀ cc ∈ episode.coding_configurations,
      cc.coding_mode = CodingModes.MULTIPLE)
    (inds : List Record)
    (hok : ∀ ind ∈ inds, ind.consent_withdrawn = false →
      surveyResolves surveyPlans ind ∧ episodeResolves episode ind)
    (themes : ThemeState) (hinv : ThemeInv surveyPlans episode themes) :
    ∃ themes', inds.foldlM (themeStepInd surveyPlans episode) themes =
        .ok themes' ∧
      ThemeInv surveyPlans episode themes' ∧
      themeCount themes' ThemeKey.totalRelevant =
        themeCount themes ThemeKey.totalRelevant +
          inds.countP (fun ind => !ind.consent_withdrawn &&
            episode.coding_configurations.any
              (fun cc => ccNormalNonStopB cc ind)) ∧
      ∀ afk sv, themeCount themes' (ThemeKey.themeOf afk sv) =
        themeCount themes (ThemeKey.themeOf afk sv) +
          (inds.map (fun ind => if ind.consent_withdrawn = false
            then labelHits episode ind afk sv else 0)).sum := by
  induction inds generalizing themes with
  | nil =>
      exact ⟨themes, rfl, hinv, by simp, fun afk sv => by simp⟩
  | cons ind inds ih =>
      obtain ⟨t1, hstep, hinv1, htr1, hcnt1⟩ :=
        themeStepInd_ok surveyPlans episode hmode ind
          (hok ind (List.mem_cons_self ind inds)) themes hinv
      obtain ⟨t2, hfold, hinv2, htr2, hcnt2⟩ :=
        ih (fun i hi => hok i (List.mem_cons_of_mem _ hi)) t1 hinv1
      refine ⟨t2, ?_, hinv2, ?_, ?_⟩
      · rw [List.foldlM_cons, hstep]
        exact hfold
      · rw [htr2, htr1, List.countP_cons]
        have hiff : (ind.consent_withdrawn = false ∧
            episode.coding_configurations.any
              (fun cc => ccNormalNonStopB cc ind) = true) ↔
            ((!ind.consent_withdrawn &&
              episode.coding_configurations.any
                (fun cc => ccNormalNonStopB cc ind)) = true) := by
          simp
        by_cases h : ind.consent_withdrawn = false ∧
            episode.coding_configurations.any
              (fun cc => ccNormalNonStopB cc ind) = true
        · rw [if_pos h, if_pos (hiff.1 h)]
          omega
        · rw [if_neg h, if_neg (fun hh => h (hiff.2 hh))]
          omega
      · intro afk sv
        rw [hcnt2 afk sv, hcnt1 afk sv, List.map_cons, List.sum_cons]
        omega

theorem themeSetup_count (surveyPlans : List CodingPlan) (episode : CodingPlan)
    (hmode : ∀ cc ∈ episode.coding_configurations,
      cc.coding_mode = CodingModes.MULTIPLE)
    (themes : ThemeState)
    (hset : themeSetup surveyPlans episode = .ok themes) :
    ∀ key, themeCount themes key = 0 := by
  obtain ⟨themes'', hfold'', hq⟩ :=
    exceptFold_inv (themeSetupCC surveyPlans) episode.coding_configurations
      (fun s => ∀ key, themeCount s key = 0)
      (fun s cc hcc hPs => by
        obtain ⟨s', h1, h2, -, -⟩ := themeSetupCC_ok surveyPlans s cc (hmode cc hcc)
        refine ⟨s', h1, ?_⟩
        intro key
        rcases h2 key with he | hm
        · unfold themeCount
          rw [he]
          have := hPs key
          unfold themeCount at this
          exact this
        · unfold themeCount
          rw [hm]
          rfl)
      (fun _ => none) (fun key => rfl)
  have hset' : episode.coding_configurations.foldlM (themeSetupCC surveyPlans)
      (fun _ => none) = Except.ok themes := hset
  rw [hset'] at hfold''
  obtain rfl := Except.ok.inj hfold''
  exact hq

theorem any_ccNormalNonStop_eq_relevant (episode : CodingPlan) (ind : Record)
    (hwf : episodeWF episode) (heres : episodeResolves episode ind) :
    episode.coding_configurations.any (fun cc => ccNormalNonStopB cc ind) =
      relevantIndB episode ind := by
  unfold relevantIndB
  rw [Bool.eq_iff_iff]
  simp only [List.any_eq_true]
  constructor
  · rintro ⟨cc, hcc, hb⟩
    refine ⟨cc, hcc, ?_⟩
    obtain ⟨ls, hls, hres⟩ := heres cc hcc
    unfold ccNormalNonStopB at hb
    rw [hls] at hb
    rw [hls]
    rw [show (match some (FieldValue.labels ls) with
      | some (FieldValue.labels ls) => ls.any (labelNormalNonStop cc)
      | _ => false) = ls.any (labelNormalNonStop cc) from rfl] at hb
    rw [List.any_eq_true] at hb
    obtain ⟨l, hl, hlb⟩ := hb
    rw [show (match some (FieldValue.labels ls) with
      | some (FieldValue.labels ls) => ls.any (fun l =>
          match getCodeWithCodeId cc.code_scheme l.CodeID with
          | some c => c.code_type == CodeType.NORMAL
          | none => false)
      | _ => false) = ls.any (fun l =>
          match getCodeWithCodeId cc.code_scheme l.CodeID with
          | some c => c.code_type == CodeType.NORMAL
          | none => false) from rfl]
    rw [List.any_eq_true]
    refine ⟨l, hl, ?_⟩
    obtain ⟨c, hc⟩ := Option.isSome_iff_exists.1 (hres l hl)
    unfold labelNormalNonStop at hlb
    rw [hc] at hlb
    simp at hlb
    rw [hc]
    simp [hlb.2]
  · rintro ⟨cc, hcc, hb⟩
    refine ⟨cc, hcc, ?_⟩
    obtain ⟨ls, hls, hres⟩ := heres cc hcc
    rw [hls] at hb
    rw [show (match some (FieldValue.labels ls) with
      | some (FieldValue.labels ls) => ls.any (fun l =>
          match getCodeWithCodeId cc.code_scheme l.CodeID with
          | some c => c.code_type == CodeType.NORMAL
          | none => false)
      | _ => false) = ls.any (fun l =>
          match getCodeWithCodeId cc.code_scheme l.CodeID with
          | some c => c.code_type == CodeType.NORMAL
          | none => false) from rfl] at hb
    rw [List.any_eq_true] at hb
    obtain ⟨l, hl, hlb⟩ := hb
    obtain ⟨c, hc⟩ := Option.isSome_iff_exists.1 (hres l hl)
    rw [hc] at hlb
    simp at hlb
    unfold ccNormalNonStopB
    rw [hls]
    rw [show (match some (FieldValue.labels ls) with
      | some (FieldValue.labels ls) => ls.any (labelNormalNonStop cc)
      | _ => false) = ls.any (labelNormalNonStop cc) from rfl]
    rw [List.any_eq_true]
    refine ⟨l, hl, ?_⟩
    have hns := hwf cc hcc c (getCode_mem _ _ _ hc).1 hlb
    unfold labelNormalNonStop
    rw [hc]
    simp [hns, hlb]

theorem themePctCode_ok (surveyPlans : List CodingPlan) (episode : CodingPlan)
    (hwf : episodeWF episode) (cc : CodingConfiguration)
    (hcc : cc ∈ episode.coding_configurations)
    (trRow1 : SurveyCounts) (htr1 : rowOK surveyPlans trRow1)
    (themes : ThemeState) (hinv : ThemeInv surveyPlans episode themes)
    (code : Code) (hcode : code ∈ cc.code_scheme.codes) :
    ∃ themes', themePctCode surveyPlans trRow1 cc.analysis_file_key themes code =
        .ok themes' ∧
      ThemeInv surveyPlans episode themes' ∧
      ∀ key, themeCount themes' key = themeCount themes key := by
  by_cases hn : code.code_type = CodeType.NORMAL
  · have hns := hwf cc hcc code hcode hn
    obtain ⟨row, hrow, hrowOK⟩ := hinv.rows cc hcc code hcode hns
    obtain ⟨row1, hsp, hrtp, hrcounts, -, -⟩ :=
      setSurveyPercentages_ok surveyPlans row trRow1 hrowOK htr1
    have hrow1OK : rowOK surveyPlans row1 := by
      intro p hp
      rw [hrcounts]
      exact hrowOK p hp
    refine ⟨fset themes (ThemeKey.themeOf cc.analysis_file_key code.string_value)
        row1, ?_, ?_, ?_⟩
    · rw [show themePctCode surveyPlans trRow1 cc.analysis_file_key themes code =
        (do
          let r1 ← setSurveyPercentages surveyPlans row trRow1
          Except.ok (fset themes
            (ThemeKey.themeOf cc.analysis_file_key code.string_value) r1)) from by
          simp [themePctCode, hn, hrow]]
      rw [hsp]
      rfl
    · constructor
      · intro cc' hcc' code' hcode' hns'
        by_cases hkey : ThemeKey.themeOf cc'.analysis_file_key code'.string_value =
            ThemeKey.themeOf cc.analysis_file_key code.string_value
        · rw [hkey]
          exact ⟨row1, fset_same .., hrow1OK⟩
        · rw [fset_other _ _ _ _ hkey]
          exact hinv.rows cc' hcc' code' hcode' hns'
      · obtain ⟨trow, htrow, htrowOK⟩ := hinv.trRow
        refine ⟨trow, ?_, htrowOK⟩
        rw [fset_other _ _ _ _ (show ThemeKey.totalRelevant ≠
          ThemeKey.themeOf cc.analysis_file_key code.string_value by simp)]
        exact htrow
    · intro key
      by_cases hkey : key =
          ThemeKey.themeOf cc.analysis_file_key code.string_value
      · unfold themeCount
        rw [hkey, fset_same, hrow]
        show row1.totalParticipants = row.totalParticipants
        exact hrtp
      · unfold themeCount
        rw [fset_other _ _ _ _ hkey]
  · exact ⟨themes, by simp [themePctCode, hn], hinv, fun key => rfl⟩

theorem themePctCC_ok (surveyPlans : List CodingPlan) (episode : CodingPlan)
    (hwf : episodeWF episode)
    (trRow1 : SurveyCounts) (htr1 : rowOK surveyPlans trRow1)
    (themes : ThemeState) (hinv : ThemeInv surveyPlans episode themes)
    (cc : CodingConfiguration) (hcc : cc ∈ episode.coding_configurations)
    (hmode : cc.coding_mode = CodingModes.MULTIPLE) :
    ∃ themes', themePctCC surveyPlans trRow1 themes cc = .ok themes' ∧
      ThemeInv surveyPlans episode themes' ∧
      ∀ key, themeCount themes' key = themeCount themes key := by
  obtain ⟨themes', hfold, hP⟩ :=
    exceptFold_inv (themePctCode surveyPlans trRow1 cc.analysis_file_key)
      cc.code_scheme.codes
      (fun s => ThemeInv surveyPlans episode s ∧
        ∀ key, themeCount s key = themeCount themes key)
      (fun s code hcode hPs => by
        obtain ⟨s', h1, h2, h3⟩ := themePctCode_ok surveyPlans episode hwf cc hcc
          trRow1 htr1 s hPs.1 code hcode
        exact ⟨s', h1, h2, fun key => (h3 key).trans (hPs.2 key)⟩)
      themes ⟨hinv, fun key => rfl⟩
  refine ⟨themes', ?_, hP.1, hP.2⟩
  rw [show themePctCC surveyPlans trRow1 themes cc =
    cc.code_scheme.codes.foldlM
      (themePctCode surveyPlans trRow1 cc.analysis_file_key) themes from by
      simp [themePctCC, hmode]]
  exact hfold

theorem themePercentages_ok (surveyPlans : List CodingPlan)
    (episode : CodingPlan) (hwf : episodeWF episode)
    (hmode : ∀ cc ∈ episode.coding_configurations,
      cc.coding_mode = CodingModes.MULTIPLE)
    (themes : ThemeState) (hinv : ThemeInv surveyPlans episode themes) :
    ∃ themes', themePercentages surveyPlans episode themes = .ok themes' ∧
      ∀ key, themeCount themes' key = themeCount themes key := by
  obtain ⟨trRow, htrow, htrowOK⟩ := hinv.trRow
  obtain ⟨trRow1, hsp, htp1, hcounts1, -, -⟩ :=
    setSurveyPercentages_ok surveyPlans trRow trRow htrowOK htrowOK
  have htr1OK : rowOK surveyPlans trRow1 := by
    intro p hp
    rw [hcounts1]
    exact htrowOK p hp
  have hinv1 : ThemeInv surveyPlans episode
      (fset themes ThemeKey.totalRelevant trRow1) := by
    constructor
    · intro cc' hcc' code' hcode' hns'
      rw [fset_other _ _ _ _ (show
        ThemeKey.themeOf cc'.analysis_file_key code'.string_value ≠
          ThemeKey.totalRelevant by simp)]
      exact hinv.rows cc' hcc' code' hcode' hns'
    · exact ⟨trRow1, fset_same .., htr1OK⟩
  obtain ⟨themes', hfold, hP⟩ :=
    exceptFold_inv (themePctCC surveyPlans trRow1)
      episode.coding_configurations
      (fun s => ThemeInv surveyPlans episode s ∧
        ∀ key, themeCount s key =
          themeCount (fset themes ThemeKey.totalRelevant trRow1) key)
      (fun s cc hcc hPs => by
        obtain ⟨s', h1, h2, h3⟩ := themePctCC_ok surveyPlans episode hwf
          trRow1 htr1OK s hPs.1 cc hcc (hmode cc hcc)
        exact ⟨s', h1, h2, fun key => (h3 key).trans (hPs.2 key)⟩)
      (fset themes ThemeKey.totalRelevant trRow1)
      ⟨hinv1, fun key => rfl⟩
  refine ⟨themes', ?_, ?_⟩
  · rw [show themePercentages surveyPlans episode themes =
      (do
        let t1 ← setSurveyPercentages surveyPlans trRow trRow
        episode.coding_configurations.foldlM (themePctCC surveyPlans t1)
          (fset themes ThemeKey.totalRelevant t1)) from by
        simp [themePercentages, htrow]]
    rw [hsp]
    show episode.coding_configurations.foldlM (themePctCC surveyPlans trRow1)
      (fset themes ThemeKey.totalRelevant trRow1) = _
    exact hfold
  · intro key
    rw [hP.2 key]
    by_cases hkey : key = ThemeKey.totalRelevant
    · unfold themeCount
      rw [hkey, fset_same, htrow]
      show trRow1.totalParticipants = trRow.totalParticipants
      exact htp1
    · unfold themeCount
      rw [fset_other _ _ _ _ hkey]

theorem themePass_ok (surveyPlans : List CodingPlan) (episode : CodingPlan)
    (hwf : episodeWF episode)
    (hmode : ∀ cc ∈ episode.coding_configurations,
      cc.coding_mode = CodingModes.MULTIPLE)
    (hne : episode.coding_configurations ≠ [])
    (inds : List Record)
    (hok : ∀ ind ∈ inds, ind.consent_withdrawn = false →
      surveyResolves surveyPlans ind ∧ episodeResolves episode ind) :
    ∃ themes', themePass surveyPlans episode inds = .ok themes' ∧
      themeCount themes' ThemeKey.totalRelevant =
        inds.countP (fun ind => !ind.consent_withdrawn &&
          episode.coding_configurations.any
            (fun cc => ccNormalNonStopB cc ind)) ∧
      ∀ afk sv, themeCount themes' (ThemeKey.themeOf afk sv) =
        (inds.map (fun ind => if ind.consent_withdrawn = false
          then labelHits episode ind afk sv else 0)).sum := by
  obtain ⟨t0, hset, hinv0⟩ := themeSetup_ok surveyPlans episode hmode hne
  have hz := themeSetup_count surveyPlans episode hmode t0 hset
  obtain ⟨t1, hfold, hinv1, htr1, hcnt1⟩ :=
    themeIndFold_ok surveyPlans episode hmode inds hok t0 hinv0
  obtain ⟨t2, hpct, hpres⟩ :=
    themePercentages_ok surveyPlans episode hwf hmode t1 hinv1
  refine ⟨t2, ?_, ?_, ?_⟩
  · rw [show themePass surveyPlans episode inds =
      (do
        let a ← themeSetup surveyPlans episode
        let b ← inds.foldlM (themeStepInd surveyPlans episode) a
        themePercentages surveyPlans episode b) from rfl]
    rw [hset]
    show (do
      let b ← inds.foldlM (themeStepInd surveyPlans episode) t0
      themePercentages surveyPlans episode b) = _
    rw [hfold]
    show themePercentages surveyPlans episode t1 = _
    exact hpct
  · rw [hpres ThemeKey.totalRelevant, htr1, hz ThemeKey.totalRelevant]
    simp
  · intro afk sv
    rw [hpres (ThemeKey.themeOf afk sv), hcnt1 afk sv,
      hz (ThemeKey.themeOf afk sv)]
    simp

theorem exceptFold_error_inv {σ α ε : Type} (f : σ → α → Except ε σ) (l : List α)
    (e₀ : ε) (P : σ → Prop)
    (hall : ∀ s x, x ∈ l → P s →
      (∃ s', f s x = .ok s' ∧ P s') ∨ f s x = .error e₀)
    (x : α) (hx : x ∈ l) (hf : ∀ s, P s → f s x = .error e₀) :
    ∀ s, P s → l.foldlM f s = .error e₀ := by
  induction l with
  | nil => cases hx
  | cons a l ih =>
    intro s hs
    rcases List.mem_cons.1 hx with rfl | hx'
    · rw [List.foldlM_cons, hf s hs]
      rfl
    · rcases hall s a (List.mem_cons_self a l) hs with ⟨s1, hf1, hs1⟩ | hf1
      · rw [List.foldlM_cons, hf1]
        exact ih (fun s y hy => hall s y (List.mem_cons_of_mem a hy)) hx' s1 hs1
      · rw [List.foldlM_cons, hf1]
        rfl

/-! ## The coding-mode asserts (`automated_analysis.py` lines 188 and
293–294) -/

theorem themeSetup_modeAssert (surveyPlans : List CodingPlan)
    (episode : CodingPlan)
    (hbad : ∃ cc ∈ episode.coding_configurations,
      cc.coding_mode ≠ CodingModes.MULTIPLE) :
    themeSetup surveyPlans episode = .error .modeAssert := by
  obtain ⟨cc0, hcc0, hm0⟩ := hbad
  exact exceptFold_error_eq (themeSetupCC surveyPlans)
    episode.coding_configurations ThemeError.modeAssert cc0 hcc0
    (fun s cc _ => by
      by_cases hm : cc.coding_mode = CodingModes.MULTIPLE
      · obtain ⟨s', h1, -, -, -⟩ := themeSetupCC_ok surveyPlans s cc hm
        exact .inl ⟨s', h1⟩
      · exact .inr (by simp [themeSetupCC, hm]))
    (fun s => by simp [themeSetupCC, hm0])
    (fun _ => none)

theorem themePass_modeAssert (surveyPlans : List CodingPlan)
    (episode : CodingPlan) (individuals : List Record)
    (hbad : ∃ cc ∈ episode.coding_configurations,
      cc.coding_mode ≠ CodingModes.MULTIPLE) :
    themePass surveyPlans episode individuals = .error .modeAssert := by
  have hset := themeSetup_modeAssert surveyPlans episode hbad
  rw [show themePass surveyPlans episode individuals =
    (do
      let a ← themeSetup surveyPlans episode
      let b ← individuals.foldlM (themeStepInd surveyPlans episode) a
      themePercentages surveyPlans episode b) from rfl]
  rw [hset]
  rfl

theorem demogStepInd_modeAssert (plans : List CodingPlan) (ind : Record)
    (hw : ind.consent_withdrawn = false) (hwf : DemogWF plans)
    (hres : ∀ cc ∈ allCCs plans, cc.analysis_file_key ≠ none →
      cc.coding_mode = CodingModes.SINGLE → demogResolvesNonStop ind cc)
    (hbad : ∃ cc ∈ allCCs plans, cc.analysis_file_key ≠ none ∧
      cc.coding_mode ≠ CodingModes.SINGLE)
    (st : DemogState) (hinv : DemogInv plans st) :
    demogStepInd plans st ind = .error .modeAssert := by
  obtain ⟨cc0, hcc0, hk0, hm0⟩ := hbad
  obtain ⟨K0, hK0⟩ := Option.ne_none_iff_exists'.1 hk0
  have hfold : (allCCs plans).foldlM (demogStepCC ind) st =
      .error .modeAssert := by
    refine exceptFold_error_inv (demogStepCC ind) (allCCs plans)
      DemogError.modeAssert (DemogInv plans)
      (fun s cc hcc hP => ?_) cc0 hcc0
      (fun s _ => by simp [demogStepCC, hK0, hm0]) st hinv
    cases hk : cc.analysis_file_key with
    | none => exact .inl ⟨s, by simp [demogStepCC, hk], hP⟩
    | some K =>
        by_cases hm : cc.coding_mode = CodingModes.SINGLE
        · obtain ⟨s', h1, h2, -⟩ := demogStepCC_ok plans ind cc hcc hwf s hP
            (fun _ => hres cc hcc (by simp [hk]) hm)
          exact .inl ⟨s', h1, h2⟩
        · exact .inr (by simp [demogStepCC, hk, hm])
  simpa [demogStepInd, hw] using hfold

theorem demogPass_modeAssert (plans : List CodingPlan) (inds : List Record)
    (hwf : DemogWF plans)
    (hres : ∀ ind ∈ inds, ind.consent_withdrawn = false →
      ∀ cc ∈ allCCs plans, cc.analysis_file_key ≠ none →
        cc.coding_mode = CodingModes.SINGLE → demogResolvesNonStop ind cc)
    (hbad : ∃ cc ∈ allCCs plans, cc.analysis_file_key ≠ none ∧
      cc.coding_mode ≠ CodingModes.SINGLE)
    (hind : ∃ ind ∈ inds, ind.consent_withdrawn = false) :
    demogPass plans inds = .error .modeAssert := by
  obtain ⟨ind0, hind0, hw0⟩ := hind
  exact exceptFold_error_inv (demogStepInd plans) inds
    DemogError.modeAssert (DemogInv plans)
    (fun s ind hindl hP => by
      cases hw : ind.consent_withdrawn with
      | true => exact .inl ⟨s, by simp [demogStepInd, hw], hP⟩
      | false =>
          exact .inr (demogStepInd_modeAssert plans ind hw hwf
            (hres ind hindl hw) hbad s hP))
    ind0 hind0
    (fun s hP => demogStepInd_modeAssert plans ind0 hw0 hwf
      (hres ind0 hind0 hw0) hbad s hP)
    (initDemogState plans) (initDemogInv plans hwf.nodupKeys)

/-! ## Pass-level lemmas about the repeat-participation histogram -/

theorem repeatPass_ok (plans : List CodingPlan) (inds : List Record)
    (hpart : ∀ ind ∈ inds, ind.consent_withdrawn = false →
      1 ≤ weeksParticipated plans ind)
    (htotal : (inds.filter (fun i => i.consent_withdrawn = false)).length ≠ 0) :
    ∃ m', repeatPass plans inds = .ok m' ∧
      ∀ k, bucketNum m' k =
        (inds.filter (fun i =>
          !i.consent_withdrawn && weeksParticipated plans i == k)).length := by
  obtain ⟨m1, hfold, hpres1, hcount1⟩ :=
    repeatFold_ok plans inds hpart (repeatInit plans.length)
      (repeatInit_pres plans.length)
  obtain ⟨m2, hpct, hwrites2, huntouched2⟩ :=
    repeatPct_ok (inds.filter (fun i => i.consent_withdrawn = false)).length
      plans.length m1 htotal
      (fun k hk1 hkn => by
        obtain ⟨row, hrow, -⟩ := hpres1 k hk1 hkn
        simp [hrow])
  refine ⟨m2, ?_, ?_⟩
  · rw [show repeatPass plans inds =
      (do
        let m ← inds.foldlM (repeatStep plans) (repeatInit plans.length)
        repeatPct (inds.filter (fun i => i.consent_withdrawn = false)).length
          plans.length m) from by
        simp [repeatPass, List.filter_congr]]
    rw [hfold]
    exact hpct
  · intro k
    have hinit : bucketNum (repeatInit plans.length) k = 0 := by
      unfold bucketNum
      rw [repeatInit_eq]
      by_cases hk : 1 ≤ k ∧ k ≤ plans.length
      · rw [if_pos hk]
      · rw [if_neg hk]
    by_cases hk : 1 ≤ k ∧ k ≤ plans.length
    · obtain ⟨row, hrow, hupd⟩ := hwrites2 k hk.1 hk.2
      have h1 : bucketNum m2 k = bucketNum m1 k := by
        unfold bucketNum
        rw [hrow, hupd]
      rw [h1, hcount1 k, hinit]
      exact Nat.zero_add _
    · have h1 : bucketNum m2 k = bucketNum m1 k := by
        unfold bucketNum
        rw [huntouched2 k (by omega)]
      rw [h1, hcount1 k, hinit]
      exact Nat.zero_add _

theorem repeatPass_noParticipation (plans : List CodingPlan)
    (inds : List Record)
    (hbad : ∃ ind ∈ inds, ind.consent_withdrawn = false ∧
      weeksParticipated plans ind = 0) :
    ∃ uid, repeatPass plans inds = .error (.noParticipation uid) := by
  obtain ⟨uid, herr⟩ :=
    repeatFold_error plans inds (repeatInit plans.length)
      (repeatInit_pres plans.length) hbad
  refine ⟨uid, ?_⟩
  rw [show repeatPass plans inds =
    (do
      let m ← inds.foldlM (repeatStep plans) (repeatInit plans.length)
      repeatPct (inds.filter (fun i => i.consent_withdrawn = false)).length
        plans.length m) from by
      simp [repeatPass, List.filter_congr]]
  rw [herr]
  rfl

theorem repeatPass_divByZero (plans : List CodingPlan) (inds : List Record)
    (hplans : 1 ≤ plans.length)
    (hall : ∀ ind ∈ inds, ind.consent_withdrawn = true) :
    repeatPass plans inds = .error .divByZero := by
  have hpart : ∀ ind ∈ inds, ind.consent_withdrawn = false →
      1 ≤ weeksParticipated plans ind := by
    intro ind hind hw
    rw [hall ind hind] at hw
    cases hw
  obtain ⟨m1, hfold, hpres1, -⟩ :=
    repeatFold_ok plans inds hpart (repeatInit plans.length)
      (repeatInit_pres plans.length)
  have htotal : (inds.filter (fun i => i.consent_withdrawn = false)).length = 0 := by
    rw [List.length_eq_zero, List.filter_eq_nil_iff]
    intro ind hind
    simp [hall ind hind]
  have hsome : (m1 1).isSome := by
    obtain ⟨row, hrow, -⟩ := hpres1 1 le_rfl hplans
    simp [hrow]
  rw [show repeatPass plans inds =
    (do
      let m ← inds.foldlM (repeatStep plans) (repeatInit plans.length)
      repeatPct (inds.filter (fun i => i.consent_withdrawn = false)).length
        plans.length m) from by
      simp [repeatPass, List.filter_congr]]
  rw [hfold]
  show repeatPct (inds.filter (fun i => i.consent_withdrawn = false)).length
    plans.length m1 = _
  rw [repeatPct_zero _ plans.length m1 htotal hplans hsome]

/-! ## Lemmas about the sampling pass -/

theorem foldl_fset_const {κ : Type} [DecidableEq κ] {β : Type} (v : β)
    (key : Code → κ) (codes : List Code) (m : κ → Option β) (p : κ) :
    (codes.foldl (fun m code => fset m (key code) v) m) p =
      if p ∈ codes.map key then some v else m p := by
  induction codes generalizing m with
  | nil => simp
  | cons c cs ih =>
      rw [List.foldl_cons, ih]
      by_cases hmem : p ∈ cs.map key
      · rw [if_pos hmem, if_pos (by simp [hmem])]
      · rw [if_neg hmem]
        by_cases hpc : p = key c
        · rw [if_pos (by simp [hpc]), hpc, fset_same]
        · rw [if_neg (by simp [hpc, hmem]), fset_other _ _ _ _ hpc]

theorem poolInit_eq (cc : CodingConfiguration) (sv : String) :
    poolInit cc sv =
      if sv ∈ cc.code_scheme.codes.map (fun c => c.string_value)
      then some [] else none := by
  unfold poolInit
  rw [foldl_fset_const]

theorem poolAddLabel_fold (plan : CodingPlan) (cc : CodingConfiguration)
    (msg : Record) (s : String)
    (hraw : msg.fields plan.raw_field = some (.text s))
    (ls : List Label)
    (hres : ∀ l ∈ ls, (getCodeWithCodeId cc.code_scheme l.CodeID).isSome)
    (m : String → Option (List String))
    (hm : ∀ sv, (m sv).isSome ↔
      sv ∈ cc.code_scheme.codes.map (fun c => c.string_value)) :
    ∃ m', ls.foldlM (poolAddLabel plan cc msg) m = .ok m' ∧
      ∀ sv, m' sv = (m sv).map (fun msgs =>
        msgs ++ (ls.filter (fun l =>
          match getCodeWithCodeId cc.code_scheme l.CodeID with
          | some c => c.string_value == sv
          | none => false)).map (fun _ => s)) := by
  induction ls generalizing m with
  | nil =>
      refine ⟨m, rfl, fun sv => ?_⟩
      cases m sv <;> simp
  | cons l ls ih =>
      obtain ⟨c, hc⟩ :=
        Option.isSome_iff_exists.1 (hres l (List.mem_cons_self l ls))
      have hcsv : c.string_value ∈
          cc.code_scheme.codes.map (fun c => c.string_value) :=
        List.mem_map.2 ⟨c, (getCode_mem _ _ _ hc).1, rfl⟩
      obtain ⟨msgs0, hmsgs0⟩ :=
        Option.isSome_iff_exists.1 ((hm c.string_value).2 hcsv)
      have hstep : poolAddLabel plan cc msg m l =
          .ok (fset m c.string_value (msgs0 ++ [s])) := by
        simp [poolAddLabel, hc, hmsgs0, hraw]
      have hm1 : ∀ sv, ((fset m c.string_value (msgs0 ++ [s])) sv).isSome ↔
          sv ∈ cc.code_scheme.codes.map (fun c => c.string_value) := by
        intro sv
        by_cases hsv : sv = c.string_value
        · rw [hsv, fset_same]
          simp [hcsv]
        · rw [fset_other _ _ _ _ hsv]
          exact hm sv
      obtain ⟨m', hfold, hval⟩ :=
        ih (fun l' hl' => hres l' (List.mem_cons_of_mem _ hl'))
          (fset m c.string_value (msgs0 ++ [s])) hm1
      refine ⟨m', ?_, ?_⟩
      · rw [List.foldlM_cons, hstep]
        exact hfold
      · intro sv
        rw [hval sv, List.filter_cons]
        by_cases hsv : sv = c.string_value
        · rw [hsv, fset_same, hmsgs0]
          simp [hc, List.append_assoc]
        · rw [fset_other _ _ _ _ hsv]
          have hne : ¬ c.string_value = sv := fun h => hsv h.symm
          simp [hc, hne]

theorem poolAddMsg_fold (plan : CodingPlan) (cc : CodingConfiguration)
    (messages : List Record) (hmsg : ∀ msg ∈ messages, msgOk plan cc msg)
    (m : String → Option (List String))
    (hm : ∀ sv, (m sv).isSome ↔
      sv ∈ cc.code_scheme.codes.map (fun c => c.string_value)) :
    ∃ m', messages.foldlM (poolAddMsg plan cc) m = .ok m' ∧
      ∀ sv, m' sv = (m sv).map (fun msgs =>
        msgs ++ assignedRaws plan cc messages sv) := by
  induction messages generalizing m with
  | nil =>
      refine ⟨m, rfl, fun sv => ?_⟩
      cases m sv <;> simp [assignedRaws]
  | cons msg rest ih =>
      by_cases hopt : optInSingle msg plan = true
      · obtain ⟨⟨ls, hls, hres⟩, ⟨s, hraw⟩⟩ :=
          hmsg msg (List.mem_cons_self msg rest) hopt
        obtain ⟨m1, hfold1, hval1⟩ :=
          poolAddLabel_fold plan cc msg s hraw ls hres m hm
        have hstep : poolAddMsg plan cc m msg =
            ls.foldlM (poolAddLabel plan cc msg) m := by
          simp [poolAddMsg, hopt, hls]
        have hm1 : ∀ sv, (m1 sv).isSome ↔
            sv ∈ cc.code_scheme.codes.map (fun c => c.string_value) := by
          intro sv
          rw [hval1 sv, ← hm sv]
          cases m sv <;> simp
        obtain ⟨m2, hfold2, hval2⟩ :=
          ih (fun q hq => hmsg q (List.mem_cons_of_mem _ hq)) m1 hm1
        refine ⟨m2, ?_, ?_⟩
        · rw [List.foldlM_cons, hstep, hfold1]
          exact hfold2
        · intro sv
          rw [hval2 sv, hval1 sv]
          cases hmv : m sv with
          | none => simp
          | some msgs =>
              rw [show assignedRaws plan cc (msg :: rest) sv =
                (if optInSingle msg plan then
                  match msg.fields cc.coded_field, msg.fields plan.raw_field with
                  | some (.labels ls), some (.text s) =>
                      (ls.filter (fun l =>
                        match getCodeWithCodeId cc.code_scheme l.CodeID with
                        | some c => c.string_value == sv
                        | none => false)).map (fun _ => s)
                  | _, _ => []
                 else []) ++ assignedRaws plan cc rest sv from by
                simp [assignedRaws]]
              simp [hopt, hls, hraw, List.append_assoc]
      · have hopt' : optInSingle msg plan = false := by
          cases h : optInSingle msg plan
          · rfl
          · exact absurd h hopt
        have hstep : poolAddMsg plan cc m msg = .ok m := by
          simp [poolAddMsg, hopt']
        obtain ⟨m2, hfold2, hval2⟩ :=
          ih (fun q hq => hmsg q (List.mem_cons_of_mem _ hq)) m hm
        refine ⟨m2, ?_, ?_⟩
        · rw [List.foldlM_cons, hstep]
          exact hfold2
        · intro sv
          rw [hval2 sv]
          rw [show assignedRaws plan cc (msg :: rest) sv =
            (if optInSingle msg plan then
              match msg.fields cc.coded_field, msg.fields plan.raw_field with
              | some (.labels ls), some (.text s) =>
                  (ls.filter (fun l =>
                    match getCodeWithCodeId cc.code_scheme l.CodeID with
                    | some c => c.string_value == sv
                    | none => false)).map (fun _ => s)
              | _, _ => []
             else []) ++ assignedRaws plan cc rest sv from by
            simp [assignedRaws]]
          rw [hopt']
          simp

theorem dedupFirst_count (l : List String) (x : String) :
    (dedupFirst l).count x = if x ∈ l then 1 else 0 := by
  induction l using dedupFirst.induct with
  | case1 => simp [dedupFirst]
  | case2 y ys ih =>
      rw [show dedupFirst (y :: ys) =
        y :: dedupFirst (ys.filter (fun z => z ≠ y)) from by rw [dedupFirst]]
      by_cases hxy : x = y
      · subst hxy
        rw [List.count_cons_self]
        have hnot : x ∉ ys.filter (fun z => z ≠ x) := by
          intro hmem
          have := (List.mem_filter.1 hmem).2
          simp at this
        rw [ih, if_neg hnot, if_pos (List.mem_cons_self x ys)]
      · rw [List.count_cons_of_ne hxy, ih]
        have hiff : (x ∈ ys.filter (fun z => z ≠ y)) ↔ x ∈ ys := by
          simp [List.mem_filter, hxy]
        by_cases hmem : x ∈ ys
        · rw [if_pos (hiff.2 hmem), if_pos (List.mem_cons_of_mem _ hmem)]
        · rw [if_neg (fun hc => hmem (hiff.1 hc)),
            if_neg (by simp [hxy, hmem])]

theorem dedupFirst_mem (l : List String) (x : String) :
    x ∈ dedupFirst l ↔ x ∈ l := by
  constructor
  · intro h
    by_contra hm
    have hc := dedupFirst_count l x
    rw [if_neg hm] at hc
    have := List.count_pos_iff.2 h
    omega
  · intro h
    have hc := dedupFirst_count l x
    rw [if_pos h] at hc
    exact List.count_pos_iff.1 (by rw [hc]; exact Nat.one_pos)

theorem countP_flatMap {α β : Type} (l : List α) (f : α → List β)
    (p : β → Bool) :
    (l.flatMap f).countP p = (l.map (fun a => (f a).countP p)).sum := by
  induction l with
  | nil => rfl
  | cons a l ih =>
      rw [List.flatMap_cons, List.countP_append, List.map_cons,
        List.sum_cons, ih]

theorem samplesForCC_ok (sampler : List String → ℕ → List String)
    (hsampler : ∀ l n, n ≤ l.length → (sampler l n).length = n)
    (plan : CodingPlan) (cc : CodingConfiguration) (messages : List Record)
    (hmsg : ∀ msg ∈ messages, msgOk plan cc msg) :
    ∃ rows, samplesForCC sampler plan cc messages = .ok rows ∧
      ∀ sv, sv ∈ cc.code_scheme.codes.map (fun c => c.string_value) →
        (rows.filter (fun r => r.codeStr == sv)).length =
          min 100 (assignedRaws plan cc messages sv).length := by
  have hminit : ∀ sv, ((poolInit cc) sv).isSome ↔
      sv ∈ cc.code_scheme.codes.map (fun c => c.string_value) := by
    intro sv
    rw [poolInit_eq]
    by_cases h : sv ∈ cc.code_scheme.codes.map (fun c => c.string_value) <;>
      simp [h]
  obtain ⟨pools, hfold, hval⟩ :=
    poolAddMsg_fold plan cc messages hmsg (poolInit cc) hminit
  have hpool : ∀ sv, sv ∈ cc.code_scheme.codes.map (fun c => c.string_value) →
      pools sv = some (assignedRaws plan cc messages sv) := by
    intro sv hsv
    rw [hval sv, poolInit_eq, if_pos hsv]
    simp
  refine ⟨(dedupFirst (cc.code_scheme.codes.map (fun c => c.string_value))).flatMap
      (fun sv => match pools sv with
        | none => []
        | some msgs =>
            (sampler msgs (min 100 msgs.length)).map
              (fun s => ⟨plan.dataset_name, cc.code_scheme.name, sv, s⟩)),
    ?_, ?_⟩
  · rw [show samplesForCC sampler plan cc messages =
      (do
        let pools' ← messages.foldlM (poolAddMsg plan cc) (poolInit cc)
        Except.ok ((dedupFirst (cc.code_scheme.codes.map
            (fun c => c.string_value))).flatMap
          (fun sv => match pools' sv with
            | none => []
            | some msgs =>
                (sampler msgs (min 100 msgs.length)).map
                  (fun s => ⟨plan.dataset_name, cc.code_scheme.name, sv, s⟩)))) from
      rfl]
    rw [hfold]
    rfl
  · intro sv hsv
    rw [← List.countP_eq_length_filter, countP_flatMap]
    have hblock : ∀ sv', sv' ∈ cc.code_scheme.codes.map (fun c => c.string_value) →
        ((match pools sv' with
          | none => ([] : List SampleRow)
          | some msgs =>
              (sampler msgs (min 100 msgs.length)).map
                (fun s => ⟨plan.dataset_name, cc.code_scheme.name, sv', s⟩)).countP
          (fun r : SampleRow => r.codeStr == sv)) =
        if sv' = sv then min 100 (assignedRaws plan cc messages sv).length
        else 0 := by
      intro sv' hsv'
      rw [hpool sv' hsv']
      show ((sampler (assignedRaws plan cc messages sv')
          (min 100 (assignedRaws plan cc messages sv').length)).map
          (fun s => (⟨plan.dataset_name, cc.code_scheme.name, sv', s⟩ :
            SampleRow))).countP (fun r => r.codeStr == sv) = _
      rw [List.countP_map]
      by_cases hee : sv' = sv
      · subst hee
        rw [if_pos rfl]
        have hlen := hsampler (assignedRaws plan cc messages sv')
          (min 100 (assignedRaws plan cc messages sv').length)
          (Nat.min_le_right _ _)
        rw [show ((fun r : SampleRow => r.codeStr == sv') ∘
            (fun s => (⟨plan.dataset_name, cc.code_scheme.name, sv', s⟩ :
              SampleRow))) = (fun _ => true) from funext (fun s => by simp)]
        rw [List.countP_true]
        exact hlen
      · rw [if_neg hee]
        rw [show ((fun r : SampleRow => r.codeStr == sv) ∘
            (fun s => (⟨plan.dataset_name, cc.code_scheme.name, sv', s⟩ :
              SampleRow))) = (fun _ => false) from funext (fun s => by
            simp [hee])]
        rw [List.countP_false]
        rfl
    refine sum_map_single_key _ sv _ _ ?_ ?_
    · intro sv' hsv'
      exact hblock sv' ((dedupFirst_mem _ _).1 hsv')
    · rw [dedupFirst_count, if_pos hsv]

/-! ## Concrete data for the witnesses and counterexamples -/

/-- A NORMAL code with string value `"yes"`. -/
def demoNormalCode : Code := ⟨"code-yes", "yes", CodeType.NORMAL, none⟩

/-- A STOP control code. -/
def demoStopCode : Code := ⟨"code-stop", "stop", CodeType.CONTROL, some Codes.STOP⟩

/-- A multi-select RQA configuration. -/
def demoRqaCC : CodingConfiguration :=
  ⟨"rqa_s01e01_coded", ⟨"s01e01_scheme", [demoNormalCode]⟩,
    CodingModes.MULTIPLE, some "rqa_s01e01"⟩

/-- An RQA episode plan with one multi-select configuration. -/
def demoRqaPlan : CodingPlan := ⟨"s01e01", "rqa_s01e01_raw", [demoRqaCC]⟩

/-- A single-select demographic configuration whose scheme carries a
NORMAL code and a STOP code. -/
def demoDemogCC : CodingConfiguration :=
  ⟨"gender_coded", ⟨"gender_scheme", [demoNormalCode, demoStopCode]⟩,
    CodingModes.SINGLE, some "gender"⟩

/-- A demographic plan with one single-select configuration. -/
def demoDemogPlan : CodingPlan := ⟨"demog", "gender_raw", [demoDemogCC]⟩

/-- A demographic configuration erroneously declared multi-select. -/
def demoMultipleCC : CodingConfiguration :=
  ⟨"gender_coded", ⟨"gender_scheme", [demoNormalCode]⟩,
    CodingModes.MULTIPLE, some "gender"⟩

/-- A demographic plan carrying the multi-select configuration. -/
def demoMultiplePlan : CodingPlan := ⟨"demog", "gender_raw", [demoMultipleCC]⟩

/-- An RQA configuration erroneously declared single-select. -/
def demoSingleCC : CodingConfiguration :=
  ⟨"rqa_s01e02_coded", ⟨"s01e02_scheme", [demoNormalCode]⟩,
    CodingModes.SINGLE, some "rqa_s01e02"⟩

/-- An RQA episode plan carrying the single-select configuration. -/
def demoSingleEpisode : CodingPlan := ⟨"s01e02", "rqa_s01e02_raw", [demoSingleCC]⟩

/-- A label resolving to the NORMAL code. -/
def demoLabel : Label := ⟨"code-yes"⟩

/-- A label resolving to the STOP code. -/
def demoStopLabel : Label := ⟨"code-stop"⟩

/-- A non-withdrawn individual labelled once in the RQA episode. -/
def demoInd : Record :=
  ⟨"uid-1", false, fun f =>
    if f = "rqa_s01e01_coded" then some (.labels [demoLabel])
    else if f = "rqa_s01e01_raw" then some (.text "hello") else none⟩

/-- A non-withdrawn individual whose RQA coded field carries the same
label twice. -/
def demoIndDouble : Record :=
  ⟨"uid-2", false, fun f =>
    if f = "rqa_s01e01_coded" then some (.labels [demoLabel, demoLabel])
    else if f = "rqa_s01e01_raw" then some (.text "again") else none⟩

/-- A non-withdrawn individual with no raw field at all. -/
def demoIndNoPart : Record := ⟨"uid-3", false, fun _ => none⟩

/-- An individual whose consent is withdrawn. -/
def demoWithdrawn : Record := ⟨"uid-4", true, fun _ => none⟩

/-- A non-withdrawn individual single-select-coded with the NORMAL code. -/
def demoIndG : Record :=
  ⟨"uid-5", false, fun f =>
    if f = "gender_coded" then some (.label demoLabel) else none⟩

/-- A non-withdrawn individual single-select-coded with the STOP code. -/
def demoIndStop : Record :=
  ⟨"uid-6", false, fun f =>
    if f = "gender_coded" then some (.label demoStopLabel) else none⟩

/-! ## The claims -/

/-- C7: every per-episode engagement row reports the `"-"` sentinel in
the raw total-messages (and total-participants) column, while the final
`Total` row reports the sizes of the full messages and individuals
collections in the raw-count columns. -/
theorem claim_C7_engagement_sentinels (plans : List CodingPlan)
    (messages individuals : List Record) :
    (∀ row ∈ (engagementCounts plans messages individuals).dropLast,
      row.totalMessages = CountCell.na ∧ row.totalParticipants = CountCell.na) ∧
    (engagementCounts plans messages individuals).getLast? =
      some (engagementTotalRow plans messages individuals) ∧
    (engagementTotalRow plans messages individuals).totalMessages =
      CountCell.num messages.length ∧
    (engagementTotalRow plans messages individuals).totalParticipants =
      CountCell.num individuals.length := by
  refine ⟨?_, ?_, rfl, rfl⟩
  · intro row hrow
    rw [show (engagementCounts plans messages individuals).dropLast =
      plans.map (fun plan => engagementRow plan messages individuals) from by
      simp [engagementCounts]] at hrow
    obtain ⟨plan, hplan, rfl⟩ := List.mem_map.1 hrow
    exact ⟨rfl, rfl⟩
  · simp [engagementCounts]

/-- C8: for every (plan, configuration) pair whose opt-in messages are
well-formed, the sampling pass succeeds and exports, per code string
value, exactly `min 100 (pool size)` rows, where the pool is exactly the
opt-in raw responses assigned that code (the `random.sample`
collaborator, abstracted as `sampler`, returns the requested number of
elements whenever the pool is large enough). -/
theorem claim_C8_sampling_sizes (sampler : List String → ℕ → List String)
    (hsampler : ∀ l n, n ≤ l.length → (sampler l n).length = n)
    (plan : CodingPlan) (cc : CodingConfiguration) (messages : List Record)
    (hmsg : ∀ msg ∈ messages, msgOk plan cc msg) :
    ∃ rows, samplesForCC sampler plan cc messages = .ok rows ∧
      ∀ sv ∈ cc.code_scheme.codes.map (fun c => c.string_value),
        (rows.filter (fun r => r.codeStr == sv)).length =
          min 100 (assignedRaws plan cc messages sv).length :=
  samplesForCC_ok sampler hsampler plan cc messages hmsg

/-- C8 witness: the sample exported for the `"yes"` code of a concrete
one-message episode has exactly `min 100 1 = 1` row. -/
theorem claim_C8_witness :
    ∃ rows, samplesForCC (fun l n => l.take n) demoRqaPlan demoRqaCC
        [demoInd] = .ok rows ∧
      (rows.filter (fun r => r.codeStr == "yes")).length =
        min 100 (assignedRaws demoRqaPlan demoRqaCC [demoInd] "yes").length := by
  obtain ⟨rows, h1, h2⟩ := claim_C8_sampling_sizes (fun l n => l.take n)
    (fun l n h => by rw [List.length_take]; omega)
    demoRqaPlan demoRqaCC [demoInd]
    (by
      intro msg hm
      obtain rfl := List.mem_singleton.1 hm
      intro _
      exact ⟨⟨[demoLabel], rfl, by decide⟩, "hello", rfl⟩)
  exact ⟨rows, h1, h2 "yes" (by decide)⟩

/-- C6: in the repeat-participation pass, a non-withdrawn individual with
no participation at all is a fatal consistency error; otherwise every
non-withdrawn individual lands in exactly the bucket indexed by the
number of RQA plans whose raw field it has. -/
theorem claim_C6_repeat_participation (plans : List CodingPlan)
    (inds : List Record) :
    ((∃ ind ∈ inds, ind.consent_withdrawn = false ∧
        weeksParticipated plans ind = 0) →
      ∃ uid, repeatPass plans inds = .error (.noParticipation uid)) ∧
    ((∀ ind ∈ inds, ind.consent_withdrawn = false →
        1 ≤ weeksParticipated plans ind) →
      (inds.filter (fun i => i.consent_withdrawn = false)).length ≠ 0 →
      ∃ m', repeatPass plans inds = .ok m' ∧
        ∀ k, bucketNum m' k = (inds.filter (fun i =>
          !i.consent_withdrawn && weeksParticipated plans i == k)).length) :=
  ⟨fun hbad => repeatPass_noParticipation plans inds hbad,
   fun hpart htotal => repeatPass_ok plans inds hpart htotal⟩

/-- C6 witness: a concrete non-participating individual aborts the pass;
a concrete participating individual is counted in bucket 1. -/
theorem claim_C6_witness :
    (∃ uid, repeatPass [demoRqaPlan] [demoIndNoPart] =
      .error (.noParticipation uid)) ∧
    (∃ m', repeatPass [demoRqaPlan] [demoInd] = .ok m' ∧
      ∀ k, bucketNum m' k = (([demoInd] : List Record).filter (fun i =>
        !i.consent_withdrawn && weeksParticipated [demoRqaPlan] i == k)).length) :=
  ⟨(claim_C6_repeat_participation [demoRqaPlan] [demoIndNoPart]).1
      ⟨demoIndNoPart, List.mem_singleton.2 rfl, rfl, by decide⟩,
   (claim_C6_repeat_participation [demoRqaPlan] [demoInd]).2
      (by
        intro ind hind hw
        obtain rfl := List.mem_singleton.1 hind
        decide)
      (by decide)⟩

/-- C1 counterexample: a percentage with a zero denominator is fatal in
the repeat-participation pass — with no individuals the denominator
`total_individuals` is 0 and the pass aborts with a division error
instead of reporting a "not applicable" marker. -/
theorem claim_C1_counterexample :
    repeatPass [demoRqaPlan] [] = .error .divByZero := rfl

/-- C5 counterexample: a multi-select demographic configuration is
encountered (and pre-populated) by a run over an empty individuals
collection, and the run succeeds instead of aborting. -/
theorem claim_C5_counterexample :
    demogPass [demoMultiplePlan] [] = .ok (initDemogState [demoMultiplePlan]) :=
  rfl

/-- C1 (amended): only the theme pass's `set_survey_percentages` guards a
zero denominator — it writes the `"-"` marker into a cell whose
denominator count is 0 and the rounded percentage otherwise — while the
repeat-participation percentages and the demographic export divide
unconditionally and abort with a division error on a zero denominator. -/
theorem claim_C1_only_theme_guards_zero_denominator
    (surveyPlans : List CodingPlan) (sc tsc : SurveyCounts)
    (hsc : rowOK surveyPlans sc) (htsc : rowOK surveyPlans tsc)
    (plans : List CodingPlan) (inds : List Record)
    (hplans : 1 ≤ plans.length)
    (hall : ∀ ind ∈ inds, ind.consent_withdrawn = true)
    (cc : CodingConfiguration) (K : String)
    (hk : cc.analysis_file_key = some K) (dist : String → Option Tally)
    (tr : String → Option ℕ) (t : Tally)
    (hd : dist K = some t) (htr : tr K = some 0)
    (hpres : ∀ code ∈ cc.code_scheme.codes,
      ¬ code.control_code = some Codes.STOP → (t code.code_id).isSome)
    (hbad : ∃ code ∈ cc.code_scheme.codes,
      ¬ code.control_code = some Codes.STOP ∧
        code.code_type = CodeType.NORMAL) :
    (∃ sc', setSurveyPercentages surveyPlans sc tsc = .ok sc' ∧
      sc'.totalParticipantsPct =
        (if tsc.totalParticipants = 0 then PctCell.notApplicable
         else PctCell.pct (pct1 sc.totalParticipants tsc.totalParticipants)) ∧
      ∀ p ∈ surveyKeys surveyPlans, sc'.pcts p = pctTarget sc tsc p) ∧
    repeatPass plans inds = .error .divByZero ∧
    demogExportCC dist tr cc = .error .divByZero := by
  refine ⟨?_, repeatPass_divByZero plans inds hplans hall,
    demogExportCC_zero cc K hk dist tr t hd htr hpres hbad⟩
  obtain ⟨sc', h1, -, -, h4, h5⟩ :=
    setSurveyPercentages_ok surveyPlans sc tsc hsc htsc
  exact ⟨sc', h1, h4, h5⟩

/-- C1 witness: the amended claim at a concrete input — an empty survey
catalog's percentage cells, a repeat pass whose only individual is
withdrawn, and a demographic export whose `total_relevant` entry is 0. -/
theorem claim_C1_witness :
    (∃ sc', setSurveyPercentages [] (makeSurveyCounts [])
        (makeSurveyCounts []) = .ok sc' ∧
      sc'.totalParticipantsPct =
        (if (makeSurveyCounts []).totalParticipants = 0
         then PctCell.notApplicable
         else PctCell.pct (pct1 (makeSurveyCounts []).totalParticipants
           (makeSurveyCounts []).totalParticipants)) ∧
      ∀ p ∈ surveyKeys [], sc'.pcts p =
        pctTarget (makeSurveyCounts []) (makeSurveyCounts []) p) ∧
    repeatPass [demoRqaPlan] [demoWithdrawn] = .error .divByZero ∧
    demogExportCC (fun _ => some (prepopTally demoDemogCC))
      (fun _ => some 0) demoDemogCC = .error .divByZero :=
  claim_C1_only_theme_guards_zero_denominator []
    (makeSurveyCounts []) (makeSurveyCounts [])
    (fun p hp => absurd hp (by simp [surveyKeys, allCCs]))
    (fun p hp => absurd hp (by simp [surveyKeys, allCCs]))
    [demoRqaPlan] [demoWithdrawn] (by decide)
    (by
      intro ind hind
      obtain rfl := List.mem_singleton.1 hind
      rfl)
    demoDemogCC "gender" rfl (fun _ => some (prepopTally demoDemogCC))
    (fun _ => some 0) (prepopTally demoDemogCC) rfl rfl
    (by decide) (by decide)

/-- C2: after the theme cross-tabulation pass of one RQA episode, the
synthetic `"Total Relevant Participants"` row's `"Total Participants"`
count equals the number of (pairwise distinct) non-withdrawn individuals
carrying at least one NORMAL-typed code across the episode's
configurations — the count of relevant individuals, not the sum of the
per-theme counts. -/
theorem claim_C2_total_relevant_counts_distinct (surveyPlans : List CodingPlan)
    (episode : CodingPlan) (hwf : episodeWF episode)
    (hmode : ∀ cc ∈ episode.coding_configurations,
      cc.coding_mode = CodingModes.MULTIPLE)
    (hne : episode.coding_configurations ≠ [])
    (inds : List Record) (_hnd : (inds.map Record.uid).Nodup)
    (hok : ∀ ind ∈ inds, ind.consent_withdrawn = false →
      surveyResolves surveyPlans ind ∧ episodeResolves episode ind) :
    ∃ themes', themePass surveyPlans episode inds = .ok themes' ∧
      themeCount themes' ThemeKey.totalRelevant =
        (inds.filter (fun ind => !ind.consent_withdrawn &&
          relevantIndB episode ind)).length := by
  obtain ⟨themes', h1, h2, -⟩ :=
    themePass_ok surveyPlans episode hwf hmode hne inds hok
  refine ⟨themes', h1, ?_⟩
  rw [h2, List.countP_eq_length_filter]
  congr 1
  apply List.filter_congr
  intro ind hind
  cases hw : ind.consent_withdrawn with
  | true => simp
  | false =>
      obtain ⟨-, heres⟩ := hok ind hind hw
      rw [any_ccNormalNonStop_eq_relevant episode ind hwf heres]

/-- C2 witness: the concrete one-configuration episode with one relevant
individual — the synthetic total counts exactly that individual. -/
theorem claim_C2_witness :
    ∃ themes', themePass [] demoRqaPlan [demoInd] = .ok themes' ∧
      themeCount themes' ThemeKey.totalRelevant =
        (([demoInd] : List Record).filter (fun ind =>
          !ind.consent_withdrawn && relevantIndB demoRqaPlan ind)).length :=
  claim_C2_total_relevant_counts_distinct [] demoRqaPlan
    (by unfold episodeWF; decide)
    (by
      intro cc hcc
      obtain rfl := List.mem_singleton.1 hcc
      rfl)
    (List.cons_ne_nil _ _) [demoInd] (by decide)
    (by
      intro ind hind _
      obtain rfl := List.mem_singleton.1 hind
      refine ⟨fun cc hcc _ => absurd hcc (by simp [allCCs]), ?_⟩
      intro cc hcc
      obtain rfl := List.mem_singleton.1 hcc
      exact ⟨[demoLabel], rfl, by decide⟩)

/-- C3: when the demographic pass succeeds and every non-withdrawn
individual's coded field resolves to one single-select code of each
configuration's scheme, the per-code counts of every configuration's
distribution sum to the number of non-withdrawn individuals. -/
theorem claim_C3_demog_counts_sum_population (plans : List CodingPlan)
    (inds : List Record) (hwf : DemogWF plans)
    (hres : ∀ ind ∈ inds, ind.consent_withdrawn = false →
      ∀ cc ∈ allCCs plans, cc.analysis_file_key ≠ none →
        demogResolves ind cc)
    (st : DemogState) (hok : demogPass plans inds = .ok st) :
    ∀ cc K, cc ∈ allCCs plans → cc.analysis_file_key = some K →
      distSum cc K st =
        (inds.filter (fun i => i.consent_withdrawn = false)).length := by
  by_cases hbad : ∃ ind ∈ inds, ind.consent_withdrawn = false ∧
      ∃ cc ∈ allCCs plans, cc.analysis_file_key ≠ none ∧
        ∃ c, singleCode ind cc = some c ∧ c.control_code = some Codes.STOP
  · obtain ⟨cid, herr⟩ := demogPass_stop plans inds hwf hres hbad
    rw [hok] at herr
    cases herr
  · push_neg at hbad
    have hres' : ∀ ind ∈ inds, ind.consent_withdrawn = false →
        ∀ cc ∈ allCCs plans, cc.analysis_file_key ≠ none →
          demogResolvesNonStop ind cc := by
      intro ind hind hw cc hcc hk
      obtain ⟨hm, c, hc⟩ := hres ind hind hw cc hcc hk
      exact ⟨hm, c, hc, hbad ind hind hw cc hcc hk c hc⟩
    obtain ⟨st', h1, -, h3⟩ := demogPass_ok plans inds hwf hres'
    rw [hok] at h1
    obtain rfl := Except.ok.inj h1
    intro cc K hcc hk
    exact h3 cc K hcc hk

/-- C3 witness: the concrete demographic catalog over a population whose
only individual is withdrawn — the distribution's counts sum to 0. -/
theorem claim_C3_witness :
    distSum demoDemogCC "gender" (initDemogState [demoDemogPlan]) =
      (([demoWithdrawn] : List Record).filter
        (fun i => i.consent_withdrawn = false)).length :=
  claim_C3_demog_counts_sum_population [demoDemogPlan] [demoWithdrawn]
    ⟨by decide, by decide⟩
    (by
      intro ind hind hw
      obtain rfl := List.mem_singleton.1 hind
      simp [demoWithdrawn] at hw)
    (initDemogState [demoDemogPlan]) rfl
    demoDemogCC "gender" (by simp [allCCs, demoDemogPlan]) rfl

/-- C4: the demographic distribution of a configuration with a non-null
analysis file key is pre-populated with a zero count for exactly the
non-STOP codes of its scheme (hence every NORMAL code; STOP codes get no
entry at all), and the export produces one row per non-STOP code (STOP
codes produce no row) with the `Percent` cell computed for NORMAL codes
and blank otherwise. -/
theorem claim_C4_demog_prepopulate_and_export (plans : List CodingPlan)
    (hnodup : (analysisKeys plans).Nodup)
    (cc : CodingConfiguration) (K : String)
    (hcc : cc ∈ allCCs plans) (hk : cc.analysis_file_key = some K)
    (dist : String → Option Tally) (tr : String → Option ℕ) (t : Tally)
    (d : ℕ) (hd : dist K = some t) (htr : tr K = some d) (hdpos : d ≠ 0)
    (hpres : ∀ code ∈ cc.code_scheme.codes,
      ¬ code.control_code = some Codes.STOP → (t code.code_id).isSome) :
    ((initDemogState plans).distributions K = some (prepopTally cc) ∧
      ∀ cid, prepopTally cc cid =
        (if cid ∈ (nonStopCodes cc).map (fun c => c.code_id)
         then some 0 else none)) ∧
    ∃ rows, demogExportCC dist tr cc = .ok rows ∧
      List.Forall₂ (fun (row : DemogRow) (code : Code) =>
        row.codeStr = code.string_value ∧
        row.participantsWithOptIns = (t code.code_id).getD 0 ∧
        row.percent = (if code.code_type = CodeType.NORMAL
          then .pct (pct1 ((t code.code_id).getD 0) d) else .blank))
        rows (cc.code_scheme.codes.filter
          (fun c => ¬ c.control_code = some Codes.STOP)) :=
  ⟨⟨(initDemogState_spec plans cc K hcc hk hnodup).1,
    fun cid => prepopTally_eq cc cid⟩,
   demogExportCC_ok cc K hk dist tr t d hd htr hdpos hpres⟩

/-- C4 witness: the concrete demographic configuration — its tally is
pre-populated for the non-STOP codes only, and its export succeeds with
one row per non-STOP code. -/
theorem claim_C4_witness :
    ((initDemogState [demoDemogPlan]).distributions "gender" =
        some (prepopTally demoDemogCC) ∧
      ∀ cid, prepopTally demoDemogCC cid =
        (if cid ∈ (nonStopCodes demoDemogCC).map (fun c => c.code_id)
         then some 0 else none)) ∧
    ∃ rows, demogExportCC (fun _ => some (prepopTally demoDemogCC))
        (fun _ => some 1) demoDemogCC = .ok rows ∧
      List.Forall₂ (fun (row : DemogRow) (code : Code) =>
        row.codeStr = code.string_value ∧
        row.participantsWithOptIns =
          ((prepopTally demoDemogCC) code.code_id).getD 0 ∧
        row.percent = (if code.code_type = CodeType.NORMAL
          then .pct (pct1 (((prepopTally demoDemogCC) code.code_id).getD 0) 1)
          else .blank))
        rows (demoDemogCC.code_scheme.codes.filter
          (fun c => ¬ c.control_code = some Codes.STOP)) :=
  claim_C4_demog_prepopulate_and_export [demoDemogPlan] (by decide)
    demoDemogCC "gender" (by simp [allCCs, demoDemogPlan]) rfl
    (fun _ => some (prepopTally demoDemogCC)) (fun _ => some 1)
    (prepopTally demoDemogCC) 1 rfl rfl (by decide) (by decide)

/-- C5 (amended): an unsupported coding mode is fatal, but the two passes
check at different points — the theme pass asserts multi-select during
per-episode set-up, so a non-MULTIPLE configuration aborts for every
individuals collection (even an empty one), while the demographic pass
asserts single-select inside the individuals loop, so a MULTIPLE
configuration with an analysis file key aborts exactly when at least one
non-withdrawn individual is processed. -/
theorem claim_C5_mode_assert_placement (surveyPlans : List CodingPlan)
    (episode : CodingPlan) (individuals : List Record)
    (hbadTheme : ∃ cc ∈ episode.coding_configurations,
      cc.coding_mode ≠ CodingModes.MULTIPLE)
    (plans : List CodingPlan) (inds : List Record) (hwf : DemogWF plans)
    (hres : ∀ ind ∈ inds, ind.consent_withdrawn = false →
      ∀ cc ∈ allCCs plans, cc.analysis_file_key ≠ none →
        cc.coding_mode = CodingModes.SINGLE → demogResolvesNonStop ind cc)
    (hbadDemog : ∃ cc ∈ allCCs plans, cc.analysis_file_key ≠ none ∧
      cc.coding_mode ≠ CodingModes.SINGLE)
    (hind : ∃ ind ∈ inds, ind.consent_withdrawn = false) :
    themePass surveyPlans episode individuals = .error .modeAssert ∧
    demogPass plans inds = .error .modeAssert :=
  ⟨themePass_modeAssert surveyPlans episode individuals hbadTheme,
   demogPass_modeAssert plans inds hwf hres hbadDemog hind⟩

/-- C5 witness: a single-select RQA configuration aborts the theme pass
even over an empty individuals collection, and a multi-select
demographic configuration aborts the demographic pass as soon as one
non-withdrawn individual is processed. -/
theorem claim_C5_witness :
    themePass [] demoSingleEpisode [] = .error .modeAssert ∧
    demogPass [demoMultiplePlan] [demoIndG] = .error .modeAssert :=
  claim_C5_mode_assert_placement [] demoSingleEpisode []
    ⟨demoSingleCC, List.mem_singleton.2 rfl, by decide⟩
    [demoMultiplePlan] [demoIndG] ⟨by decide, by decide⟩
    (by
      intro ind hind hw cc hcc hk hm
      exfalso
      have hc : cc = demoMultipleCC := by
        simpa [allCCs, demoMultiplePlan] using hcc
      rw [hc] at hm
      exact absurd hm (by decide))
    ⟨demoMultipleCC, by simp [allCCs, demoMultiplePlan], by decide, by decide⟩
    ⟨demoIndG, List.mem_singleton.2 rfl, rfl⟩

/-- C9: the demographic pass is total only when no non-withdrawn
individual resolves to a STOP code — a STOP-coded assignment increments
a tally key the pre-population deliberately skipped, so the pass aborts
with a missing-key error instead of counting or skipping the
individual. -/
theorem claim_C9_demog_stop_missing_key (plans : List CodingPlan)
    (inds : List Record) (hwf : DemogWF plans)
    (hres : ∀ ind ∈ inds, ind.consent_withdrawn = false →
      ∀ cc ∈ allCCs plans, cc.analysis_file_key ≠ none →
        demogResolves ind cc)
    (hbad : ∃ ind ∈ inds, ind.consent_withdrawn = false ∧
      ∃ cc ∈ allCCs plans, cc.analysis_file_key ≠ none ∧
        ∃ c, singleCode ind cc = some c ∧
          c.control_code = some Codes.STOP) :
    ∃ cid, demogPass plans inds = .error (.missingTallyKey cid) :=
  demogPass_stop plans inds hwf hres hbad

/-- C9 witness: the concrete individual coded with the STOP code makes
the demographic pass abort with a missing-key error. -/
theorem claim_C9_witness :
    ∃ cid, demogPass [demoDemogPlan] [demoIndStop] =
      .error (.missingTallyKey cid) :=
  claim_C9_demog_stop_missing_key [demoDemogPlan] [demoIndStop]
    ⟨by decide, by decide⟩
    (by
      intro ind hind hw cc hcc hk
      obtain rfl := List.mem_singleton.1 hind
      have hc : cc = demoDemogCC := by
        simpa [allCCs, demoDemogPlan] using hcc
      subst hc
      exact ⟨rfl, demoStopCode, rfl⟩)
    ⟨demoIndStop, List.mem_singleton.2 rfl, rfl,
      demoDemogCC, by simp [allCCs, demoDemogPlan], by decide,
      demoStopCode, rfl, rfl⟩

/-- C10: each per-theme row's `"Total Participants"` counts label
assignments rather than distinct individuals — for every non-withdrawn
individual, each label of the multi-select coded field resolving to a
non-STOP code of string value `sv` under analysis file key `afk`
increments the `(afk, sv)` row once, so the row's count is the sum over
non-withdrawn individuals of their per-label hit counts (a duplicated
label counts twice). -/
theorem claim_C10_theme_counts_label_assignments
    (surveyPlans : List CodingPlan) (episode : CodingPlan)
    (hwf : episodeWF episode)
    (hmode : ∀ cc ∈ episode.coding_configurations,
      cc.coding_mode = CodingModes.MULTIPLE)
    (hne : episode.coding_configurations ≠ [])
    (inds : List Record)
    (hok : ∀ ind ∈ inds, ind.consent_withdrawn = false →
      surveyResolves surveyPlans ind ∧ episodeResolves episode ind) :
    ∃ themes', themePass surveyPlans episode inds = .ok themes' ∧
      ∀ afk sv, themeCount themes' (ThemeKey.themeOf afk sv) =
        (inds.map (fun ind => if ind.consent_withdrawn = false
          then labelHits episode ind afk sv else 0)).sum := by
  obtain ⟨t, h1, -, h3⟩ :=
    themePass_ok surveyPlans episode hwf hmode hne inds hok
  exact ⟨t, h1, h3⟩

/-- C10 witness: the concrete individual whose coded field carries the
same label twice — the `"yes"` theme row counts both assignments. -/
theorem claim_C10_witness :
    ∃ themes', themePass [] demoRqaPlan [demoIndDouble] = .ok themes' ∧
      themeCount themes' (ThemeKey.themeOf (some "rqa_s01e01") "yes") =
        (([demoIndDouble] : List Record).map (fun ind =>
          if ind.consent_withdrawn = false
          then labelHits demoRqaPlan ind (some "rqa_s01e01") "yes"
          else 0)).sum := by
  obtain ⟨t, h1, h2⟩ := claim_C10_theme_counts_label_assignments []
    demoRqaPlan (by unfold episodeWF; decide)
    (by
      intro cc hcc
      obtain rfl := List.mem_singleton.1 hcc
      rfl)
    (List.cons_ne_nil _ _) [demoIndDouble]
    (by
      intro ind hind _
      obtain rfl := List.mem_singleton.1 hind
      refine ⟨fun cc hcc _ => absurd hcc (by simp [allCCs]), ?_⟩
      intro cc hcc
      obtain rfl := List.mem_singleton.1 hcc
      exact ⟨[demoLabel, demoLabel], rfl, by decide⟩)
  exact ⟨t, h1, h2 (some "rqa_s01e01") "yes"⟩

end WorldVision
